import Mathlib

/-!
# A shallow embedding of the `balazon/scheme` interpreter (`scheme.h`, `scheme.cpp`)

Modelling conventions.

* `std::shared_ptr<T>` is `Option T`; `none` is `nullptr`.  An `Environment` object lives in a
  heap (`State.heap`) and a pointer to it is its index; the global environment of
  `SchemeInterpreter` is allocated first, at address `0`.
* A C++ `List` is a chain of cons cells ending in a null `cdr`; the empty list is the cell
  whose `car` is null.  `List(car, cdr)` is only ever built with a null or a non-empty `cdr`,
  so a `List` object is exactly a Lean list of its elements.  A *pointer* to a `List` is an
  `Option (List Sexp)`: the `cdr` of a one-element list is `none`.
* Every `eval` returns a `shared_ptr<Sexp>`; failure is the null pointer.  Error messages
  written through `loge` are recorded in `State.log`.  The log level is `ERROR`, so the `logd`
  lines print nothing; a `*p` in such a line only binds a reference that is never read, also
  when `p` is null, and these lines are not modelled.
* Calling a method through a null pointer, dividing by zero and dividing `INT_MIN` by `-1` are
  undefined behaviour; the model stops with `Result.crash`.
* `int` is 32 bits wide: the results of the arithmetic are reduced with `wrapInt`, so an
  overflow of `+`, `-` or `*` wraps around.
* Recursion of `eval` is bounded by a fuel argument; `Result.outOfFuel` says that it ran out.
* An input stream is the list of the characters still to be read.  `is.get(c)` at the end of
  the stream fails and leaves `c` as it was.  The loop of `read` takes one unit of fuel for each
  pass and `ReadResult.outOfFuel` says that it ran out; `read` on a text that does not start a
  list goes on in `readAtom`, which is not modelled further (`ReadResult.readAtom`).
* `print` is the text written on `std::cout`.
-/

namespace Scheme

/-- The classes derived from `BasicArithmeticFunction`. -/
inductive ArithmeticOp where
  | AddFunction
  | MultiplyFunction
  | MinusFunction
  | DivisionFunction
  deriving Repr, DecidableEq

/-- The classes derived from `BasicCompareFunction`. -/
inductive CompareOp where
  | LessFunction
  | GreaterFunction
  | EqualFunction
  deriving Repr, DecidableEq

/-- The classes derived from `Lambda` that override `eval(context, params)`. -/
inductive Kind where
  | DefineFunction
  | CreateLambda
  | IfLambda
  | AndBooleanAggregateFunction
  | OrBooleanAggregateFunction
  | BasicCompareFunction (op : CompareOp)
  | BasicArithmeticFunction (op : ArithmeticOp)
  deriving Repr, DecidableEq

/-- The three classes derived from `SyntaxLambda` (`dynamic_cast<SyntaxLambda*>` succeeds). -/
def Kind.isSyntaxLambda : Kind → Bool
  | .DefineFunction => true
  | .CreateLambda => true
  | .IfLambda => true
  | _ => false

/-- The class hierarchy below `Sexp`.  `lambda` is an object whose dynamic type is `Lambda`
itself, with its four data members; `builtin` is an object of one of the derived classes, built
by `Lambda{env}` (null `arglist` and `body`, empty `args`). -/
inductive Sexp where
  | number (value : Int)
  | symbol (Name : String)
  | list (elements : List Sexp)
  | lambda (env : Option Nat) (arglist : Option (List Sexp)) (body : Option Sexp)
      (args : List String)
  | builtin (kind : Kind) (env : Option Nat)
  deriving Repr

/-- The messages written through `loge`. -/
inductive LogMsg where
  | moreNamesThanValues
  | variableUnbound (Name : String)
  | notEnoughArguments (got : Nat)
  | defineExpectsName
  | isUnbound (s : Sexp)
  | isNotANumber (s : Sexp)
  | divisionByZero
  deriving Repr

/-- An `Environment` object: `parent` and the map `variables` (here `vars`).  A key of the map
may be bound to the null pointer. -/
structure Environment where
  parent : Option Nat
  vars : List (String × Option Sexp)
  deriving Repr

/-- The mutable state of the interpreter: the `Environment` objects and the error log. -/
structure State where
  heap : List Environment
  log : List LogMsg
  deriving Repr

/-- What a call does: it returns `val` in state `st`, or it runs into undefined behaviour, or
the fuel of the model ran out. -/
inductive Result (α : Type) where
  | ok (val : α) (st : State)
  | crash
  | outOfFuel
  deriving Repr

/-- Append a message to the log: `loge << ...`. -/
def State.loge (st : State) (m : LogMsg) : State :=
  { st with log := st.log ++ [m] }

/-! ## `std::map<std::string, std::shared_ptr<Sexp>>` -/

/-- Lookup `variables.find(name)`: `none` when `variables.count(name) == 0`. -/
def mapFind : List (String × Option Sexp) → String → Option (Option Sexp)
  | [], _ => none
  | (k, v) :: rest, name => if k = name then some v else mapFind rest name

/-- Assignment `variables[name] = val`. -/
def mapSet : List (String × Option Sexp) → String → Option Sexp → List (String × Option Sexp)
  | [], name, val => [(name, val)]
  | (k, v) :: rest, name, val =>
    if k = name then (k, val) :: rest else (k, v) :: mapSet rest name val

/-! ## `Environment` -/

/-- Method `Environment::bindArg` on the object at address `env`. -/
def bindArg (st : State) (env : Nat) (name : String) (val : Option Sexp) : State :=
  { st with heap := st.heap.modify (fun e => { e with vars := mapSet e.vars name val }) env }

/-- The `while` loop of `Environment::getValue`, at most `n` frames deep. -/
def getValueLoop (heap : List Environment) : Nat → Option Nat → String → Option Sexp
  | 0, _, _ => none
  | _ + 1, none, _ => none
  | n + 1, some env, name =>
    match heap.get? env with
    | none => none
    | some e =>
      match mapFind e.vars name with
      | some v => v
      | none => getValueLoop heap n e.parent name

/-- Method `Environment::getValue` on the object at address `env`.  A parent is allocated before its
children, so the chain that starts at `env` has at most `env + 1` frames. -/
def getValue (st : State) (env : Nat) (name : String) : Option Sexp :=
  getValueLoop st.heap (env + 1) (some env) name

/-- Allocation by `make_shared<Environment>(...)`: the new object gets the next free address. -/
def allocEnvironment (st : State) (e : Environment) : Result Nat :=
  .ok st.heap.length { st with heap := st.heap ++ [e] }

/-! ## Expressions -/

/-- Method `Sexp::operator bool`, overridden by `Symbol::operator bool`. -/
def Sexp.operatorBool : Sexp → Bool
  | .symbol Name => Name != "#f"
  | _ => true

/-- The loop of the `Lambda` constructor: the names of the symbols of `arglist`; `none` when an
element is not a `Symbol` (`arg->getName()` on a null pointer). -/
def Lambda_args : List Sexp → Option (List String)
  | [] => some []
  | .symbol Name :: rest =>
    match Lambda_args rest with
    | some names => some (Name :: names)
    | none => none
  | _ :: _ => none

/-- Constructor call `std::make_shared<Lambda>(env, arglist, body)`. -/
def Lambda_new (st : State) (env : Option Nat) (arglist : Option (List Sexp))
    (body : Option Sexp) : Result (Option Sexp) :=
  match arglist, body with
  | some al, some _ =>
    match Lambda_args al with
    | some args => .ok (some (.lambda env arglist body args)) st
    | none => .crash
  | _, _ => .ok (some (.lambda env arglist body [])) st

/-- Method `Symbol::eval`. -/
def Symbol_eval (st : State) (context : Option Nat) (Name : String) : Result (Option Sexp) :=
  match context with
  | none => .crash
  | some c =>
    match getValue st c Name with
    | none => .ok none (st.loge (.variableUnbound Name))
    | some exp => .ok (some exp) st

/-- The 32-bit two's complement value of an integer. -/
def wrapInt (x : Int) : Int := (x + 2147483648) % 4294967296 - 2147483648

/-- Method `do_operator` of the four arithmetic classes; `none` is the undefined `left / right`:
the division by zero and the division of `INT_MIN` by `-1`, whose quotient is not an `int`. -/
def ArithmeticOp.do_operator : ArithmeticOp → Int → Int → Option Int
  | .AddFunction, left, right => some (wrapInt (left + right))
  | .MultiplyFunction, left, right => some (wrapInt (left * right))
  | .MinusFunction, left, right => some (wrapInt (left - right))
  | .DivisionFunction, left, right =>
    if right = 0 ∨ (left = -2147483648 ∧ right = -1) then none
    else some (wrapInt (Int.tdiv left right))

/-- Method `checkParamsValid`: `true` in the base class; `DivisionFunction` overrides it, logs and
returns `false` when `right == 0`. -/
def ArithmeticOp.checkParamsValid (op : ArithmeticOp) (st : State) (_left right : Int) :
    Bool × State :=
  match op with
  | .DivisionFunction => if right = 0 then (false, st.loge .divisionByZero) else (true, st)
  | _ => (true, st)

/-- Method `do_operator` of the three comparison classes. -/
def CompareOp.do_operator : CompareOp → Int → Int → Bool
  | .LessFunction, left, right => decide (left < right)
  | .GreaterFunction, left, right => decide (left > right)
  | .EqualFunction, left, right => decide (left = right)

/-! ## Rendering -/

/-- The text of an `int` in decimal, as `operator<<` writes it. -/
def printInt : Int → List Char
  | .ofNat n => Nat.toDigits 10 n
  | .negSucc n => '-' :: Nat.toDigits 10 (n + 1)

/-- The text the `print` method of a class derived from `Lambda` writes. -/
def Kind.print : Kind → List Char
  | .DefineFunction => "default_define".data
  | .CreateLambda => "create lambda".data
  | .IfLambda => "if form".data
  | .AndBooleanAggregateFunction => "BasicAnd".data
  | .OrBooleanAggregateFunction => "BasicOr".data
  | .BasicCompareFunction .LessFunction => "basic<".data
  | .BasicCompareFunction .GreaterFunction => "basic>".data
  | .BasicCompareFunction .EqualFunction => "basic=".data
  | .BasicArithmeticFunction .AddFunction => "basic+".data
  | .BasicArithmeticFunction .MultiplyFunction => "basic*".data
  | .BasicArithmeticFunction .MinusFunction => "basic-".data
  | .BasicArithmeticFunction .DivisionFunction => "basic/".data

/-- The loop of `Lambda::print` over `args`. -/
def Lambda_print_args : List String → List Char → List Char
  | [], _ => []
  | arg :: rest, pfx => pfx ++ arg.data ++ Lambda_print_args rest [' ']

mutual
/-- The text that `std::cout << *exp` writes (`SchemeInterpreter::print`): `Number::print`,
`Symbol::print`, `List::print`, `Lambda::print` and the `print` of the derived classes.  `Number`
and the parameter names of a `Lambda` are written to `std::cout` whatever the stream is, so the
text is in order only on `std::cout`.  `none` is the crash of `Lambda::print` on a null `body`. -/
def Sexp_print : Sexp → Option (List Char)
  | .number value => some (printInt value)
  | .symbol Name => some Name.data
  | .list elements =>
    match List_print_elements elements [] with
    | some text => some ('(' :: text ++ [')'])
    | none => none
  | .lambda _ _ none _ => none
  | .lambda _ _ (some body) args =>
    match Sexp_print body with
    | some text =>
      some ("(lambda (".data ++ Lambda_print_args args [] ++ ") ".data ++ text ++ [')'])
    | none => none
  | .builtin kind _ => some kind.print
/-- The loop of `List::print`: every element after the `prefix`, which is empty for the first
element and a blank for the others. -/
def List_print_elements : List Sexp → List Char → Option (List Char)
  | [], _ => some []
  | s :: rest, pfx =>
    match Sexp_print s, List_print_elements rest [' '] with
    | some text, some texts => some (pfx ++ text ++ texts)
    | _, _ => none
end

/-! ## The primitive procedures -/

/-- Function `CommonInteger::ConvertAndCheck`: the number, or null after an error message.  The
message starts with the text of `*s`, and writing that text is the crash of `Lambda::print`
when `s` is, or is a list that holds, a `Lambda` with a null `body`. -/
def ConvertAndCheck (st : State) (s : Sexp) : Result (Option Int) :=
  match s with
  | .symbol _ => .ok none (st.loge (.isUnbound s))
  | .number value => .ok (some value) st
  | _ =>
    match Sexp_print s with
    | some _ => .ok none (st.loge (.isNotANumber s))
    | none => .crash

/-- The `for` loop of `BasicArithmeticFunction::eval` and its `return`. -/
def BasicArithmeticFunction_loop (op : ArithmeticOp) :
    State → Int → List Sexp → Result (Option Sexp)
  | st, res, [] => .ok (some (.number res)) st
  | st, res, s :: rest =>
    match ConvertAndCheck st s with
    | .ok none st1 => .ok none st1
    | .ok (some num) st1 =>
      match op.checkParamsValid st1 res num with
      | (true, st2) =>
        match op.do_operator res num with
        | some r => BasicArithmeticFunction_loop op st2 r rest
        | none => .crash
      | (false, st2) => .ok none st2
    | .crash => .crash
    | .outOfFuel => .outOfFuel

/-- Method `BasicArithmeticFunction::eval`. -/
def BasicArithmeticFunction_eval (op : ArithmeticOp) (st : State)
    (params : Option (List Sexp)) : Result (Option Sexp) :=
  match params with
  | none => .crash
  | some ps =>
    if ps.length < 2 then .ok none (st.loge (.notEnoughArguments ps.length))
    else
      match ps with
      | [] => .crash
      | car :: cdr =>
        match ConvertAndCheck st car with
        | .ok none st1 => .ok none st1
        | .ok (some num) st1 => BasicArithmeticFunction_loop op st1 num cdr
        | .crash => .crash
        | .outOfFuel => .outOfFuel

/-- The `for` loop of `BasicCompareFunction::eval` and its `return`; `env` is the environment
the primitive was built with. -/
def BasicCompareFunction_loop (op : CompareOp) (env : Option Nat) :
    State → Int → Bool → List Sexp → Result (Option Sexp)
  | st, _, res, [] =>
    match env with
    | none => .crash
    | some e => .ok (if res then getValue st e "#t" else getValue st e "#f") st
  | st, val, res, s :: rest =>
    match ConvertAndCheck st s with
    | .ok none st1 => .ok none st1
    | .ok (some num) st1 =>
      BasicCompareFunction_loop op env st1 num (res && op.do_operator val num) rest
    | .crash => .crash
    | .outOfFuel => .outOfFuel

/-- Method `BasicCompareFunction::eval`. -/
def BasicCompareFunction_eval (op : CompareOp) (env : Option Nat) (st : State)
    (params : Option (List Sexp)) : Result (Option Sexp) :=
  match params with
  | none => .crash
  | some ps =>
    if ps.length < 2 then .ok none (st.loge (.notEnoughArguments ps.length))
    else
      match ps with
      | [] => .crash
      | car :: cdr =>
        match ConvertAndCheck st car with
        | .ok none st1 => .ok none st1
        | .ok (some num) st1 => BasicCompareFunction_loop op env st1 num true cdr
        | .crash => .crash
        | .outOfFuel => .outOfFuel

/-- The type of `Sexp::eval(context)`, the evaluator the methods below call back into. -/
abbrev Evaluator := State → Option Nat → Sexp → Result (Option Sexp)

/-- The `for` loop of `AndBooleanAggregateFunction::eval` and its final `return`. -/
def AndBooleanAggregateFunction_loop (ev : Evaluator) (env context : Option Nat) :
    State → List Sexp → Result (Option Sexp)
  | st, [] =>
    match env with
    | none => .crash
    | some e => .ok (getValue st e "#t") st
  | st, s :: rest =>
    match ev st context s with
    | .ok none _ => .crash
    | .ok (some head) st1 =>
      if !head.operatorBool then
        match env with
        | none => .crash
        | some e => .ok (getValue st1 e "#f") st1
      else AndBooleanAggregateFunction_loop ev env context st1 rest
    | .crash => .crash
    | .outOfFuel => .outOfFuel

/-- Method `AndBooleanAggregateFunction::eval`. -/
def AndBooleanAggregateFunction_eval (ev : Evaluator) (env : Option Nat) (st : State)
    (context : Option Nat) (params : Option (List Sexp)) : Result (Option Sexp) :=
  match params with
  | none => .crash
  | some ps =>
    if ps.length < 1 then .ok none (st.loge (.notEnoughArguments ps.length))
    else AndBooleanAggregateFunction_loop ev env context st ps

/-- The `for` loop of `OrBooleanAggregateFunction::eval` and its final `return`. -/
def OrBooleanAggregateFunction_loop (ev : Evaluator) (env context : Option Nat) :
    State → List Sexp → Result (Option Sexp)
  | st, [] =>
    match env with
    | none => .crash
    | some e => .ok (getValue st e "#f") st
  | st, s :: rest =>
    match ev st context s with
    | .ok none _ => .crash
    | .ok (some head) st1 =>
      if !head.operatorBool then
        match env with
        | none => .crash
        | some e => .ok (getValue st1 e "#t") st1
      else OrBooleanAggregateFunction_loop ev env context st1 rest
    | .crash => .crash
    | .outOfFuel => .outOfFuel

/-- Method `OrBooleanAggregateFunction::eval`. -/
def OrBooleanAggregateFunction_eval (ev : Evaluator) (env : Option Nat) (st : State)
    (context : Option Nat) (params : Option (List Sexp)) : Result (Option Sexp) :=
  match params with
  | none => .crash
  | some ps =>
    if ps.length < 1 then .ok none (st.loge (.notEnoughArguments ps.length))
    else OrBooleanAggregateFunction_loop ev env context st ps

/-! ## The special forms -/

/-- Method `CreateLambda::eval`: `params` is the unevaluated tail `((vars ...) body)`. -/
def CreateLambda_eval (st : State) (context : Option Nat) (params : Option (List Sexp)) :
    Result (Option Sexp) :=
  match params with
  | none => .crash
  | some ps =>
    if ps.length < 2 then .ok none (st.loge (.notEnoughArguments ps.length))
    else
      match ps with
      | car :: body :: _ =>
        let funargs : Option (List Sexp) :=
          match car with
          | .list elements => some elements
          | _ => none
        Lambda_new st context funargs (some body)
      | _ => .crash

/-- Method `DefineFunction::eval`; `env` is the environment the `DefineFunction` object was built
with. -/
def DefineFunction_eval (ev : Evaluator) (env : Option Nat) (st : State) (context : Option Nat)
    (params : Option (List Sexp)) : Result (Option Sexp) :=
  match params with
  | none => .crash
  | some (.symbol Name :: cdr) =>
    match cdr with
    | [] => .crash
    | exp :: _ =>
      match ev st context exp with
      | .ok val st1 =>
        match env with
        | none => .crash
        | some e => .ok val (bindArg st1 e Name val)
      | .crash => .crash
      | .outOfFuel => .outOfFuel
  | some (.list first :: cdr) =>
    match cdr with
    | [] => .crash
    | body :: _ =>
      let funargs : List Sexp := first.tail
      match ev st context (.list [.symbol "lambda", .list funargs, body]) with
      | .ok val st1 =>
        match first.head?, env with
        | some (.symbol Name), some e => .ok val (bindArg st1 e Name val)
        | _, _ => .crash
      | .crash => .crash
      | .outOfFuel => .outOfFuel
  | some _ => .ok none (st.loge .defineExpectsName)

/-- Method `IfLambda::eval`. -/
def IfLambda_eval (ev : Evaluator) (st : State) (context : Option Nat)
    (params : Option (List Sexp)) : Result (Option Sexp) :=
  match params with
  | none => .crash
  | some [] => .crash
  | some (testExp :: cdr) =>
    match ev st context testExp with
    | .ok test st1 =>
      match cdr with
      | trueExp :: falseExp :: _ =>
        match test with
        | none => .crash
        | some t => if t.operatorBool then ev st1 context trueExp else ev st1 context falseExp
      | _ => .crash
    | .crash => .crash
    | .outOfFuel => .outOfFuel

/-- Method `eval(context, params)` of the classes that override it. -/
def Builtin_eval (ev : Evaluator) (kind : Kind) (env : Option Nat) (st : State)
    (context : Option Nat) (params : Option (List Sexp)) : Result (Option Sexp) :=
  match kind with
  | .DefineFunction => DefineFunction_eval ev env st context params
  | .CreateLambda => CreateLambda_eval st context params
  | .IfLambda => IfLambda_eval ev st context params
  | .AndBooleanAggregateFunction => AndBooleanAggregateFunction_eval ev env st context params
  | .OrBooleanAggregateFunction => OrBooleanAggregateFunction_eval ev env st context params
  | .BasicCompareFunction op => BasicCompareFunction_eval op env st params
  | .BasicArithmeticFunction op => BasicArithmeticFunction_eval op st params

/-! ## Closure application -/

/-- The binding loop of the `Environment` constructor: each value is evaluated in `parent` and
bound to the name at the same position; the loop ends with the shorter of the two sequences. -/
def Environment_bind (ev : Evaluator) (parent : Option Nat) :
    State → List String → List Sexp → List (String × Option Sexp) →
      Result (List (String × Option Sexp))
  | st, name :: names, s :: values, vars =>
    match ev st parent s with
    | .ok valEval st1 => Environment_bind ev parent st1 names values (mapSet vars name valEval)
    | .crash => .crash
    | .outOfFuel => .outOfFuel
  | st, _, _, vars => .ok vars st

/-- Constructor call `std::make_shared<Environment>(parent, names, values)`: the address of the new object. -/
def Environment_new (ev : Evaluator) (st : State) (parent : Option Nat) (names : List String)
    (values : Option (List Sexp)) : Result Nat :=
  match values with
  | none => allocEnvironment st { parent := parent, vars := [] }
  | some vs =>
    if names.length > vs.length then
      allocEnvironment (st.loge .moreNamesThanValues) { parent := parent, vars := [] }
    else
      match Environment_bind ev parent st names vs [] with
      | .ok vars st1 => allocEnvironment st1 { parent := parent, vars := vars }
      | .crash => .crash
      | .outOfFuel => .outOfFuel

/-- Method `Lambda::eval(context, params)`, the function call of a user closure.  The `context`
argument is not used by the source. -/
def Lambda_call (ev : Evaluator) (st : State) (env : Option Nat) (body : Option Sexp)
    (args : List String) (params : Option (List Sexp)) : Result (Option Sexp) :=
  match Environment_new ev st env args params with
  | .ok functionEnv st1 =>
    match body with
    | none => .crash
    | some b => ev st1 (some functionEnv) b
  | .crash => .crash
  | .outOfFuel => .outOfFuel

/-! ## `List::eval` -/

/-- The argument loop of `List::eval`: every element of `cdr` is evaluated in `context`, and
the first null result ends the loop with a null result. -/
def List_eval_args (ev : Evaluator) (context : Option Nat) :
    State → List Sexp → Result (Option (List Sexp))
  | st, [] => .ok (some []) st
  | st, s :: rest =>
    match ev st context s with
    | .ok none st1 => .ok none st1
    | .ok (some seval) st1 =>
      match List_eval_args ev context st1 rest with
      | .ok (some args) st2 => .ok (some (seval :: args)) st2
      | .ok none st2 => .ok none st2
      | .crash => .crash
      | .outOfFuel => .outOfFuel
    | .crash => .crash
    | .outOfFuel => .outOfFuel

/-- The pointer `cdr` of a non-empty list with the given tail. -/
def cdrPtr (tail : List Sexp) : Option (List Sexp) :=
  match tail with
  | [] => none
  | _ :: _ => some tail

/-- The first step of `List::eval` on a non-empty list: the value `exp` of the head.  A symbol
is looked up with `getValue` (no message when it is unbound), anything else is evaluated. -/
def List_eval_head (ev : Evaluator) (st : State) (context : Option Nat) (car : Sexp) :
    Result (Option Sexp) :=
  match car with
  | .symbol Name =>
    match context with
    | none => .crash
    | some c => .ok (getValue st c Name) st
  | _ => ev st context car

/-- The call `lambda->eval(nullptr, lambda_args)` at the end of `List::eval`, dispatched on the
dynamic type of the procedure. -/
def Lambda_eval_call (ev : Evaluator) (st : State) (lambda : Sexp) (params : Option (List Sexp)) :
    Result (Option Sexp) :=
  match lambda with
  | .lambda env _ body args => Lambda_call ev st env body args params
  | .builtin kind env => Builtin_eval ev kind env st none params
  | _ => .crash

/-- Method `List::eval`. -/
def List_eval (ev : Evaluator) (st : State) (context : Option Nat) (elements : List Sexp) :
    Result (Option Sexp) :=
  match elements with
  | [] => .ok (some (.list [])) st
  | car :: cdr =>
    match List_eval_head ev st context car with
    | .ok exp st1 =>
      match exp with
      | some (.builtin kind env) =>
        if kind.isSyntaxLambda then Builtin_eval ev kind env st1 context (cdrPtr cdr)
        else
          match List_eval_args ev context st1 cdr with
          | .ok (some args) st2 => Lambda_eval_call ev st2 (.builtin kind env) (some args)
          | .ok none st2 => .ok none st2
          | .crash => .crash
          | .outOfFuel => .outOfFuel
      | some (.lambda env arglist body names) =>
        match List_eval_args ev context st1 cdr with
        | .ok (some args) st2 =>
          Lambda_eval_call ev st2 (.lambda env arglist body names) (some args)
        | .ok none st2 => .ok none st2
        | .crash => .crash
        | .outOfFuel => .outOfFuel
      | _ => .ok (some (.list (car :: cdr))) st1
    | .crash => .crash
    | .outOfFuel => .outOfFuel

/-! ## `Sexp::eval` -/

/-- One level of the virtual method `eval(context)`: `Number::eval`, `Symbol::eval`,
`List::eval` and `Lambda::eval(context)` (which the derived classes inherit). -/
def Sexp_eval (ev : Evaluator) (st : State) (context : Option Nat) (s : Sexp) :
    Result (Option Sexp) :=
  match s with
  | .number value => .ok (some (.number value)) st
  | .symbol Name => Symbol_eval st context Name
  | .list elements => List_eval ev st context elements
  | .lambda env arglist body _ => Lambda_new st env arglist body
  | .builtin _ env => Lambda_new st env none none

/-- The evaluator `s->eval(context)`, with recursion depth at most `fuel`. -/
def eval : Nat → Evaluator
  | 0 => fun _ _ _ => .outOfFuel
  | fuel + 1 => Sexp_eval (eval fuel)

/-! ## `SchemeInterpreter` -/

/-- The address of the global environment (`SchemeInterpreter::global`). -/
def global : Nat := 0

/-- The text `(define not (lambda (x) (if x #f #t)))` as `read` delivers it. -/
def notDefinition : Sexp :=
  .list [.symbol "define", .symbol "not",
    .list [.symbol "lambda", .list [.symbol "x"],
      .list [.symbol "if", .symbol "x", .symbol "#f", .symbol "#t"]]]

/-- The bindings the constructor makes before it defines `not`. -/
def SchemeInterpreter_new_first : State :=
  let st : State := { heap := [{ parent := none, vars := [] }], log := [] }
  let st := bindArg st global "exit" (some (.symbol "exit"))
  let st := bindArg st global "help" (some (.symbol "help"))
  let st := bindArg st global "logdebug" (some (.symbol "logdebug"))
  let st := bindArg st global "logerror" (some (.symbol "logerror"))
  let st := bindArg st global "lognone" (some (.symbol "lognone"))
  let st := bindArg st global "define" (some (.builtin .DefineFunction (some global)))
  let st := bindArg st global "lambda" (some (.builtin .CreateLambda (some global)))
  let st := bindArg st global "if" (some (.builtin .IfLambda (some global)))
  let st := bindArg st global "#t" (some (.symbol "#t"))
  bindArg st global "#f" (some (.symbol "#f"))

/-- The bindings the constructor makes after it defined `not`. -/
def SchemeInterpreter_new_rest (st : State) : State :=
  let st := bindArg st global "and" (some (.builtin .AndBooleanAggregateFunction (some global)))
  let st := bindArg st global "or" (some (.builtin .OrBooleanAggregateFunction (some global)))
  let st := bindArg st global "<" (some (.builtin (.BasicCompareFunction .LessFunction) (some global)))
  let st := bindArg st global ">" (some (.builtin (.BasicCompareFunction .GreaterFunction) (some global)))
  let st := bindArg st global "=" (some (.builtin (.BasicCompareFunction .EqualFunction) (some global)))
  let st := bindArg st global "+" (some (.builtin (.BasicArithmeticFunction .AddFunction) (some global)))
  let st := bindArg st global "*" (some (.builtin (.BasicArithmeticFunction .MultiplyFunction) (some global)))
  let st := bindArg st global "-" (some (.builtin (.BasicArithmeticFunction .MinusFunction) (some global)))
  bindArg st global "/" (some (.builtin (.BasicArithmeticFunction .DivisionFunction) (some global)))

/-- The state the constructor `SchemeInterpreter::SchemeInterpreter` leaves. -/
def SchemeInterpreter_new : State :=
  match eval 3 SchemeInterpreter_new_first (some global) notDefinition with
  | .ok _ st => SchemeInterpreter_new_rest st
  | _ => SchemeInterpreter_new_rest SchemeInterpreter_new_first

/-- Method `SchemeInterpreter::eval(std::shared_ptr<Sexp>)`: evaluation in the global environment. -/
def SchemeInterpreter_eval (fuel : Nat) (st : State) (exp : Sexp) : Result (Option Sexp) :=
  eval fuel st (some global) exp

/-! ## The reader -/

/-- Function `isspace` in the "C" locale. -/
def isspace (c : Char) : Bool :=
  c = ' ' || c = '\t' || c = '\n' || c = '\x0b' || c = '\x0c' || c = '\r'

/-- The decimal value of the digits at the front of a text, continuing from `acc`. -/
def strtol_digits : List Char → Nat → Nat
  | [], acc => acc
  | ch :: rest, acc =>
    if ch.isDigit then strtol_digits rest (acc * 10 + (ch.toNat - 48)) else acc

/-- Function `strtol(text, nullptr, 10)` with a `long` of 64 bits: white space, an optional
sign and the digits that follow are converted, whatever comes after them is ignored, and the
value saturates at `LONG_MIN` and `LONG_MAX`. -/
def strtol (text : List Char) : Int :=
  match text.dropWhile isspace with
  | '-' :: rest => max (-9223372036854775808) (-(strtol_digits rest 0 : Int))
  | '+' :: rest => min 9223372036854775807 (strtol_digits rest 0 : Int)
  | rest => min 9223372036854775807 (strtol_digits rest 0 : Int)

/-- Method `SchemeInterpreter::createAtom`; `int num = strtol(...)` keeps the low 32 bits. -/
def createAtom (temp : List Char) : Sexp :=
  if wrapInt (strtol temp) ≠ 0 ∨ temp = ['0'] then .number (wrapInt (strtol temp))
  else .symbol (String.mk temp)

/-- The local variables of `SchemeInterpreter::read` and the rest of the stream `is`. -/
structure ReadState where
  c : Char
  comment : Bool
  parentheses : Nat
  listElements : List (List Sexp)
  temp : List Char
  is : List Char
  deriving Repr

/-- What `SchemeInterpreter::read` does: it returns the list `exp` and leaves `is`; or it calls
`readAtom(c)`, which reads `std::cin` (no `c` when nothing was read into it); or it throws
`"parsing error"`; or it runs into undefined behaviour; or the fuel ran out. -/
inductive ReadResult where
  | ok (exp : Sexp) (is : List Char)
  | readAtom (c : Option Char) (is : List Char)
  | parsingError
  | crash
  | outOfFuel
  deriving Repr

/-- One pass through the body of the `do` loop: the next state, or the end of `read`. -/
inductive ReadStep where
  | next (s : ReadState)
  | done (r : ReadResult)
  deriving Repr

/-- The loop `while(is.get(c) && isspace(c));` at the start of `read`. -/
def read_first : Option Char → List Char → Option Char × List Char
  | c, [] => (c, [])
  | _, ch :: rest => if isspace ch then read_first (some ch) rest else (some ch, rest)

/-- The loop `while(comment)`: at most `fuel` calls of `is.get(c)`; a failed `get` leaves `c`
as it was.  The result is `c` and the stream after the loop, `none` when the fuel ran out. -/
def read_comment : Nat → Char → List Char → Option (Char × List Char)
  | 0, _, _ => none
  | fuel + 1, c, [] => if c = '\n' then some (c, []) else read_comment fuel c []
  | fuel + 1, _, ch :: rest => if ch = '\n' then some (ch, rest) else read_comment fuel ch rest

/-- The loop `while(is.get(c) && isspace(c)) wasDelimiter = true;`: the values of `c` and
`wasDelimiter` and the stream after it; a failed `get` leaves `c` as it was. -/
def read_skip : Char → Bool → List Char → Char × Bool × List Char
  | c, wasDelimiter, [] => (c, wasDelimiter, [])
  | _, wasDelimiter, ch :: rest =>
    if isspace ch then read_skip ch true rest else (ch, wasDelimiter, rest)

/-- The statement `listElements[i].push_back(x)`; `none` when there is no `listElements[i]`. -/
def pushAt (listElements : List (List Sexp)) (i : Nat) (x : Sexp) : Option (List (List Sexp)) :=
  if i < listElements.length then some (listElements.modify (fun v => v ++ [x]) i) else none

/-- The call `getline(is, line)` before `return l`: the stream after the end of the line. -/
def dropLine : List Char → List Char
  | [] => []
  | ch :: rest => if ch = '\n' then rest else dropLine rest

/-- The rest of the body of the `do` loop, after the two inner loops: the atom in `temp` is
stored when a delimiter was met, then the `switch` on `c`. -/
def read_switch (s : ReadState) (wasDelimiter : Bool) : ReadStep :=
  let wasDelimiter := wasDelimiter || s.c = '(' || s.c = ')'
  let flushed : Option ReadState :=
    if wasDelimiter && !s.temp.isEmpty then
      match s.parentheses with
      | 0 => none
      | p + 1 =>
        match pushAt s.listElements p (createAtom s.temp) with
        | some v => some { s with listElements := v, temp := [] }
        | none => none
    else some s
  match flushed with
  | none => .done .crash
  | some s =>
    if s.c = ')' then
      match s.parentheses with
      | 0 => .done .crash
      | p + 1 =>
        match s.listElements.get? p with
        | none => .done .crash
        | some elements =>
          match p with
          | 0 => .done (.ok (.list elements) (dropLine s.is))
          | q + 1 =>
            match pushAt s.listElements.dropLast q (.list elements) with
            | some v => .next { s with parentheses := q + 1, listElements := v }
            | none => .done .crash
    else if s.c = '(' then
      .next { s with parentheses := s.parentheses + 1, listElements := s.listElements ++ [[]] }
    else if s.c = ';' then .next { s with comment := true }
    else .next { s with temp := s.temp ++ [s.c] }

/-- The `do ... while(parentheses > 0)` loop of `read` and the `throw` after it; one unit of fuel
for each pass. -/
def read_loop : Nat → ReadState → ReadResult
  | 0, _ => .outOfFuel
  | fuel + 1, s =>
    match (if s.comment then read_comment fuel s.c s.is else some (s.c, s.is)) with
    | none => .outOfFuel
    | some (c1, is1) =>
      match read_skip c1 false is1 with
      | (c2, wasDelimiter, is2) =>
        match read_switch { s with c := c2, comment := false, is := is2 } wasDelimiter with
        | .done r => r
        | .next s1 => if s1.parentheses > 0 then read_loop fuel s1 else .parsingError

/-- Method `SchemeInterpreter::read` on the stream `is`. -/
def read (fuel : Nat) (is : List Char) : ReadResult :=
  match read_first none is with
  | (some '(', is1) =>
    read_loop fuel
      { c := '(', comment := false, parentheses := 1, listElements := [[]], temp := [], is := is1 }
  | (c, is1) => .readAtom c is1

/-! ## Vocabulary of the specification -/

/-- The mathematical operator an arithmetic primitive stands for (`/` truncates toward zero). -/
def ArithmeticOp.spec : ArithmeticOp → Int → Int → Int
  | .AddFunction, x, y => x + y
  | .MultiplyFunction, x, y => x * y
  | .MinusFunction, x, y => x - y
  | .DivisionFunction, x, y => Int.tdiv x y

/-- The relation a comparison primitive stands for. -/
def CompareOp.spec : CompareOp → Int → Int → Prop
  | .LessFunction, x, y => x < y
  | .GreaterFunction, x, y => x > y
  | .EqualFunction, x, y => x = y

instance (op : CompareOp) (x y : Int) : Decidable (op.spec x y) := by
  cases op <;> unfold CompareOp.spec <;> infer_instance

/-- The values of type `int`. -/
def inIntRange (x : Int) : Prop := -2147483648 ≤ x ∧ x ≤ 2147483647

instance (x : Int) : Decidable (inIntRange x) := by
  unfold inIntRange
  infer_instance

/-- A closure or a primitive: a `Lambda` object that is not a `SyntaxLambda`. -/
def Sexp.isApplicative : Sexp → Bool
  | .lambda _ _ _ _ => true
  | .builtin kind _ => !kind.isSyntaxLambda
  | _ => false

/-- The state after `SchemeInterpreter::eval(exp)`. -/
def stateAfter (fuel : Nat) (st : State) (exp : Sexp) : State :=
  match SchemeInterpreter_eval fuel st exp with
  | .ok _ st1 => st1
  | _ => st

/-- The text `(define (make-adder n) (lambda (x) (+ x n)))`. -/
def makeAdderDefinition : Sexp :=
  .list [.symbol "define", .list [.symbol "make-adder", .symbol "n"],
    .list [.symbol "lambda", .list [.symbol "x"],
      .list [.symbol "+", .symbol "x", .symbol "n"]]]

/-- The interpreter after `(define (make-adder n) (lambda (x) (+ x n)))`. -/
def makeAdderState : State :=
  stateAfter 3 SchemeInterpreter_new makeAdderDefinition

/-- The interpreter after `(define (make-adder n) (lambda (x) (+ x n)))` and `(define n m)`. -/
def makeAdderStateWith (m : Int) : State :=
  stateAfter 2 makeAdderState (.list [.symbol "define", .symbol "n", .number m])

/-- The evaluator `ev2` returns what `ev1` returns wherever `ev1` does not run out of fuel. -/
def Evaluator.le (ev1 ev2 : Evaluator) : Prop :=
  ∀ st c s, ev1 st c s = .outOfFuel ∨ ev2 st c s = ev1 st c s

/-- The expressions `es` evaluate one after the other, from state `st` on, to the values `vals`
and leave state `st1`: none of them fails. -/
inductive EvaluatesAll (ev : Evaluator) (context : Option Nat) :
    State → List Sexp → List Sexp → State → Prop where
  | nil (st : State) : EvaluatesAll ev context st [] [] st
  | cons {st st1 st2 : State} {s v : Sexp} {rest vals : List Sexp}
      (hs : ev st context s = .ok (some v) st1)
      (hrest : EvaluatesAll ev context st1 rest vals st2) :
      EvaluatesAll ev context st (s :: rest) (v :: vals) st2

/-- The frames `Environment::getValue` visits from `start` on, innermost first, at most `n` of
them. -/
def chainLoop (heap : List Environment) : Nat → Option Nat → List Environment
  | 0, _ => []
  | _ + 1, none => []
  | n + 1, some env =>
    match heap.get? env with
    | none => []
    | some e => e :: chainLoop heap n e.parent

/-- The chain of frames of the environment at address `env`, innermost first. -/
def chain (st : State) (env : Nat) : List Environment :=
  chainLoop st.heap (env + 1) (some env)

/-- The result, when it is a return, has a heap of at least `n` objects. -/
def Result.heapAtLeast {α : Type} (n : Nat) : Result α → Prop
  | .ok _ st => n ≤ st.heap.length
  | _ => True

/-- The evaluator never shrinks the heap. -/
def Evaluator.grows (ev : Evaluator) : Prop :=
  ∀ st c s, (ev st c s).heapAtLeast st.heap.length

/-- The call `((lambda (x) x) e)` of the identity closure. -/
def identityCall (e : Sexp) : Sexp :=
  .list [.list [.symbol "lambda", .list [.symbol "x"], .symbol "x"], e]

/-- The interpreter after `(define y #t)` and `(define #t 5)`. -/
def reboundTrueState : State :=
  stateAfter 2
    (stateAfter 2 SchemeInterpreter_new (.list [.symbol "define", .symbol "y", .symbol "#t"]))
    (.list [.symbol "define", .symbol "#t", .number 5])

/-- The interpreter after `(define x 5)`, `(define s #t)`, `(define #t zz)` with `zz` unbound
and the call `((lambda (x) x) s)`, whose frame (at address `1`) binds `x` to the null pointer. -/
def nullBindingState : State :=
  stateAfter 4
    (stateAfter 2
      (stateAfter 2
        (stateAfter 2 SchemeInterpreter_new
          (.list [.symbol "define", .symbol "x", .number 5]))
        (.list [.symbol "define", .symbol "s", .symbol "#t"]))
      (.list [.symbol "define", .symbol "#t", .symbol "zz"]))
    (identityCall (.symbol "s"))

/-- The text `(define (square x) (* x x))`. -/
def squareDefinition : Sexp :=
  .list [.symbol "define", .list [.symbol "square", .symbol "x"],
    .list [.symbol "*", .symbol "x", .symbol "x"]]

/-- Every parent was allocated before its child. -/
def parentsBelow (heap : List Environment) : Prop :=
  ∀ i e p, heap.get? i = some e → e.parent = some p → p < i

/-- A character that ends a token inside a list: white space, a parenthesis or the comment
mark. -/
def isDelimiter (c : Char) : Bool :=
  isspace c || c = '(' || c = ')' || c = ';'

/-- A `Number` object. -/
def Sexp.isNumber : Sexp → Bool
  | .number _ => true
  | _ => false

/-- The elements of a list being read when the token in `temp`, if any, is stored too. -/
def flushed (acc : List Sexp) (temp : List Char) (wasDelimiter : Bool) : List Sexp :=
  if wasDelimiter && !temp.isEmpty then acc ++ [createAtom temp] else acc

/-- The names of the Symbols that the program makes: a token of the reader, not empty and
without a delimiter, that `createAtom` does not take for a number. -/
def isSymbolName (Name : String) : Bool :=
  !Name.data.isEmpty && Name.data.all (fun c => !isDelimiter c)
    && !(createAtom Name.data).isNumber

/-- A text that begins with a digit. -/
def startsDigit : List Char → Bool
  | d :: _ => d.isDigit
  | [] => false

/-- A text that begins as a number does: with a digit, or with a sign and a digit. -/
def startsNumber : List Char → Bool
  | [] => false
  | c :: rest => c.isDigit || ((c = '-' || c = '+') && startsDigit rest)

/-- A name that is not empty, has no white space, parenthesis or semicolon in it and does not
begin as a number does. -/
def isPlainName (Name : String) : Bool :=
  !Name.data.isEmpty && Name.data.all (fun c => !isDelimiter c) && !startsNumber Name.data

/-- The expressions built from Numbers, Symbols with plain names and lists of such
expressions. -/
inductive PlainData : Sexp → Prop
  | number (value : Int) : inIntRange value → PlainData (.number value)
  | symbol (Name : String) : isPlainName Name = true → PlainData (.symbol Name)
  | list (elements : List Sexp) : (∀ e ∈ elements, PlainData e) → PlainData (.list elements)

/-- The expressions built from Numbers, Symbols whose names `read` can make and lists of such
expressions. -/
inductive Readable : Sexp → Prop
  | number (value : Int) : inIntRange value → Readable (.number value)
  | symbol (Name : String) : isSymbolName Name = true → Readable (.symbol Name)
  | list (elements : List Sexp) : (∀ e ∈ elements, Readable e) → Readable (.list elements)

/-- The loop of `read` finds the expression `e` in the text `t`: from every state of the loop
inside a list, with `t` next in the stream after white space `ws`, the loop comes to a state
with the rest of the stream in which `e` has been added to the list being read. -/
def Processes (t : List Char) (e : Sexp) : Prop :=
  ∀ (c0 : Char) (below : List (List Sexp)) (acc : List Sexp) (temp ws rest : List Char),
    (∀ c ∈ ws, isspace c = true) → (temp = [] ∨ ws ≠ []) →
    ∃ (k : Nat) (c1 : Char) (acc1 : List Sexp) (temp1 : List Char),
      flushed acc1 temp1 true = flushed acc temp true ++ [e] ∧
      ∀ fuel,
        read_loop (fuel + k)
            ⟨c0, false, below.length + 1, below ++ [acc], temp, ws ++ t ++ rest⟩
          = read_loop fuel ⟨c1, false, below.length + 1, below ++ [acc1], temp1, rest⟩

/-- The states of the loop of `read` in which every stored element is `Readable` and the token
in `temp` has no delimiter, unless the stream has ended on white space (then `temp` is never
stored again). -/
def ReadState.wf (s : ReadState) : Prop :=
  (∀ l ∈ s.listElements, ∀ e ∈ l, Readable e) ∧
  ((∀ ch ∈ s.temp, isDelimiter ch = false) ∨
    (s.is = [] ∧ s.comment = false ∧ isspace s.c = true))

/-- Whether the text ends inside a line comment, `b` telling whether it starts inside one. -/
def inComment : Bool → List Char → Bool
  | b, [] => b
  | b, ch :: rest => inComment (if ch = '\n' then false else if ch = ';' then true else b) rest

/-- The loop of `read` returns the expression `e` from the state `s`, given enough fuel. -/
def LoopReads (s : ReadState) (e : Sexp) : Prop :=
  ∃ fuel rest, read_loop fuel s = .ok e rest

/-- The loop of `read` returns `e` after a pass that ends with the step `r`. -/
def StepReads : ReadStep → Sexp → Prop
  | .next s1, e => 0 < s1.parentheses ∧ LoopReads s1 e
  | .done (.ok e0 _), e => e = e0
  | .done _, _ => False

/-- Method `read` returns the expression `e` on the text, given enough fuel. -/
def Reads (text : List Char) (e : Sexp) : Prop :=
  ∃ fuel rest, read fuel text = .ok e rest

/-- What the comment loop consumes at the start of a pass: nothing outside a comment, the rest
of the comment with its newline inside one. -/
def CommentRest (cm : Bool) (pre : List Char) : Prop :=
  (cm = false ∧ pre = []) ∨ (cm = true ∧ ∃ text, pre = text ++ ['\n'] ∧ ∀ x ∈ text, x ≠ '\n')

/-! ## Lemmas -/

theorem wrapInt_of_inIntRange {x : Int} (h : inIntRange x) : wrapInt x = x := by
  unfold inIntRange at h
  unfold wrapInt
  omega

theorem do_operator_of_inIntRange (op : ArithmeticOp) (x y : Int)
    (hr : inIntRange (op.spec x y)) (hz : op = .DivisionFunction → y ≠ 0) :
    op.do_operator x y = some (op.spec x y) := by
  cases op <;> simp only [ArithmeticOp.do_operator, ArithmeticOp.spec] at hr ⊢
  · rw [wrapInt_of_inIntRange hr]
  · rw [wrapInt_of_inIntRange hr]
  · rw [wrapInt_of_inIntRange hr]
  · have hno : ¬ (y = 0 ∨ (x = -2147483648 ∧ y = -1)) := by
      rintro (h | ⟨rfl, rfl⟩)
      · exact hz rfl h
      · exact absurd hr (by decide)
    rw [if_neg hno, wrapInt_of_inIntRange hr]

theorem checkParamsValid_of_ne_zero (op : ArithmeticOp) (st : State) (x y : Int)
    (hz : op = .DivisionFunction → y ≠ 0) : op.checkParamsValid st x y = (true, st) := by
  cases op <;> simp only [ArithmeticOp.checkParamsValid]
  rw [if_neg (hz rfl)]

theorem BasicArithmeticFunction_loop_numbers (op : ArithmeticOp) (st : State) :
    ∀ (l : List Int) (res : Int),
      (∀ r ∈ List.scanl op.spec res l, inIntRange r) →
      (op = .DivisionFunction → ∀ y ∈ l, y ≠ 0) →
      BasicArithmeticFunction_loop op st res (l.map .number)
        = .ok (some (.number (List.foldl op.spec res l))) st := by
  intro l
  induction l with
  | nil => intro res _ _; rfl
  | cons y l ih =>
    intro res hr hz
    have hy : op = .DivisionFunction → y ≠ 0 := fun h => hz h y (List.mem_cons_self _ _)
    have hry : inIntRange (op.spec res y) := by
      apply hr
      simp only [List.scanl, List.mem_cons]
      right
      cases l <;> simp [List.scanl]
    simp only [List.map, BasicArithmeticFunction_loop, ConvertAndCheck,
      checkParamsValid_of_ne_zero op st res y hy, do_operator_of_inIntRange op res y hry hy,
      List.foldl]
    apply ih
    · intro r hmem
      apply hr
      simp only [List.scanl, List.mem_cons]
      exact Or.inr hmem
    · intro h z hzmem
      exact hz h z (List.mem_cons_of_mem _ hzmem)

theorem BasicArithmeticFunction_eval_numbers (op : ArithmeticOp) (st : State) (a1 a2 : Int)
    (rest : List Int)
    (hrange : ∀ r ∈ List.scanl op.spec a1 (a2 :: rest), inIntRange r)
    (hzero : op = .DivisionFunction → ∀ y ∈ a2 :: rest, y ≠ 0) :
    BasicArithmeticFunction_eval op st (some ((a1 :: a2 :: rest).map .number))
      = .ok (some (.number (List.foldl op.spec a1 (a2 :: rest)))) st := by
  have h := BasicArithmeticFunction_loop_numbers op st (a2 :: rest) a1 hrange hzero
  simp only [BasicArithmeticFunction_eval, List.map, List.length_cons, ConvertAndCheck]
  simp only [List.map] at h
  rw [if_neg (by omega)]
  exact h

theorem CompareOp.do_operator_iff (op : CompareOp) (x y : Int) :
    op.do_operator x y = true ↔ op.spec x y := by
  cases op <;> simp [CompareOp.do_operator, CompareOp.spec]

theorem BasicCompareFunction_loop_numbers (op : CompareOp) (e : Nat) (st : State) :
    ∀ (l : List Int) (val : Int) (res : Bool),
      (res = true ∧ List.Chain op.spec val l →
        BasicCompareFunction_loop op (some e) st val res (l.map .number)
          = .ok (getValue st e "#t") st) ∧
      (¬ (res = true ∧ List.Chain op.spec val l) →
        BasicCompareFunction_loop op (some e) st val res (l.map .number)
          = .ok (getValue st e "#f") st) := by
  intro l
  induction l with
  | nil =>
    intro val res
    cases res <;> simp [BasicCompareFunction_loop]
  | cons y l ih =>
    intro val res
    have h := ih y (res && op.do_operator val y)
    simp only [List.map, BasicCompareFunction_loop, ConvertAndCheck, List.chain_cons]
    simp only [Bool.and_eq_true, CompareOp.do_operator_iff] at h
    constructor
    · intro hc
      exact h.1 ⟨⟨hc.1, hc.2.1⟩, hc.2.2⟩
    · intro hc
      apply h.2
      intro hc2
      exact hc ⟨hc2.1.1, hc2.1.2, hc2.2⟩

theorem BasicCompareFunction_eval_numbers (op : CompareOp) (e : Nat) (st : State) (a1 a2 : Int)
    (rest : List Int) :
    (List.Chain' op.spec (a1 :: a2 :: rest) →
      BasicCompareFunction_eval op (some e) st (some ((a1 :: a2 :: rest).map .number))
        = .ok (getValue st e "#t") st) ∧
    (¬ List.Chain' op.spec (a1 :: a2 :: rest) →
      BasicCompareFunction_eval op (some e) st (some ((a1 :: a2 :: rest).map .number))
        = .ok (getValue st e "#f") st) := by
  have h := BasicCompareFunction_loop_numbers op e st (a2 :: rest) a1 true
  simp only [true_and, List.map] at h
  simp only [BasicCompareFunction_eval, List.map, List.length_cons, ConvertAndCheck, List.Chain']
  rw [if_neg (by omega)]
  exact h

theorem tdiv_below_INT_MAX (x y : Int) (hx : -2147483647 ≤ x ∧ x ≤ 2147483647) :
    -2147483647 ≤ Int.tdiv x y ∧ Int.tdiv x y ≤ 2147483647 := by
  have hnat : (Int.tdiv x y).natAbs ≤ x.natAbs := by
    rw [Int.natAbs_tdiv]
    exact Nat.div_le_self _ _
  omega

theorem DivisionFunction_loop_numbers (st : State) :
    ∀ (l : List Int) (res : Int),
      ((-1 : Int) ∉ l ∨ (-2147483647 ≤ res ∧ res ≤ 2147483647)) →
      ((0 : Int) ∈ l →
        BasicArithmeticFunction_loop .DivisionFunction st res (l.map .number)
          = .ok none (st.loge .divisionByZero)) ∧
      ((0 : Int) ∉ l →
        ∃ r, BasicArithmeticFunction_loop .DivisionFunction st res (l.map .number)
          = .ok (some (.number r)) st) := by
  intro l
  induction l with
  | nil =>
    intro res _
    simp [BasicArithmeticFunction_loop]
  | cons y l ih =>
    intro res hsafe
    by_cases hy : y = 0
    · subst hy
      simp [BasicArithmeticFunction_loop, ConvertAndCheck, ArithmeticOp.checkParamsValid]
    · have hno : ¬ (y = 0 ∨ (res = -2147483648 ∧ y = -1)) := by
        rintro (h | ⟨h1, h2⟩)
        · exact hy h
        · rcases hsafe with h3 | h3
          · exact h3 (by rw [h2]; exact List.mem_cons_self _ _)
          · omega
      have hnext : (-1 : Int) ∉ l ∨
          (-2147483647 ≤ wrapInt (Int.tdiv res y) ∧ wrapInt (Int.tdiv res y) ≤ 2147483647) := by
        rcases hsafe with h3 | h3
        · exact Or.inl (fun h => h3 (List.mem_cons_of_mem _ h))
        · have h4 := tdiv_below_INT_MAX res y h3
          have h5 : inIntRange (Int.tdiv res y) := by
            unfold inIntRange
            omega
          rw [wrapInt_of_inIntRange h5]
          exact Or.inr h4
      have h := ih (wrapInt (Int.tdiv res y)) hnext
      have hy2 : ¬ (0 = y) := fun h0 => hy h0.symm
      simp only [List.map, BasicArithmeticFunction_loop, ConvertAndCheck,
        ArithmeticOp.checkParamsValid, ArithmeticOp.do_operator, if_neg hy, if_neg hno,
        List.mem_cons, hy2, false_or]
      exact h

theorem DivisionFunction_eval_numbers (st : State) (a1 a2 : Int) (rest : List Int)
    (hsafe : (-1 : Int) ∉ a2 :: rest ∨ (inIntRange a1 ∧ a1 ≠ -2147483648)) :
    ((0 : Int) ∈ a2 :: rest →
      BasicArithmeticFunction_eval .DivisionFunction st (some ((a1 :: a2 :: rest).map .number))
        = .ok none (st.loge .divisionByZero)) ∧
    ((0 : Int) ∉ a2 :: rest →
      ∃ r, BasicArithmeticFunction_eval .DivisionFunction st
        (some ((a1 :: a2 :: rest).map .number)) = .ok (some (.number r)) st) := by
  have hsafe2 : (-1 : Int) ∉ a2 :: rest ∨ (-2147483647 ≤ a1 ∧ a1 ≤ 2147483647) := by
    rcases hsafe with h | ⟨h1, h2⟩
    · exact Or.inl h
    · unfold inIntRange at h1
      exact Or.inr (by omega)
  have h := DivisionFunction_loop_numbers st (a2 :: rest) a1 hsafe2
  simp only [List.map] at h
  simp only [BasicArithmeticFunction_eval, List.map, List.length_cons, ConvertAndCheck]
  rw [if_neg (by omega)]
  exact h

theorem List_eval_args_fails (ev : Evaluator) (context : Option Nat) (e : Sexp)
    (post : List Sexp) :
    ∀ (pre : List Sexp) (st st1 st2 : State) (vals : List Sexp),
      List_eval_args ev context st pre = .ok (some vals) st1 →
      ev st1 context e = .ok none st2 →
      List_eval_args ev context st (pre ++ e :: post) = .ok none st2 := by
  intro pre
  induction pre with
  | nil =>
    intro st st1 st2 vals hpre he
    simp only [List_eval_args, Result.ok.injEq] at hpre
    obtain ⟨-, rfl⟩ := hpre
    simp only [List.nil_append, List_eval_args, he]
  | cons s pre ih =>
    intro st st1 st2 vals hpre he
    simp only [List.cons_append, List_eval_args] at hpre ⊢
    cases hs : ev st context s with
    | ok val sta =>
      rw [hs] at hpre
      cases val with
      | none => simp at hpre
      | some seval =>
        simp only at hpre ⊢
        cases hrest : List_eval_args ev context sta pre with
        | ok r stb =>
          rw [hrest] at hpre
          cases r with
          | none => simp at hpre
          | some args =>
            simp only [Result.ok.injEq] at hpre
            obtain ⟨-, rfl⟩ := hpre
            have h2 := ih sta stb st2 args hrest he
            simp only [List.append_eq] at h2 ⊢
            rw [h2]
        | crash => rw [hrest] at hpre; simp at hpre
        | outOfFuel => rw [hrest] at hpre; simp at hpre
    | crash => rw [hs] at hpre; simp at hpre
    | outOfFuel => rw [hs] at hpre; simp at hpre

/-! ### More fuel does not change a result -/

theorem List_eval_args_mono {ev1 ev2 : Evaluator} (h : Evaluator.le ev1 ev2) (c : Option Nat) :
    ∀ (l : List Sexp) (st : State),
      List_eval_args ev1 c st l = .outOfFuel ∨
        List_eval_args ev2 c st l = List_eval_args ev1 c st l := by
  intro l
  induction l with
  | nil => intro st; exact Or.inr rfl
  | cons s rest ih =>
    intro st
    simp only [List_eval_args]
    rcases h st c s with h1 | h1
    · left; rw [h1]
    · rw [h1]
      cases ev1 st c s with
      | ok v st1 =>
        cases v with
        | none => exact Or.inr rfl
        | some x =>
          rcases ih st1 with h2 | h2
          · left; simp only [h2]
          · right; simp only [h2]
      | crash => exact Or.inr rfl
      | outOfFuel => exact Or.inl rfl

theorem Environment_bind_mono {ev1 ev2 : Evaluator} (h : Evaluator.le ev1 ev2)
    (parent : Option Nat) :
    ∀ (values : List Sexp) (names : List String) (st : State)
      (vars : List (String × Option Sexp)),
      Environment_bind ev1 parent st names values vars = .outOfFuel ∨
        Environment_bind ev2 parent st names values vars
          = Environment_bind ev1 parent st names values vars := by
  intro values
  induction values with
  | nil => intro names st vars; cases names <;> exact Or.inr rfl
  | cons s rest ih =>
    intro names st vars
    cases names with
    | nil => exact Or.inr rfl
    | cons name names =>
      simp only [Environment_bind]
      rcases h st parent s with h1 | h1
      · left; rw [h1]
      · rw [h1]
        cases ev1 st parent s with
        | ok v st1 => exact ih names st1 _
        | crash => exact Or.inr rfl
        | outOfFuel => exact Or.inl rfl

theorem Environment_new_mono {ev1 ev2 : Evaluator} (h : Evaluator.le ev1 ev2) (st : State)
    (parent : Option Nat) (names : List String) (values : Option (List Sexp)) :
    Environment_new ev1 st parent names values = .outOfFuel ∨
      Environment_new ev2 st parent names values = Environment_new ev1 st parent names values := by
  unfold Environment_new
  cases values with
  | none => exact Or.inr rfl
  | some vs =>
    simp only
    split
    · exact Or.inr rfl
    · rcases Environment_bind_mono h parent vs names st [] with h1 | h1
      · left; rw [h1]
      · rw [h1]; exact Or.inr rfl

theorem Lambda_call_mono {ev1 ev2 : Evaluator} (h : Evaluator.le ev1 ev2) (st : State)
    (env : Option Nat) (body : Option Sexp) (args : List String) (params : Option (List Sexp)) :
    Lambda_call ev1 st env body args params = .outOfFuel ∨
      Lambda_call ev2 st env body args params = Lambda_call ev1 st env body args params := by
  unfold Lambda_call
  rcases Environment_new_mono h st env args params with h1 | h1
  · left; rw [h1]
  · rw [h1]
    cases Environment_new ev1 st env args params with
    | ok f st1 =>
      cases body with
      | none => exact Or.inr rfl
      | some b => exact h st1 (some f) b
    | crash => exact Or.inr rfl
    | outOfFuel => exact Or.inl rfl

theorem AndBooleanAggregateFunction_loop_mono {ev1 ev2 : Evaluator} (h : Evaluator.le ev1 ev2)
    (env context : Option Nat) :
    ∀ (l : List Sexp) (st : State),
      AndBooleanAggregateFunction_loop ev1 env context st l = .outOfFuel ∨
        AndBooleanAggregateFunction_loop ev2 env context st l
          = AndBooleanAggregateFunction_loop ev1 env context st l := by
  intro l
  induction l with
  | nil => intro st; exact Or.inr rfl
  | cons s rest ih =>
    intro st
    simp only [AndBooleanAggregateFunction_loop]
    rcases h st context s with h1 | h1
    · left; rw [h1]
    · rw [h1]
      cases ev1 st context s with
      | ok v st1 =>
        cases v with
        | none => exact Or.inr rfl
        | some x =>
          simp only
          split
          · exact Or.inr rfl
          · exact ih st1
      | crash => exact Or.inr rfl
      | outOfFuel => exact Or.inl rfl

theorem OrBooleanAggregateFunction_loop_mono {ev1 ev2 : Evaluator} (h : Evaluator.le ev1 ev2)
    (env context : Option Nat) :
    ∀ (l : List Sexp) (st : State),
      OrBooleanAggregateFunction_loop ev1 env context st l = .outOfFuel ∨
        OrBooleanAggregateFunction_loop ev2 env context st l
          = OrBooleanAggregateFunction_loop ev1 env context st l := by
  intro l
  induction l with
  | nil => intro st; exact Or.inr rfl
  | cons s rest ih =>
    intro st
    simp only [OrBooleanAggregateFunction_loop]
    rcases h st context s with h1 | h1
    · left; rw [h1]
    · rw [h1]
      cases ev1 st context s with
      | ok v st1 =>
        cases v with
        | none => exact Or.inr rfl
        | some x =>
          simp only
          split
          · exact Or.inr rfl
          · exact ih st1
      | crash => exact Or.inr rfl
      | outOfFuel => exact Or.inl rfl

theorem DefineFunction_eval_mono {ev1 ev2 : Evaluator} (h : Evaluator.le ev1 ev2)
    (env : Option Nat) (st : State) (context : Option Nat) (params : Option (List Sexp)) :
    DefineFunction_eval ev1 env st context params = .outOfFuel ∨
      DefineFunction_eval ev2 env st context params
        = DefineFunction_eval ev1 env st context params := by
  have key : ∀ (exp : Sexp) (k : Option Sexp → State → Result (Option Sexp)),
      (match ev1 st context exp with
        | .ok val st1 => k val st1
        | .crash => .crash
        | .outOfFuel => .outOfFuel) = .outOfFuel ∨
      (match ev2 st context exp with
        | .ok val st1 => k val st1
        | .crash => .crash
        | .outOfFuel => .outOfFuel) =
      (match ev1 st context exp with
        | .ok val st1 => k val st1
        | .crash => .crash
        | .outOfFuel => .outOfFuel) := by
    intro exp k
    rcases h st context exp with h1 | h1
    · left; rw [h1]
    · rw [h1]; exact Or.inr rfl
  cases params with
  | none => exact Or.inr rfl
  | some ps =>
    cases ps with
    | nil => exact Or.inr rfl
    | cons p cdr =>
      cases p with
      | number _ => exact Or.inr rfl
      | lambda _ _ _ _ => exact Or.inr rfl
      | builtin _ _ => exact Or.inr rfl
      | symbol Name =>
        cases cdr with
        | nil => exact Or.inr rfl
        | cons exp rest => exact key exp _
      | list first =>
        cases cdr with
        | nil => exact Or.inr rfl
        | cons body rest => exact key _ _

theorem IfLambda_eval_mono {ev1 ev2 : Evaluator} (h : Evaluator.le ev1 ev2)
    (st : State) (context : Option Nat) (params : Option (List Sexp)) :
    IfLambda_eval ev1 st context params = .outOfFuel ∨
      IfLambda_eval ev2 st context params = IfLambda_eval ev1 st context params := by
  unfold IfLambda_eval
  split
  · exact Or.inr rfl
  · exact Or.inr rfl
  · rename_i testExp cdr
    rcases h st context testExp with h1 | h1
    · left; rw [h1]
    · rw [h1]
      cases ev1 st context testExp with
      | ok test st1 =>
        simp only
        split
        · cases test with
          | none => exact Or.inr rfl
          | some t =>
            simp only
            split
            · exact h st1 context _
            · exact h st1 context _
        · exact Or.inr rfl
      | crash => exact Or.inr rfl
      | outOfFuel => exact Or.inl rfl

theorem Builtin_eval_mono {ev1 ev2 : Evaluator} (h : Evaluator.le ev1 ev2) (kind : Kind)
    (env : Option Nat) (st : State) (context : Option Nat) (params : Option (List Sexp)) :
    Builtin_eval ev1 kind env st context params = .outOfFuel ∨
      Builtin_eval ev2 kind env st context params
        = Builtin_eval ev1 kind env st context params := by
  cases kind with
  | DefineFunction => exact DefineFunction_eval_mono h env st context params
  | CreateLambda => exact Or.inr rfl
  | IfLambda => exact IfLambda_eval_mono h st context params
  | AndBooleanAggregateFunction =>
    simp only [Builtin_eval, AndBooleanAggregateFunction_eval]
    cases params with
    | none => exact Or.inr rfl
    | some ps =>
      simp only
      split
      · exact Or.inr rfl
      · exact AndBooleanAggregateFunction_loop_mono h env context ps st
  | OrBooleanAggregateFunction =>
    simp only [Builtin_eval, OrBooleanAggregateFunction_eval]
    cases params with
    | none => exact Or.inr rfl
    | some ps =>
      simp only
      split
      · exact Or.inr rfl
      · exact OrBooleanAggregateFunction_loop_mono h env context ps st
  | BasicCompareFunction op => exact Or.inr rfl
  | BasicArithmeticFunction op => exact Or.inr rfl

theorem Lambda_eval_call_mono {ev1 ev2 : Evaluator} (h : Evaluator.le ev1 ev2) (st : State)
    (lambda : Sexp) (params : Option (List Sexp)) :
    Lambda_eval_call ev1 st lambda params = .outOfFuel ∨
      Lambda_eval_call ev2 st lambda params = Lambda_eval_call ev1 st lambda params := by
  cases lambda with
  | lambda env arglist body args => exact Lambda_call_mono h st env body args params
  | builtin kind env => exact Builtin_eval_mono h kind env st none params
  | number _ => exact Or.inr rfl
  | symbol _ => exact Or.inr rfl
  | list _ => exact Or.inr rfl

theorem List_eval_head_mono {ev1 ev2 : Evaluator} (h : Evaluator.le ev1 ev2) (st : State)
    (context : Option Nat) (car : Sexp) :
    List_eval_head ev1 st context car = .outOfFuel ∨
      List_eval_head ev2 st context car = List_eval_head ev1 st context car := by
  cases car with
  | symbol _ => exact Or.inr rfl
  | number _ => exact h st context _
  | list _ => exact h st context _
  | lambda _ _ _ _ => exact h st context _
  | builtin _ _ => exact h st context _

theorem List_eval_mono {ev1 ev2 : Evaluator} (h : Evaluator.le ev1 ev2) (st : State)
    (context : Option Nat) (elements : List Sexp) :
    List_eval ev1 st context elements = .outOfFuel ∨
      List_eval ev2 st context elements = List_eval ev1 st context elements := by
  cases elements with
  | nil => exact Or.inr rfl
  | cons car cdr =>
    simp only [List_eval]
    rcases List_eval_head_mono h st context car with h1 | h1
    · left; rw [h1]
    · rw [h1]
      cases List_eval_head ev1 st context car with
      | crash => exact Or.inr rfl
      | outOfFuel => exact Or.inl rfl
      | ok exp st1 =>
        cases exp with
        | none => exact Or.inr rfl
        | some lam =>
          cases lam with
          | number _ => exact Or.inr rfl
          | symbol _ => exact Or.inr rfl
          | list _ => exact Or.inr rfl
          | lambda env arglist body names =>
            simp only
            rcases List_eval_args_mono h context cdr st1 with h2 | h2
            · left; rw [h2]
            · rw [h2]
              cases List_eval_args ev1 context st1 cdr with
              | crash => exact Or.inr rfl
              | outOfFuel => exact Or.inl rfl
              | ok args st2 =>
                cases args with
                | none => exact Or.inr rfl
                | some args => exact Lambda_eval_call_mono h st2 _ _
          | builtin kind env =>
            simp only
            split
            · exact Builtin_eval_mono h kind env st1 context _
            · rcases List_eval_args_mono h context cdr st1 with h2 | h2
              · left; rw [h2]
              · rw [h2]
                cases List_eval_args ev1 context st1 cdr with
                | crash => exact Or.inr rfl
                | outOfFuel => exact Or.inl rfl
                | ok args st2 =>
                  cases args with
                  | none => exact Or.inr rfl
                  | some args => exact Lambda_eval_call_mono h st2 _ _

theorem Sexp_eval_mono {ev1 ev2 : Evaluator} (h : Evaluator.le ev1 ev2) :
    Evaluator.le (Sexp_eval ev1) (Sexp_eval ev2) := by
  intro st c s
  cases s with
  | list elements => exact List_eval_mono h st c elements
  | number _ => exact Or.inr rfl
  | symbol _ => exact Or.inr rfl
  | lambda _ _ _ _ => exact Or.inr rfl
  | builtin _ _ => exact Or.inr rfl

theorem eval_le_succ : ∀ fuel : Nat, Evaluator.le (eval fuel) (eval (fuel + 1)) := by
  intro fuel
  induction fuel with
  | zero => intro st c s; exact Or.inl rfl
  | succ n ih => exact Sexp_eval_mono ih

theorem eval_le_add (fuel : Nat) : ∀ k : Nat, Evaluator.le (eval fuel) (eval (fuel + k)) := by
  intro k
  induction k with
  | zero => intro st c s; exact Or.inr rfl
  | succ k ih =>
    intro st c s
    rcases ih st c s with h1 | h1
    · exact Or.inl h1
    · rcases eval_le_succ (fuel + k) st c s with h2 | h2
      · rw [h1] at h2; exact Or.inl h2
      · right; rw [← h1]; exact h2

/-- More fuel does not change a result that was reached. -/
theorem eval_mono {fuel fuel2 : Nat} (hle : fuel ≤ fuel2) {st : State} {c : Option Nat}
    {s : Sexp} {r : Result (Option Sexp)} (h : eval fuel st c s = r) (hr : r ≠ .outOfFuel) :
    eval fuel2 st c s = r := by
  obtain ⟨k, rfl⟩ := Nat.exists_eq_add_of_le hle
  rcases eval_le_add fuel k st c s with h1 | h1
  · rw [h] at h1; exact absurd h1 hr
  · rw [h1]; exact h

/-! ### Evaluation steps shared by the theorems below -/

theorem List_eval_args_of_EvaluatesAll {ev : Evaluator} {context : Option Nat} {st st1 : State}
    {es vals : List Sexp} (h : EvaluatesAll ev context st es vals st1) :
    List_eval_args ev context st es = .ok (some vals) st1 := by
  induction h with
  | nil st => rfl
  | cons hs _ ih => simp only [List_eval_args, hs, ih]

theorem if_selects (fuel : Nat) (st st1 : State) (c : Nat) (env : Option Nat) (t a b v : Sexp)
    (hif : getValue st c "if" = some (.builtin .IfLambda env))
    (ht : eval fuel st (some c) t = .ok (some v) st1) :
    eval (fuel + 1) st (some c) (.list [.symbol "if", t, a, b])
      = eval fuel st1 (some c) (if v.operatorBool then a else b) := by
  simp only [eval, Sexp_eval, List_eval, List_eval_head, hif, Kind.isSyntaxLambda, Builtin_eval,
    cdrPtr, IfLambda_eval, ht]
  cases v.operatorBool <;> simp

theorem call_fails (fuel : Nat) (st st0 st1 st2 : State) (context : Option Nat)
    (p lam e : Sexp) (pre post vals : List Sexp)
    (hp : List_eval_head (eval fuel) st context p = .ok (some lam) st0)
    (hlam : lam.isApplicative = true)
    (hpre : List_eval_args (eval fuel) context st0 pre = .ok (some vals) st1)
    (he : eval fuel st1 context e = .ok none st2) :
    eval (fuel + 1) st context (.list (p :: (pre ++ e :: post))) = .ok none st2 := by
  have h := List_eval_args_fails (eval fuel) context e post pre st0 st1 st2 vals hpre he
  simp only [eval, Sexp_eval, List_eval, hp]
  cases lam with
  | lambda env arglist body names => simp only [h]
  | builtin kind env =>
    simp only [Sexp.isApplicative, Bool.not_eq_true'] at hlam
    simp only [hlam, h]
    simp
  | number _ => simp [Sexp.isApplicative] at hlam
  | symbol _ => simp [Sexp.isApplicative] at hlam
  | list _ => simp [Sexp.isApplicative] at hlam

/-- A failing value expression makes `(define name exp)` return failure (and bind `name` to the
null pointer). -/
theorem define_propagates_failure (ev : Evaluator) (e : Nat) (st st1 : State)
    (context : Option Nat) (Name : String) (exp : Sexp) (rest : List Sexp)
    (h : ev st context exp = .ok none st1) :
    DefineFunction_eval ev (some e) st context (some (.symbol Name :: exp :: rest))
      = .ok none (bindArg st1 e Name none) := by
  simp only [DefineFunction_eval, h]

/-- A failing body makes the call of a closure return failure. -/
theorem closure_body_propagates_failure (ev : Evaluator) (st st1 st2 : State)
    (env : Option Nat) (body : Sexp) (args : List String) (params : Option (List Sexp))
    (functionEnv : Nat) (hnew : Environment_new ev st env args params = .ok functionEnv st1)
    (h : ev st1 (some functionEnv) body = .ok none st2) :
    Lambda_call ev st env (some body) args params = .ok none st2 := by
  simp only [Lambda_call, hnew, h]

/-! ## Arithmetic and comparison primitives -/

/-- C1: applied to two or more Numbers `a1 ... an`, each of `+`, `-`, `*` returns
`Number(((a1 op a2) op a3) ... op an)`, the left fold seeded with `a1`, provided that no
intermediate result leaves the `int` range; `/` does the same when none of `a2 ... an` is
zero. -/
theorem arithmetic_is_left_fold (op : ArithmeticOp) (st : State) (a1 a2 : Int)
    (rest : List Int)
    (hrange : ∀ r ∈ List.scanl op.spec a1 (a2 :: rest), inIntRange r)
    (hzero : op = .DivisionFunction → ∀ y ∈ a2 :: rest, y ≠ 0) :
    BasicArithmeticFunction_eval op st (some ((a1 :: a2 :: rest).map .number))
      = .ok (some (.number (List.foldl op.spec a1 (a2 :: rest)))) st :=
  BasicArithmeticFunction_eval_numbers op st a1 a2 rest hrange hzero

theorem arithmetic_is_left_fold_witness :
    (∀ r ∈ List.scanl ArithmeticOp.MultiplyFunction.spec 3 [4, 5], inIntRange r) ∧
    BasicArithmeticFunction_eval .MultiplyFunction SchemeInterpreter_new
      (some [.number 3, .number 4, .number 5])
      = .ok (some (.number 60)) SchemeInterpreter_new :=
  ⟨by decide,
    arithmetic_is_left_fold .MultiplyFunction SchemeInterpreter_new 3 4 [5] (by decide)
      (by decide)⟩

/-- The expression `(+ 1 2)` evaluates to `3` in the interpreter. -/
theorem eval_add_1_2 :
    SchemeInterpreter_eval 2 SchemeInterpreter_new (.list [.symbol "+", .number 1, .number 2])
      = .ok (some (.number 3)) SchemeInterpreter_new := by
  rfl

/-- The expression `(* 3 4 5)` evaluates to `60` in the interpreter. -/
theorem eval_mul_3_4_5 :
    SchemeInterpreter_eval 2 SchemeInterpreter_new
      (.list [.symbol "*", .number 3, .number 4, .number 5])
      = .ok (some (.number 60)) SchemeInterpreter_new := by
  rfl

/-- C2: applied to two or more Numbers, each of `<`, `>`, `=` returns the value bound to `#t`
in the environment of the primitive when every adjacent pair satisfies the operator, and the
value bound to `#f` otherwise. -/
theorem comparison_is_chained (op : CompareOp) (e : Nat) (st : State) (a1 a2 : Int)
    (rest : List Int) :
    BasicCompareFunction_eval op (some e) st (some ((a1 :: a2 :: rest).map .number))
      = .ok (if List.Chain' op.spec (a1 :: a2 :: rest) then getValue st e "#t"
          else getValue st e "#f") st := by
  have h := BasicCompareFunction_eval_numbers op e st a1 a2 rest
  by_cases hc : List.Chain' op.spec (a1 :: a2 :: rest)
  · rw [if_pos hc]
    exact h.1 hc
  · rw [if_neg hc]
    exact h.2 hc

/-- The expression `(< 1 2 3)` evaluates to the symbol `#t` in the interpreter. -/
theorem eval_less_1_2_3 :
    SchemeInterpreter_eval 2 SchemeInterpreter_new
      (.list [.symbol "<", .number 1, .number 2, .number 3])
      = .ok (some (.symbol "#t")) SchemeInterpreter_new := by
  rfl

/-- The expression `(< 1 3 2)` evaluates to the symbol `#f` in the interpreter. -/
theorem eval_less_1_3_2 :
    SchemeInterpreter_eval 2 SchemeInterpreter_new
      (.list [.symbol "<", .number 1, .number 3, .number 2])
      = .ok (some (.symbol "#f")) SchemeInterpreter_new := by
  rfl

/-! ## `if` -/

/-- C3: when the test `t` of `(if t a b)` evaluates to a value `v`, the form evaluates exactly
as the branch that `v` selects does, `a` when `v` is true and `b` when it is false, in the
state the test left, for every amount of fuel that suffices for the test; the other branch does
not occur in the result. -/
theorem if_evaluates_selected_branch (fuel fuel2 : Nat) (st st1 : State) (c : Nat)
    (env : Option Nat) (t a b v : Sexp)
    (hif : getValue st c "if" = some (.builtin .IfLambda env))
    (ht : eval fuel st (some c) t = .ok (some v) st1)
    (hfuel : fuel ≤ fuel2) :
    eval (fuel2 + 1) st (some c) (.list [.symbol "if", t, a, b])
      = eval fuel2 st1 (some c) (if v.operatorBool then a else b) :=
  if_selects fuel2 st st1 c env t a b v hif (eval_mono hfuel ht (by simp))

theorem if_evaluates_selected_branch_witness :
    getValue SchemeInterpreter_new global "if" = some (.builtin .IfLambda (some global)) ∧
    eval 1 SchemeInterpreter_new (some global) (.symbol "#t")
      = .ok (some (.symbol "#t")) SchemeInterpreter_new ∧
    1 ≤ 1 ∧
    eval 2 SchemeInterpreter_new (some global)
      (.list [.symbol "if", .symbol "#t", .number 1, .list [.symbol "/", .number 1, .number 0]])
      = .ok (some (.number 1)) SchemeInterpreter_new :=
  ⟨rfl, rfl, Nat.le_refl 1,
    (if_evaluates_selected_branch 1 1 SchemeInterpreter_new SchemeInterpreter_new global
      (some global) (.symbol "#t") (.number 1)
      (.list [.symbol "/", .number 1, .number 0]) (.symbol "#t") rfl rfl (Nat.le_refl 1)).trans
      rfl⟩

/-- The false branch of `(if #t 1 (/ 1 0))` fails with a division by zero on its own. -/
theorem eval_div_1_0 :
    SchemeInterpreter_eval 2 SchemeInterpreter_new (.list [.symbol "/", .number 1, .number 0])
      = .ok none (SchemeInterpreter_new.loge .divisionByZero) := by
  rfl

/-! ## Closures -/

/-- The frame a call allocates has the environment `parent` of the closure as its parent and
gets an address no older frame has. -/
theorem Environment_new_parent (ev : Evaluator) (st st1 : State) (parent : Option Nat)
    (names : List String) (values : Option (List Sexp)) (functionEnv : Nat)
    (h : Environment_new ev st parent names values = .ok functionEnv st1) :
    (st1.heap.get? functionEnv).map Environment.parent = some parent ∧
    st1.heap.length = functionEnv + 1 := by
  have key : ∀ (s : State) (e : Environment), e.parent = parent →
      allocEnvironment s e = .ok functionEnv st1 →
      (st1.heap.get? functionEnv).map Environment.parent = some parent ∧
      st1.heap.length = functionEnv + 1 := by
    intro s e he ha
    simp only [allocEnvironment, Result.ok.injEq] at ha
    obtain ⟨rfl, rfl⟩ := ha
    simp [he]
  unfold Environment_new at h
  split at h
  · exact key _ _ rfl h
  · split at h
    · exact key _ _ rfl h
    · split at h
      · exact key _ _ rfl h
      · simp at h
      · simp at h

/-- C4: after `(define (make-adder n) (lambda (x) (+ x n)))`, the call `((make-adder n) x)`
yields `n + x` (when the sum is an `int`), both when the global environment of the call binds
`n` to another value `m` and when the call is made inside a frame that binds `n` to `m`: the body
of the closure sees the `n` of the frame it was created in. -/
theorem closure_uses_defining_environment (n x m : Int) (h : inIntRange (n + x)) :
    getValue (makeAdderStateWith m) global "n" = some (.number m) ∧
    (∃ st1, SchemeInterpreter_eval 4 (makeAdderStateWith m)
        (.list [.list [.symbol "make-adder", .number n], .number x])
        = .ok (some (.number (n + x))) st1) ∧
    (∃ st1, SchemeInterpreter_eval 6 makeAdderState
        (.list [.list [.symbol "lambda", .list [.symbol "n"],
            .list [.list [.symbol "make-adder", .number n], .number x]], .number m])
        = .ok (some (.number (n + x))) st1) := by
  have hw : wrapInt (x + n) = n + x := by
    rw [Int.add_comm x n]
    exact wrapInt_of_inIntRange h
  refine ⟨rfl, ?_, ?_⟩
  · rw [← hw]
    exact ⟨_, rfl⟩
  · rw [← hw]
    exact ⟨_, rfl⟩

theorem closure_uses_defining_environment_witness :
    inIntRange (3 + 4) ∧
    ∃ st1, SchemeInterpreter_eval 4 (makeAdderStateWith 100)
        (.list [.list [.symbol "make-adder", .number 3], .number 4])
        = .ok (some (.number (3 + 4))) st1 :=
  ⟨by decide, (closure_uses_defining_environment 3 4 100 (by decide)).2.1⟩

/-! ## Truthiness, `and`, `or` -/

/-- C5: the truthiness test of an expression is false exactly for the symbol named `#f`; every
number, list, closure, primitive and other symbol is true. -/
theorem operatorBool_false_iff (s : Sexp) : s.operatorBool = false ↔ s = .symbol "#f" := by
  cases s <;> simp [Sexp.operatorBool]

/-- C6, on the code: `(and 1 2 #f)` does not return the value of `#f`.  `List::eval` hands the
evaluated arguments to the primitive with a null `context`, the primitive evaluates each of
them again in that `context`, and evaluating the symbol `#f` calls `getValue` through the null
pointer. -/
theorem and_1_2_false_crashes (fuel : Nat) :
    SchemeInterpreter_eval (fuel + 2) SchemeInterpreter_new
      (.list [.symbol "and", .number 1, .number 2, .symbol "#f"]) = .crash := by
  rfl

/-- With arguments whose values are numbers `and` returns the value of `#t`. -/
theorem and_1_2_true (fuel : Nat) :
    SchemeInterpreter_eval (fuel + 2) SchemeInterpreter_new
      (.list [.symbol "and", .number 1, .number 2])
      = .ok (some (.symbol "#t")) SchemeInterpreter_new := by
  rfl

/-- C7, on the code: `(or 5)` returns the value of `#f` although its argument is true.  The loop
of `OrBooleanAggregateFunction::eval` tests `!val`, as the loop of `and` does, so it returns the
value of `#t` at the first false value and the value of `#f` when every value is true. -/
theorem or_5_returns_false (fuel : Nat) :
    SchemeInterpreter_eval (fuel + 2) SchemeInterpreter_new (.list [.symbol "or", .number 5])
      = .ok (some (.symbol "#f")) SchemeInterpreter_new := by
  rfl

/-- The expression `(or #f #f 5)` ends as `(and 1 2 #f)` does: the symbol `#f` is evaluated in
the null `context`. -/
theorem or_false_false_5_crashes (fuel : Nat) :
    SchemeInterpreter_eval (fuel + 2) SchemeInterpreter_new
      (.list [.symbol "or", .symbol "#f", .symbol "#f", .number 5]) = .crash := by
  rfl

/-! ## Failures -/

/-- Applied to two or more Numbers, of which none of `a2 ... an` is `-1` or the first is an
`int` other than `INT_MIN`, `/` fails with the message `division by zero` exactly when one of
`a2 ... an` is zero and returns a Number exactly when none is; the division itself is not
executed with a zero divisor (the result is not `crash`). -/
theorem division_fails_iff_zero (st : State) (a1 a2 : Int) (rest : List Int)
    (hsafe : (-1 : Int) ∉ a2 :: rest ∨ (inIntRange a1 ∧ a1 ≠ -2147483648)) :
    (BasicArithmeticFunction_eval .DivisionFunction st (some ((a1 :: a2 :: rest).map .number))
        = .ok none (st.loge .divisionByZero) ↔ (0 : Int) ∈ a2 :: rest) ∧
    ((∃ r, BasicArithmeticFunction_eval .DivisionFunction st
        (some ((a1 :: a2 :: rest).map .number)) = .ok (some (.number r)) st)
        ↔ (0 : Int) ∉ a2 :: rest) ∧
    BasicArithmeticFunction_eval .DivisionFunction st (some ((a1 :: a2 :: rest).map .number))
      ≠ .crash := by
  have h := DivisionFunction_eval_numbers st a1 a2 rest hsafe
  by_cases hz : (0 : Int) ∈ a2 :: rest
  · have h1 := h.1 hz
    rw [h1]
    simp [hz]
  · obtain ⟨r, hr⟩ := h.2 hz
    rw [hr]
    simp [hz]

/-- C8, on the code: `(/ -2147483648 -1 0)` has the zero divisor `0` and does not fail with
`division by zero`.  `checkParamsValid` tests the divisor `-1` for zero only, and
`do_operator` then divides `INT_MIN` by `-1`; the quotient is not an `int`, the division is
undefined and the program stops there, before the loop comes to the divisor `0`.  Without the
zero, `(/ -2147483648 -1)` stops in the same way.  The text is read as the list it shows. -/
theorem division_overflows_before_zero_check :
    BasicArithmeticFunction_eval .DivisionFunction SchemeInterpreter_new
        (some [.number (-2147483648), .number (-1), .number 0]) = .crash ∧
    SchemeInterpreter_eval 2 SchemeInterpreter_new
        (.list [.symbol "/", .number (-2147483648), .number (-1), .number 0]) = .crash ∧
    SchemeInterpreter_eval 2 SchemeInterpreter_new
        (.list [.symbol "/", .number (-2147483648), .number (-1)]) = .crash ∧
    read 20 "(/ -2147483648 -1 0)".data
      = .ok (.list [.symbol "/", .number (-2147483648), .number (-1), .number 0]) [] :=
  ⟨rfl, rfl, rfl, rfl⟩

/-- The expression `(/ 7 0)` fails in the interpreter with the message `division by zero`. -/
theorem eval_div_7_0 :
    SchemeInterpreter_eval 2 SchemeInterpreter_new (.list [.symbol "/", .number 7, .number 0])
      = .ok none (SchemeInterpreter_new.loge .divisionByZero) := by
  rfl

/-- C9: in a call `(p e1 ... en)` whose operator `p` yields a closure or a primitive, when the
arguments before `e` evaluate to values and `e` evaluates to failure, the call returns failure in
the state that the evaluation of `e` left, for every amount of fuel that suffices for these
steps: the arguments after `e` are not evaluated and the procedure is not applied. -/
theorem call_fails_at_first_failing_argument (fuel fuel2 : Nat) (st st0 st1 st2 : State)
    (context : Option Nat) (p lam e : Sexp) (pre post vals : List Sexp)
    (hp : List_eval_head (eval fuel) st context p = .ok (some lam) st0)
    (hlam : lam.isApplicative = true)
    (hpre : EvaluatesAll (eval fuel) context st0 pre vals st1)
    (he : eval fuel st1 context e = .ok none st2)
    (hfuel : fuel ≤ fuel2) :
    eval (fuel2 + 1) st context (.list (p :: (pre ++ e :: post))) = .ok none st2 :=
  eval_mono (Nat.succ_le_succ hfuel)
    (call_fails fuel st st0 st1 st2 context p lam e pre post vals hp hlam
      (List_eval_args_of_EvaluatesAll hpre) he) (by simp)

theorem call_fails_at_first_failing_argument_witness :
    List_eval_head (eval 1) SchemeInterpreter_new (some global) (.symbol "+")
      = .ok (some (.builtin (.BasicArithmeticFunction .AddFunction) (some global)))
          SchemeInterpreter_new ∧
    eval 1 SchemeInterpreter_new (some global) (.symbol "x")
      = .ok none (SchemeInterpreter_new.loge (.variableUnbound "x")) ∧
    eval 2 SchemeInterpreter_new (some global) (.list [.symbol "+", .symbol "x", .number 1])
      = .ok none (SchemeInterpreter_new.loge (.variableUnbound "x")) :=
  ⟨rfl, rfl,
    call_fails_at_first_failing_argument 1 1 SchemeInterpreter_new SchemeInterpreter_new
      SchemeInterpreter_new (SchemeInterpreter_new.loge (.variableUnbound "x")) (some global)
      (.symbol "+") (.builtin (.BasicArithmeticFunction .AddFunction) (some global))
      (.symbol "x") [] [.number 1] [] rfl rfl (.nil _) rfl (Nat.le_refl 1)⟩

/-- In `(+ 1 x (/ 1 0))` with `x` unbound the argument after `x` is not evaluated: the only
message is the one about `x`. -/
theorem eval_add_1_x_div :
    SchemeInterpreter_eval 3 SchemeInterpreter_new
      (.list [.symbol "+", .number 1, .symbol "x", .list [.symbol "/", .number 1, .number 0]])
      = .ok none (SchemeInterpreter_new.loge (.variableUnbound "x")) := by
  rfl

/-- C10, on the code: `(if x 1 2)` with `x` unbound does not return failure.  The test
evaluates to the null pointer and `IfLambda::eval` calls `operator bool` through it. -/
theorem if_with_failing_test_crashes (fuel : Nat) :
    SchemeInterpreter_eval (fuel + 2) SchemeInterpreter_new
      (.list [.symbol "if", .symbol "x", .number 1, .number 2]) = .crash := by
  rfl

/-- A failure in the operator position is not propagated either: `((+ x 1) 2)` with `x`
unbound returns the list itself as a value. -/
theorem failing_operator_returns_list (fuel : Nat) :
    SchemeInterpreter_eval (fuel + 3) SchemeInterpreter_new
      (.list [.list [.symbol "+", .symbol "x", .number 1], .number 2])
      = .ok (some (.list [.list [.symbol "+", .symbol "x", .number 1], .number 2]))
          (SchemeInterpreter_new.loge (.variableUnbound "x")) := by
  rfl


/-! ## Lemmas on frames and on the heap -/

theorem mapFind_mapSet_same (vars : List (String × Option Sexp)) (name : String)
    (val : Option Sexp) : mapFind (mapSet vars name val) name = some val := by
  induction vars with
  | nil => simp [mapSet, mapFind]
  | cons kv rest ih =>
    obtain ⟨k, v⟩ := kv
    by_cases h : k = name
    · simp [mapSet, mapFind, h]
    · simp [mapSet, mapFind, h, ih]

theorem mapFind_mapSet_other (vars : List (String × Option Sexp)) (name other : String)
    (val : Option Sexp) (hne : other ≠ name) :
    mapFind (mapSet vars name val) other = mapFind vars other := by
  induction vars with
  | nil => simp [mapSet, mapFind, hne.symm]
  | cons kv rest ih =>
    obtain ⟨k, v⟩ := kv
    by_cases h : k = name
    · subst h
      simp [mapSet, mapFind, hne.symm]
    · by_cases h2 : k = other
      · subst h2
        simp [mapSet, mapFind, h]
      · simp [mapSet, mapFind, h, h2, ih]

theorem getValueLoop_of_prefix (heap : List Environment) (name : String) :
    ∀ (n : Nat) (start : Option Nat) (pre : List Environment) (f : Environment)
      (post : List Environment) (v : Option Sexp),
      chainLoop heap n start = pre ++ f :: post →
      (∀ g ∈ pre, mapFind g.vars name = none) →
      mapFind f.vars name = some v →
      getValueLoop heap n start name = v := by
  intro n
  induction n with
  | zero =>
    intro start pre f post v hc _ _
    simp [chainLoop] at hc
  | succ n ih =>
    intro start pre f post v hc hpre hf
    cases start with
    | none => simp [chainLoop] at hc
    | some env =>
      simp only [chainLoop] at hc
      simp only [getValueLoop]
      cases hget : heap.get? env with
      | none => rw [hget] at hc; simp at hc
      | some e =>
        rw [hget] at hc
        simp only at hc ⊢
        cases pre with
        | nil =>
          simp only [List.nil_append, List.cons.injEq] at hc
          obtain ⟨rfl, -⟩ := hc
          rw [hf]
        | cons g pre =>
          simp only [List.cons_append, List.cons.injEq] at hc
          obtain ⟨rfl, hc⟩ := hc
          rw [hpre e (List.mem_cons_self _ _)]
          exact ih e.parent pre f post v hc (fun g hg => hpre g (List.mem_cons_of_mem _ hg)) hf

theorem getValueLoop_of_unbound (heap : List Environment) (name : String) :
    ∀ (n : Nat) (start : Option Nat),
      (∀ g ∈ chainLoop heap n start, mapFind g.vars name = none) →
      getValueLoop heap n start name = none := by
  intro n
  induction n with
  | zero => intro start _; rfl
  | succ n ih =>
    intro start h
    cases start with
    | none => rfl
    | some env =>
      simp only [chainLoop] at h
      simp only [getValueLoop]
      cases hget : heap.get? env with
      | none => rfl
      | some e =>
        rw [hget] at h
        simp only at h ⊢
        rw [h e (List.mem_cons_self _ _)]
        exact ih e.parent (fun g hg => h g (List.mem_cons_of_mem _ hg))

/-- Either no frame of the chain has the name, or there is an innermost one that has it. -/
theorem chain_cases (l : List Environment) (name : String) :
    (∀ g ∈ l, mapFind g.vars name = none) ∨
    ∃ pre f post v, l = pre ++ f :: post ∧ (∀ g ∈ pre, mapFind g.vars name = none) ∧
      mapFind f.vars name = some v := by
  induction l with
  | nil => left; simp
  | cons e rest ih =>
    cases he : mapFind e.vars name with
    | some v => right; exact ⟨[], e, rest, v, rfl, by simp, he⟩
    | none =>
      rcases ih with h | ⟨pre, f, post, v, rfl, hpre, hf⟩
      · left
        intro g hg
        rcases List.mem_cons.1 hg with rfl | hg
        · exact he
        · exact h g hg
      · right
        refine ⟨e :: pre, f, post, v, rfl, ?_, hf⟩
        intro g hg
        rcases List.mem_cons.1 hg with rfl | hg
        · exact he
        · exact hpre g hg

theorem bindArg_get?_ne (st : State) (env i : Nat) (name : String) (val : Option Sexp)
    (h : i ≠ env) : (bindArg st env name val).heap.get? i = st.heap.get? i := by
  simp only [bindArg, List.get?_eq_getElem?]
  exact List.getElem?_modify_ne _ _ (Ne.symm h)

theorem bindArg_get?_eq (st : State) (env : Nat) (name : String) (val : Option Sexp) :
    (bindArg st env name val).heap.get? env
      = (st.heap.get? env).map
          (fun e => { parent := e.parent, vars := mapSet e.vars name val }) := by
  simp only [bindArg, List.get?_eq_getElem?]
  rw [List.getElem?_modify_eq]
  rfl

theorem bindArg_log (st : State) (env : Nat) (name : String) (val : Option Sexp) :
    (bindArg st env name val).log = st.log := rfl

theorem bindArg_length (st : State) (env : Nat) (name : String) (val : Option Sexp) :
    (bindArg st env name val).heap.length = st.heap.length := by
  simp [bindArg]

theorem getValueLoop_bindArg_other (st : State) (env : Nat) (name other : String)
    (val : Option Sexp) (hne : other ≠ name) :
    ∀ (n : Nat) (start : Option Nat),
      getValueLoop (bindArg st env name val).heap n start other
        = getValueLoop st.heap n start other := by
  intro n
  induction n with
  | zero => intro start; rfl
  | succ n ih =>
    intro start
    cases start with
    | none => rfl
    | some i =>
      simp only [getValueLoop]
      by_cases hi : i = env
      · subst hi
        rw [bindArg_get?_eq]
        cases st.heap.get? i with
        | none => rfl
        | some e =>
          simp only [Option.map_some', mapFind_mapSet_other _ _ _ _ hne]
          rw [ih]
      · rw [bindArg_get?_ne _ _ _ _ _ hi]
        cases st.heap.get? i with
        | none => rfl
        | some e =>
          simp only
          rw [ih]

theorem getValue_bindArg_same (st : State) (env : Nat) (name : String) (val : Option Sexp)
    (h : env < st.heap.length) : getValue (bindArg st env name val) env name = val := by
  simp only [getValue, getValueLoop]
  rw [bindArg_get?_eq]
  have : st.heap.get? env = some (st.heap.get ⟨env, h⟩) := List.get?_eq_get h
  rw [this]
  simp only [Option.map_some', mapFind_mapSet_same]

theorem getValue_bindArg_other (st : State) (env env2 : Nat) (name other : String)
    (val : Option Sexp) (hne : other ≠ name) :
    getValue (bindArg st env name val) env2 other = getValue st env2 other :=
  getValueLoop_bindArg_other st env name other val hne _ _

theorem Result.heapAtLeast_mono {α : Type} {n m : Nat} (h : n ≤ m) {r : Result α}
    (hr : r.heapAtLeast m) : r.heapAtLeast n := by
  cases r with
  | ok v st => exact Nat.le_trans h hr
  | crash => trivial
  | outOfFuel => trivial

theorem ConvertAndCheck_heap (st : State) (s : Sexp) (v : Option Int) (st1 : State)
    (h : ConvertAndCheck st s = .ok v st1) : st1.heap = st.heap := by
  unfold ConvertAndCheck at h
  split at h
  · simp only [Result.ok.injEq] at h
    rw [← h.2]
    rfl
  · simp only [Result.ok.injEq] at h
    rw [← h.2]
  · split at h
    · simp only [Result.ok.injEq] at h
      rw [← h.2]
      rfl
    · exact Result.noConfusion h

theorem checkParamsValid_heap (op : ArithmeticOp) (st : State) (x y : Int) :
    (op.checkParamsValid st x y).2.heap = st.heap := by
  cases op <;> simp only [ArithmeticOp.checkParamsValid]
  split <;> rfl

theorem BasicArithmeticFunction_loop_grows (op : ArithmeticOp) :
    ∀ (l : List Sexp) (st : State) (res : Int),
      (BasicArithmeticFunction_loop op st res l).heapAtLeast st.heap.length := by
  intro l
  induction l with
  | nil => intro st res; exact Nat.le_refl _
  | cons s rest ih =>
    intro st res
    simp only [BasicArithmeticFunction_loop]
    cases hc : ConvertAndCheck st s with
    | crash => trivial
    | outOfFuel => trivial
    | ok v st1 =>
      have h1 := ConvertAndCheck_heap st s v st1 hc
      cases v with
      | none =>
        simp only [Result.heapAtLeast, h1, Nat.le_refl]
      | some num =>
        simp only
        have h2 := checkParamsValid_heap op st1 res num
        rcases hv : op.checkParamsValid st1 res num with ⟨_ | _, st2⟩
        · rw [hv] at h2
          simp only at h2 ⊢
          simp only [Result.heapAtLeast, h2, h1, Nat.le_refl]
        · rw [hv] at h2
          simp only at h2 ⊢
          cases op.do_operator res num with
          | none => trivial
          | some r =>
            have := ih st2 r
            rw [h2, h1] at this
            exact this

theorem BasicArithmeticFunction_eval_grows (op : ArithmeticOp) (st : State)
    (params : Option (List Sexp)) :
    (BasicArithmeticFunction_eval op st params).heapAtLeast st.heap.length := by
  unfold BasicArithmeticFunction_eval
  cases params with
  | none => trivial
  | some ps =>
    simp only
    split
    · exact Nat.le_refl _
    · cases ps with
      | nil => trivial
      | cons car cdr =>
        simp only
        cases hc : ConvertAndCheck st car with
        | crash => trivial
        | outOfFuel => trivial
        | ok v st1 =>
          have h1 := ConvertAndCheck_heap st car v st1 hc
          cases v with
          | none =>
            simp only [Result.heapAtLeast, h1, Nat.le_refl]
          | some num =>
            simp only
            have := BasicArithmeticFunction_loop_grows op cdr st1 num
            rw [h1] at this
            exact this

theorem BasicCompareFunction_loop_grows (op : CompareOp) (env : Option Nat) :
    ∀ (l : List Sexp) (st : State) (val : Int) (res : Bool),
      (BasicCompareFunction_loop op env st val res l).heapAtLeast st.heap.length := by
  intro l
  induction l with
  | nil =>
    intro st val res
    simp only [BasicCompareFunction_loop]
    cases env with
    | none => trivial
    | some e => exact Nat.le_refl _
  | cons s rest ih =>
    intro st val res
    simp only [BasicCompareFunction_loop]
    cases hc : ConvertAndCheck st s with
    | crash => trivial
    | outOfFuel => trivial
    | ok v st1 =>
      have h1 := ConvertAndCheck_heap st s v st1 hc
      cases v with
      | none =>
        simp only [Result.heapAtLeast, h1, Nat.le_refl]
      | some num =>
        simp only
        have := ih st1 num (res && op.do_operator val num)
        rw [h1] at this
        exact this

theorem BasicCompareFunction_eval_grows (op : CompareOp) (env : Option Nat) (st : State)
    (params : Option (List Sexp)) :
    (BasicCompareFunction_eval op env st params).heapAtLeast st.heap.length := by
  unfold BasicCompareFunction_eval
  cases params with
  | none => trivial
  | some ps =>
    simp only
    split
    · exact Nat.le_refl _
    · cases ps with
      | nil => trivial
      | cons car cdr =>
        simp only
        cases hc : ConvertAndCheck st car with
        | crash => trivial
        | outOfFuel => trivial
        | ok v st1 =>
          have h1 := ConvertAndCheck_heap st car v st1 hc
          cases v with
          | none =>
            simp only [Result.heapAtLeast, h1, Nat.le_refl]
          | some num =>
            simp only
            have := BasicCompareFunction_loop_grows op env cdr st1 num true
            rw [h1] at this
            exact this

theorem Lambda_new_grows (st : State) (env : Option Nat) (arglist : Option (List Sexp))
    (body : Option Sexp) : (Lambda_new st env arglist body).heapAtLeast st.heap.length := by
  unfold Lambda_new
  split
  · split
    · exact Nat.le_refl _
    · trivial
  · exact Nat.le_refl _

theorem Symbol_eval_grows (st : State) (context : Option Nat) (Name : String) :
    (Symbol_eval st context Name).heapAtLeast st.heap.length := by
  unfold Symbol_eval
  cases context with
  | none => trivial
  | some c =>
    simp only
    split
    · exact Nat.le_refl _
    · exact Nat.le_refl _

theorem CreateLambda_eval_grows (st : State) (context : Option Nat)
    (params : Option (List Sexp)) :
    (CreateLambda_eval st context params).heapAtLeast st.heap.length := by
  unfold CreateLambda_eval
  cases params with
  | none => trivial
  | some ps =>
    simp only
    split
    · exact Nat.le_refl _
    · split
      · exact Lambda_new_grows _ _ _ _
      · trivial

theorem List_eval_args_grows {ev : Evaluator} (hev : ev.grows) (c : Option Nat) :
    ∀ (l : List Sexp) (st : State),
      (List_eval_args ev c st l).heapAtLeast st.heap.length := by
  intro l
  induction l with
  | nil => intro st; exact Nat.le_refl _
  | cons s rest ih =>
    intro st
    simp only [List_eval_args]
    have h1 := hev st c s
    cases hs : ev st c s with
    | crash => trivial
    | outOfFuel => trivial
    | ok v st1 =>
      rw [hs] at h1
      cases v with
      | none => exact h1
      | some x =>
        simp only
        have h2 := ih st1
        cases hr : List_eval_args ev c st1 rest with
        | crash => trivial
        | outOfFuel => trivial
        | ok r st2 =>
          rw [hr] at h2
          cases r with
          | none => exact Nat.le_trans h1 h2
          | some args => exact Nat.le_trans h1 h2

theorem Environment_bind_grows {ev : Evaluator} (hev : ev.grows) (parent : Option Nat) :
    ∀ (values : List Sexp) (names : List String) (st : State)
      (vars : List (String × Option Sexp)),
      (Environment_bind ev parent st names values vars).heapAtLeast st.heap.length := by
  intro values
  induction values with
  | nil => intro names st vars; cases names <;> exact Nat.le_refl _
  | cons s rest ih =>
    intro names st vars
    cases names with
    | nil => exact Nat.le_refl _
    | cons name names =>
      simp only [Environment_bind]
      have h1 := hev st parent s
      cases hs : ev st parent s with
      | crash => trivial
      | outOfFuel => trivial
      | ok v st1 =>
        rw [hs] at h1
        exact Result.heapAtLeast_mono h1 (ih names st1 _)

theorem allocEnvironment_grows (st : State) (e : Environment) :
    (allocEnvironment st e).heapAtLeast (st.heap.length + 1) := by
  simp [allocEnvironment, Result.heapAtLeast]

theorem Environment_new_grows {ev : Evaluator} (hev : ev.grows) (st : State)
    (parent : Option Nat) (names : List String) (values : Option (List Sexp)) :
    (Environment_new ev st parent names values).heapAtLeast (st.heap.length + 1) := by
  unfold Environment_new
  cases values with
  | none => exact allocEnvironment_grows _ _
  | some vs =>
    simp only
    split
    · exact allocEnvironment_grows _ _
    · have h1 := Environment_bind_grows hev parent vs names st []
      cases hb : Environment_bind ev parent st names vs [] with
      | crash => trivial
      | outOfFuel => trivial
      | ok vars st1 =>
        rw [hb] at h1
        exact Result.heapAtLeast_mono (Nat.succ_le_succ h1) (allocEnvironment_grows _ _)

theorem Lambda_call_grows {ev : Evaluator} (hev : ev.grows) (st : State)
    (env : Option Nat) (body : Option Sexp) (args : List String) (params : Option (List Sexp)) :
    (Lambda_call ev st env body args params).heapAtLeast st.heap.length := by
  unfold Lambda_call
  have h1 := Environment_new_grows hev st env args params
  cases hn : Environment_new ev st env args params with
  | crash => trivial
  | outOfFuel => trivial
  | ok f st1 =>
    rw [hn] at h1
    cases body with
    | none => trivial
    | some b => exact Result.heapAtLeast_mono (Nat.le_of_succ_le h1) (hev st1 (some f) b)

theorem AndBooleanAggregateFunction_loop_grows {ev : Evaluator} (hev : ev.grows)
    (env context : Option Nat) :
    ∀ (l : List Sexp) (st : State),
      (AndBooleanAggregateFunction_loop ev env context st l).heapAtLeast st.heap.length := by
  intro l
  induction l with
  | nil =>
    intro st
    simp only [AndBooleanAggregateFunction_loop]
    cases env with
    | none => trivial
    | some e => exact Nat.le_refl _
  | cons s rest ih =>
    intro st
    simp only [AndBooleanAggregateFunction_loop]
    have h1 := hev st context s
    cases hs : ev st context s with
    | crash => trivial
    | outOfFuel => trivial
    | ok v st1 =>
      rw [hs] at h1
      cases v with
      | none => trivial
      | some x =>
        simp only
        split
        · cases env with
          | none => trivial
          | some e => exact h1
        · exact Result.heapAtLeast_mono h1 (ih st1)

theorem OrBooleanAggregateFunction_loop_grows {ev : Evaluator} (hev : ev.grows)
    (env context : Option Nat) :
    ∀ (l : List Sexp) (st : State),
      (OrBooleanAggregateFunction_loop ev env context st l).heapAtLeast st.heap.length := by
  intro l
  induction l with
  | nil =>
    intro st
    simp only [OrBooleanAggregateFunction_loop]
    cases env with
    | none => trivial
    | some e => exact Nat.le_refl _
  | cons s rest ih =>
    intro st
    simp only [OrBooleanAggregateFunction_loop]
    have h1 := hev st context s
    cases hs : ev st context s with
    | crash => trivial
    | outOfFuel => trivial
    | ok v st1 =>
      rw [hs] at h1
      cases v with
      | none => trivial
      | some x =>
        simp only
        split
        · cases env with
          | none => trivial
          | some e => exact h1
        · exact Result.heapAtLeast_mono h1 (ih st1)

theorem DefineFunction_eval_grows {ev : Evaluator} (hev : ev.grows)
    (env : Option Nat) (st : State) (context : Option Nat) (params : Option (List Sexp)) :
    (DefineFunction_eval ev env st context params).heapAtLeast st.heap.length := by
  cases params with
  | none => trivial
  | some ps =>
    cases ps with
    | nil => exact Nat.le_refl _
    | cons p cdr =>
      cases p with
      | number _ => exact Nat.le_refl _
      | lambda _ _ _ _ => exact Nat.le_refl _
      | builtin _ _ => exact Nat.le_refl _
      | symbol Name =>
        cases cdr with
        | nil => trivial
        | cons exp rest =>
          simp only [DefineFunction_eval]
          have h1 := hev st context exp
          cases hs : ev st context exp with
          | crash => trivial
          | outOfFuel => trivial
          | ok v st1 =>
            rw [hs] at h1
            cases env with
            | none => trivial
            | some e =>
              simp only [Result.heapAtLeast, bindArg_length]
              exact h1
      | list first =>
        cases cdr with
        | nil => trivial
        | cons body rest =>
          simp only [DefineFunction_eval]
          have h1 := hev st context (.list [.symbol "lambda", .list first.tail, body])
          cases hs : ev st context (.list [.symbol "lambda", .list first.tail, body]) with
          | crash => trivial
          | outOfFuel => trivial
          | ok v st1 =>
            rw [hs] at h1
            simp only
            split
            · simp only [Result.heapAtLeast, bindArg_length]
              exact h1
            · trivial

theorem IfLambda_eval_grows {ev : Evaluator} (hev : ev.grows)
    (st : State) (context : Option Nat) (params : Option (List Sexp)) :
    (IfLambda_eval ev st context params).heapAtLeast st.heap.length := by
  cases params with
  | none => trivial
  | some ps =>
    cases ps with
    | nil => trivial
    | cons testExp cdr =>
      simp only [IfLambda_eval]
      have h1 := hev st context testExp
      cases hs : ev st context testExp with
      | crash => trivial
      | outOfFuel => trivial
      | ok test st1 =>
        rw [hs] at h1
        simp only
        split
        · cases test with
          | none => trivial
          | some t =>
            simp only
            split
            · exact Result.heapAtLeast_mono h1 (hev st1 context _)
            · exact Result.heapAtLeast_mono h1 (hev st1 context _)
        · trivial

theorem Builtin_eval_grows {ev : Evaluator} (hev : ev.grows) (kind : Kind)
    (env : Option Nat) (st : State) (context : Option Nat) (params : Option (List Sexp)) :
    (Builtin_eval ev kind env st context params).heapAtLeast st.heap.length := by
  cases kind with
  | DefineFunction => exact DefineFunction_eval_grows hev env st context params
  | CreateLambda => exact CreateLambda_eval_grows st context params
  | IfLambda => exact IfLambda_eval_grows hev st context params
  | AndBooleanAggregateFunction =>
    simp only [Builtin_eval, AndBooleanAggregateFunction_eval]
    cases params with
    | none => trivial
    | some ps =>
      simp only
      split
      · exact Nat.le_refl _
      · exact AndBooleanAggregateFunction_loop_grows hev env context ps st
  | OrBooleanAggregateFunction =>
    simp only [Builtin_eval, OrBooleanAggregateFunction_eval]
    cases params with
    | none => trivial
    | some ps =>
      simp only
      split
      · exact Nat.le_refl _
      · exact OrBooleanAggregateFunction_loop_grows hev env context ps st
  | BasicCompareFunction op => exact BasicCompareFunction_eval_grows op env st params
  | BasicArithmeticFunction op => exact BasicArithmeticFunction_eval_grows op st params

theorem Lambda_eval_call_grows {ev : Evaluator} (hev : ev.grows) (st : State)
    (lambda : Sexp) (params : Option (List Sexp)) :
    (Lambda_eval_call ev st lambda params).heapAtLeast st.heap.length := by
  cases lambda with
  | lambda env arglist body args => exact Lambda_call_grows hev st env body args params
  | builtin kind env => exact Builtin_eval_grows hev kind env st none params
  | number _ => trivial
  | symbol _ => trivial
  | list _ => trivial

theorem List_eval_head_grows {ev : Evaluator} (hev : ev.grows) (st : State)
    (context : Option Nat) (car : Sexp) :
    (List_eval_head ev st context car).heapAtLeast st.heap.length := by
  cases car with
  | symbol _ =>
    simp only [List_eval_head]
    cases context with
    | none => trivial
    | some c => exact Nat.le_refl _
  | number _ => exact hev st context _
  | list _ => exact hev st context _
  | lambda _ _ _ _ => exact hev st context _
  | builtin _ _ => exact hev st context _

theorem List_eval_grows {ev : Evaluator} (hev : ev.grows) (st : State)
    (context : Option Nat) (elements : List Sexp) :
    (List_eval ev st context elements).heapAtLeast st.heap.length := by
  cases elements with
  | nil => exact Nat.le_refl _
  | cons car cdr =>
    simp only [List_eval]
    have h1 := List_eval_head_grows hev st context car
    cases hh : List_eval_head ev st context car with
    | crash => trivial
    | outOfFuel => trivial
    | ok exp st1 =>
      rw [hh] at h1
      have hargs : ∀ lam, (match List_eval_args ev context st1 cdr with
          | .ok (some args) st2 => Lambda_eval_call ev st2 lam (some args)
          | .ok none st2 => .ok none st2
          | .crash => .crash
          | .outOfFuel => .outOfFuel).heapAtLeast st.heap.length := by
        intro lam
        have h2 := List_eval_args_grows hev context cdr st1
        cases ha : List_eval_args ev context st1 cdr with
        | crash => trivial
        | outOfFuel => trivial
        | ok args st2 =>
          rw [ha] at h2
          cases args with
          | none => exact Nat.le_trans h1 h2
          | some args =>
            exact Result.heapAtLeast_mono (Nat.le_trans h1 h2) (Lambda_eval_call_grows hev st2 _ _)
      cases exp with
      | none => exact h1
      | some lam =>
        cases lam with
        | number _ => exact h1
        | symbol _ => exact h1
        | list _ => exact h1
        | lambda env arglist body names => exact hargs _
        | builtin kind env =>
          simp only
          split
          · exact Result.heapAtLeast_mono h1 (Builtin_eval_grows hev kind env st1 context _)
          · exact hargs _

theorem Sexp_eval_grows {ev : Evaluator} (hev : ev.grows) : Evaluator.grows (Sexp_eval ev) := by
  intro st c s
  cases s with
  | list elements => exact List_eval_grows hev st c elements
  | number _ => exact Nat.le_refl _
  | symbol Name => exact Symbol_eval_grows st c Name
  | lambda env arglist body _ => exact Lambda_new_grows st env arglist body
  | builtin _ env => exact Lambda_new_grows st env none none

theorem eval_grows : ∀ fuel : Nat, Evaluator.grows (eval fuel) := by
  intro fuel
  induction fuel with
  | zero => intro st c s; trivial
  | succ n ih => exact Sexp_eval_grows ih

/-- Evaluation never removes an `Environment` object. -/
theorem eval_heap_length_le {fuel : Nat} {st st1 : State} {c : Option Nat} {s : Sexp}
    {v : Option Sexp} (h : eval fuel st c s = .ok v st1) :
    st.heap.length ≤ st1.heap.length := by
  have := eval_grows fuel st c s
  rw [h] at this
  exact this

/-! ## Lists with an unbound head -/

theorem getValue_of_unbound (st : State) (env : Nat) (name : String)
    (h : ∀ g ∈ chain st env, mapFind g.vars name = none) : getValue st env name = none :=
  getValueLoop_of_unbound st.heap name (env + 1) (some env) h

theorem List_eval_unbound_head (ev : Evaluator) (st : State) (c : Nat) (name : String)
    (tail : List Sexp) (h : getValue st c name = none) :
    List_eval ev st (some c) (.symbol name :: tail)
      = .ok (some (.list (.symbol name :: tail))) st := by
  simp only [List_eval, List_eval_head, h]

/-- C11, as the code has it: a non-empty list whose head is a symbol that no frame of the
environment chain has evaluates to the list itself, unchanged, for every tail; the state is
unchanged, so no message is written. -/
theorem unbound_head_returns_list (fuel : Nat) (st : State) (c : Nat) (name : String)
    (tail : List Sexp) (h : ∀ g ∈ chain st c, mapFind g.vars name = none) :
    eval (fuel + 1) st (some c) (.list (.symbol name :: tail))
      = .ok (some (.list (.symbol name :: tail))) st :=
  List_eval_unbound_head (eval fuel) st c name tail (getValue_of_unbound st c name h)

theorem chain_SchemeInterpreter_new_foo :
    ∀ g ∈ chain SchemeInterpreter_new global, mapFind g.vars "foo" = none := by
  intro g hg
  have hc : chain SchemeInterpreter_new global = SchemeInterpreter_new.heap := rfl
  rw [hc] at hg
  have hh : SchemeInterpreter_new.heap.map (fun g => mapFind g.vars "foo") = [none] := rfl
  have := List.mem_map_of_mem (fun g => mapFind g.vars "foo") hg
  rw [hh] at this
  simpa using this

theorem unbound_head_returns_list_witness :
    (∀ g ∈ chain SchemeInterpreter_new global, mapFind g.vars "foo" = none) ∧
    eval 1 SchemeInterpreter_new (some global) (.list [.symbol "foo", .number 1])
      = .ok (some (.list [.symbol "foo", .number 1])) SchemeInterpreter_new :=
  ⟨chain_SchemeInterpreter_new_foo,
    unbound_head_returns_list 0 SchemeInterpreter_new global "foo" [.number 1]
      chain_SchemeInterpreter_new_foo⟩

/-- C11 as stated fails: in a fresh interpreter no frame has `foo`, and `(foo 1)` evaluates to
a value, the list `(foo 1)`, without a message. -/
theorem unbound_head_foo_is_a_value :
    ((chain SchemeInterpreter_new global).map fun g => (mapFind g.vars "foo").isSome) = [false] ∧
    SchemeInterpreter_eval 10 SchemeInterpreter_new (.list [.symbol "foo", .number 1])
      = .ok (some (.list [.symbol "foo", .number 1])) SchemeInterpreter_new ∧
    SchemeInterpreter_new.log = [] :=
  ⟨rfl, rfl, rfl⟩

/-! ## Self-evaluating values -/

/-- C12, on the code: evaluating a primitive or a special form does not return it.  The
derived classes inherit `Lambda::eval(context)`, which builds a new object of class `Lambda`
from `env`, `arglist` and `body`; the result is a closure without parameters and without a
body. -/
theorem eval_builtin_yields_plain_lambda (fuel : Nat) (st : State) (context : Option Nat)
    (kind : Kind) (env : Option Nat) :
    eval (fuel + 1) st context (.builtin kind env) = .ok (some (.lambda env none none [])) st := by
  rfl

/-- Numbers, the empty list and closures built by the `Lambda` constructor evaluate to
themselves. -/
theorem eval_self_evaluating (fuel : Nat) (st : State) (context : Option Nat) :
    (∀ value, eval (fuel + 1) st context (.number value) = .ok (some (.number value)) st) ∧
    eval (fuel + 1) st context (.list []) = .ok (some (.list [])) st ∧
    (∀ env arglist body args, Lambda_args arglist = some args →
      eval (fuel + 1) st context (.lambda env (some arglist) (some body) args)
        = .ok (some (.lambda env (some arglist) (some body) args)) st) := by
  refine ⟨fun _ => rfl, rfl, ?_⟩
  intro env arglist body args h
  simp only [eval, Sexp_eval, Lambda_new, h]

/-- A primitive passed as an argument is evaluated again when the frame of the call is built,
so `((lambda (f) (f 1 2)) +)` calls a closure without a body. -/
theorem passing_plus_crashes (fuel : Nat) :
    SchemeInterpreter_eval (fuel + 4) SchemeInterpreter_new
      (.list [.list [.symbol "lambda", .list [.symbol "f"],
          .list [.symbol "f", .number 1, .number 2]], .symbol "+"]) = .crash := by
  rfl

/-! ## The argument of a closure call -/

/-- C13, on the code: the parameter of `((lambda (x) x) e)` is not bound to the value of `e`.
The `Environment` constructor evaluates the argument value once more, in the environment of the
closure.  In a fresh interpreter the value of `+` is the primitive and the call yields a closure
without a body; after `(define y #t)` and `(define #t 5)` the value of `y` is the symbol `#t`
and the call yields `5`. -/
theorem identity_call_reevaluates_argument :
    SchemeInterpreter_eval 10 SchemeInterpreter_new (.symbol "+")
      = .ok (some (.builtin (.BasicArithmeticFunction .AddFunction) (some global)))
          SchemeInterpreter_new ∧
    (∃ st1, SchemeInterpreter_eval 10 SchemeInterpreter_new (identityCall (.symbol "+"))
      = .ok (some (.lambda (some global) none none [])) st1) ∧
    SchemeInterpreter_eval 10 reboundTrueState (.symbol "y")
      = .ok (some (.symbol "#t")) reboundTrueState ∧
    (∃ st1, SchemeInterpreter_eval 10 reboundTrueState (identityCall (.symbol "y"))
      = .ok (some (.number 5)) st1) :=
  ⟨rfl, ⟨_, rfl⟩, rfl, ⟨_, rfl⟩⟩

/-- With a Number as the value of the argument the identity call does return it. -/
theorem identity_call_on_number (fuel : Nat) (value : Int) :
    ∃ st1, SchemeInterpreter_eval (fuel + 3) SchemeInterpreter_new (identityCall (.number value))
      = .ok (some (.number value)) st1 :=
  ⟨_, rfl⟩

/-! ## `define` -/

theorem lt_heap_of_getValue (st : State) (c : Nat) (name : String) (v : Sexp)
    (h : getValue st c name = some v) : c < st.heap.length := by
  by_contra hlt
  have hnone : st.heap.get? c = none := List.get?_eq_none.2 (Nat.le_of_not_lt hlt)
  simp only [getValue, getValueLoop, hnone] at h
  exact Option.noConfusion h

theorem define_symbol_form (fuel : Nat) (st st1 : State) (c e : Nat) (name : String)
    (expr : Sexp) (val : Option Sexp)
    (hdef : getValue st c "define" = some (.builtin .DefineFunction (some e)))
    (hv : eval fuel st (some c) expr = .ok val st1) :
    eval (fuel + 1) st (some c) (.list [.symbol "define", .symbol name, expr])
      = .ok val (bindArg st1 e name val) := by
  simp only [eval, Sexp_eval, List_eval, List_eval_head, hdef, Kind.isSyntaxLambda, Builtin_eval,
    cdrPtr, DefineFunction_eval, hv]
  simp

/-- C14: in every environment in which `define` is the special form, `(define name expr)` with
`expr` evaluating to `v` returns `v` and leaves the state that the evaluation of `expr` left
with one change, the entry of `name` in the global frame: afterwards the global frame binds
`name` to `v`, its parent and its entries for other names are as before, and every other frame
is as before. -/
theorem define_binds_in_global_frame (fuel fuel2 : Nat) (st st1 : State) (c : Nat)
    (name : String) (expr v : Sexp)
    (hdef : getValue st c "define" = some (.builtin .DefineFunction (some global)))
    (hv : eval fuel st (some c) expr = .ok (some v) st1)
    (hfuel : fuel ≤ fuel2) :
    eval (fuel2 + 1) st (some c) (.list [.symbol "define", .symbol name, expr])
      = .ok (some v) (bindArg st1 global name (some v)) ∧
    getValue (bindArg st1 global name (some v)) global name = some v ∧
    (bindArg st1 global name (some v)).heap.get? global
      = (st1.heap.get? global).map
          (fun e => { parent := e.parent, vars := mapSet e.vars name (some v) }) ∧
    (∀ (vars : List (String × Option Sexp)) (other : String), other ≠ name →
      mapFind (mapSet vars name (some v)) other = mapFind vars other) ∧
    (∀ i, i ≠ global → (bindArg st1 global name (some v)).heap.get? i = st1.heap.get? i) := by
  have hc : c < st.heap.length := lt_heap_of_getValue st c "define" _ hdef
  have hg : global < st1.heap.length :=
    Nat.lt_of_lt_of_le (Nat.lt_of_le_of_lt (Nat.zero_le c) hc) (eval_heap_length_le hv)
  refine ⟨?_, getValue_bindArg_same st1 global name (some v) hg, bindArg_get?_eq _ _ _ _,
    fun vars other hne => mapFind_mapSet_other vars name other (some v) hne,
    fun i hi => bindArg_get?_ne st1 global i name (some v) hi⟩
  exact define_symbol_form fuel2 st st1 c global name expr (some v) hdef
    (eval_mono hfuel hv (by simp))

theorem define_binds_in_global_frame_witness :
    getValue SchemeInterpreter_new global "define"
      = some (.builtin .DefineFunction (some global)) ∧
    eval 1 SchemeInterpreter_new (some global) (.number 5)
      = .ok (some (.number 5)) SchemeInterpreter_new ∧
    eval 2 SchemeInterpreter_new (some global) (.list [.symbol "define", .symbol "a", .number 5])
      = .ok (some (.number 5)) (bindArg SchemeInterpreter_new global "a" (some (.number 5))) :=
  ⟨rfl, rfl,
    (define_binds_in_global_frame 1 1 SchemeInterpreter_new SchemeInterpreter_new global "a"
      (.number 5) (.number 5) rfl rfl (Nat.le_refl 1)).1⟩

/-- A `define` inside the frame of a closure call binds in the global frame: after
`((lambda (z) (define a z)) 5)` the global frame binds `a` to `5` and the frame of the call, at
address `1`, has no entry for `a`. -/
theorem define_inside_call_binds_globally :
    getValue (stateAfter 4 SchemeInterpreter_new
        (.list [.list [.symbol "lambda", .list [.symbol "z"],
          .list [.symbol "define", .symbol "a", .symbol "z"]], .number 5])) global "a"
      = some (.number 5) ∧
    ((stateAfter 4 SchemeInterpreter_new
        (.list [.list [.symbol "lambda", .list [.symbol "z"],
          .list [.symbol "define", .symbol "a", .symbol "z"]], .number 5])).heap.map
        fun e => (e.parent, (mapFind e.vars "a").isSome)) = [(none, true), (some global, false)] :=
  ⟨rfl, rfl⟩

/-! ## The two forms of `define` -/

theorem Lambda_args_symbols (names : List String) :
    Lambda_args (names.map .symbol) = some names := by
  induction names with
  | nil => rfl
  | cons n rest ih => simp only [List.map, Lambda_args, ih]

theorem define_function_form (ev : Evaluator) (st : State) (c : Nat) (env : Option Nat)
    (f : String) (ps : List Sexp) (b : Sexp)
    (hdef : getValue st c "define" = some (.builtin .DefineFunction env)) :
    List_eval ev st (some c) [.symbol "define", .list (.symbol f :: ps), b]
      = List_eval ev st (some c)
          [.symbol "define", .symbol f, .list [.symbol "lambda", .list ps, b]] := by
  simp only [List_eval, List_eval_head, hdef, Kind.isSyntaxLambda, Builtin_eval, cdrPtr,
    DefineFunction_eval, List.tail_cons, List.head?_cons, if_true]
  cases ev st (some c) (.list [.symbol "lambda", .list ps, b]) with
  | ok val st1 => cases env <;> rfl
  | crash => rfl
  | outOfFuel => rfl

theorem lambda_form_value (fuel : Nat) (st : State) (c : Nat) (envl : Option Nat)
    (names : List String) (b : Sexp)
    (hlam : getValue st c "lambda" = some (.builtin .CreateLambda envl)) :
    eval (fuel + 1) st (some c) (.list [.symbol "lambda", .list (names.map .symbol), b])
      = .ok (some (.lambda (some c) (some (names.map .symbol)) (some b) names)) st := by
  simp only [eval, Sexp_eval, List_eval, List_eval_head, hlam, Kind.isSyntaxLambda, Builtin_eval,
    cdrPtr, CreateLambda_eval, Lambda_new, Lambda_args_symbols]
  simp

/-- C15: where `define` is the special form, `(define (f p1 ... pk) b)` and
`(define f (lambda (p1 ... pk) b))` evaluate to the same result in the same state, for every
tail `p1 ... pk` (also the empty one) and every amount of fuel; where `lambda` is the
special form too and the `pi` are symbols, both return the closure over the current environment
with these parameters and body `b` and bind `f` to it in the global frame. -/
theorem define_function_form_is_lambda_form (fuel : Nat) (st : State) (c : Nat)
    (envl : Option Nat) (f : String) (names : List String) (b : Sexp)
    (hdef : getValue st c "define" = some (.builtin .DefineFunction (some global)))
    (hlam : getValue st c "lambda" = some (.builtin .CreateLambda envl)) :
    (∀ (n : Nat) (ps : List Sexp),
      eval n st (some c) (.list [.symbol "define", .list (.symbol f :: ps), b])
        = eval n st (some c)
            (.list [.symbol "define", .symbol f, .list [.symbol "lambda", .list ps, b]])) ∧
    eval (fuel + 2) st (some c) (.list [.symbol "define", .list (.symbol f :: names.map .symbol), b])
      = .ok (some (.lambda (some c) (some (names.map .symbol)) (some b) names))
          (bindArg st global f
            (some (.lambda (some c) (some (names.map .symbol)) (some b) names))) ∧
    eval (fuel + 2) st (some c)
        (.list [.symbol "define", .symbol f,
          .list [.symbol "lambda", .list (names.map .symbol), b]])
      = .ok (some (.lambda (some c) (some (names.map .symbol)) (some b) names))
          (bindArg st global f
            (some (.lambda (some c) (some (names.map .symbol)) (some b) names))) := by
  have h1 : ∀ (n : Nat) (ps : List Sexp),
      eval n st (some c) (.list [.symbol "define", .list (.symbol f :: ps), b])
        = eval n st (some c)
            (.list [.symbol "define", .symbol f, .list [.symbol "lambda", .list ps, b]]) := by
    intro n ps
    cases n with
    | zero => rfl
    | succ n => exact define_function_form (eval n) st c _ f ps b hdef
  have h2 := define_symbol_form (fuel + 1) st st c global f
    (.list [.symbol "lambda", .list (names.map .symbol), b]) _ hdef
    (lambda_form_value fuel st c envl names b hlam)
  refine ⟨h1, ?_, h2⟩
  rw [h1]
  exact h2

theorem define_function_form_is_lambda_form_witness :
    getValue SchemeInterpreter_new global "define"
      = some (.builtin .DefineFunction (some global)) ∧
    getValue SchemeInterpreter_new global "lambda"
      = some (.builtin .CreateLambda (some global)) ∧
    eval 2 SchemeInterpreter_new (some global) squareDefinition
      = .ok (some (.lambda (some global) (some [.symbol "x"])
            (some (.list [.symbol "*", .symbol "x", .symbol "x"])) ["x"]))
          (bindArg SchemeInterpreter_new global "square"
            (some (.lambda (some global) (some [.symbol "x"])
              (some (.list [.symbol "*", .symbol "x", .symbol "x"])) ["x"]))) :=
  ⟨rfl, rfl,
    (define_function_form_is_lambda_form 0 SchemeInterpreter_new global (some global) "square"
      ["x"] (.list [.symbol "*", .symbol "x", .symbol "x"]) rfl rfl).2.1⟩

/-- After `(define (square x) (* x x))`, `(square 5)` evaluates to `25`. -/
theorem eval_square_5 :
    ∃ st1, SchemeInterpreter_eval 3 (stateAfter 2 SchemeInterpreter_new squareDefinition)
      (.list [.symbol "square", .number 5]) = .ok (some (.number 25)) st1 :=
  ⟨_, rfl⟩

/-! ## Arity -/

/-- C16, on the code: `(lambda)` does not return an arity error.  `List::eval` passes the null
`cdr` of the one-element list as `params`, and `CreateLambda::eval` begins with
`params->size()`. -/
theorem lambda_without_operands_crashes (fuel : Nat) :
    SchemeInterpreter_eval (fuel + 1) SchemeInterpreter_new (.list [.symbol "lambda"])
      = .crash := by
  rfl

/-- With one operand the arity check of `CreateLambda::eval` is reached: `(lambda X)` returns
failure after the message, and no closure. -/
theorem lambda_with_one_operand_fails (fuel : Nat) (st : State) (c : Nat) (env : Option Nat)
    (operand : Sexp) (hlam : getValue st c "lambda" = some (.builtin .CreateLambda env)) :
    eval (fuel + 1) st (some c) (.list [.symbol "lambda", operand])
      = .ok none (st.loge (.notEnoughArguments 1)) := by
  simp only [eval, Sexp_eval, List_eval, List_eval_head, hlam, Kind.isSyntaxLambda, Builtin_eval,
    cdrPtr, CreateLambda_eval]
  simp

theorem arity_error_of_short (st : State) (env : Option Nat) (ps : List Sexp)
    (h : ps.length < 2) :
    (∀ op, BasicArithmeticFunction_eval op st (some ps)
      = .ok none (st.loge (.notEnoughArguments ps.length))) ∧
    (∀ op, BasicCompareFunction_eval op env st (some ps)
      = .ok none (st.loge (.notEnoughArguments ps.length))) := by
  constructor
  · intro op
    simp only [BasicArithmeticFunction_eval, if_pos h]
  · intro op
    simp only [BasicCompareFunction_eval, if_pos h]

/-- C17: each of `+ - * /` and `< > =` applied to a list of fewer than two arguments, and each
of `and`, `or` applied to the empty list of arguments, returns failure after the message
`not enough arguments`, and nothing else happens. -/
theorem primitives_check_arity (st : State) (env : Option Nat) (ps : List Sexp)
    (h : ps.length < 2) :
    (∀ op, BasicArithmeticFunction_eval op st (some ps)
      = .ok none (st.loge (.notEnoughArguments ps.length))) ∧
    (∀ op, BasicCompareFunction_eval op env st (some ps)
      = .ok none (st.loge (.notEnoughArguments ps.length))) ∧
    (∀ ev context, AndBooleanAggregateFunction_eval ev env st context (some [])
      = .ok none (st.loge (.notEnoughArguments 0))) ∧
    (∀ ev context, OrBooleanAggregateFunction_eval ev env st context (some [])
      = .ok none (st.loge (.notEnoughArguments 0))) :=
  ⟨(arity_error_of_short st env ps h).1, (arity_error_of_short st env ps h).2,
    fun _ _ => rfl, fun _ _ => rfl⟩

theorem primitives_check_arity_witness :
    [Sexp.number 1].length < 2 ∧
    BasicArithmeticFunction_eval .AddFunction SchemeInterpreter_new (some [.number 1])
      = .ok none (SchemeInterpreter_new.loge (.notEnoughArguments 1)) :=
  ⟨by decide,
    (primitives_check_arity SchemeInterpreter_new (some global) [.number 1] (by decide)).1
      .AddFunction⟩

/-- A primitive called without arguments, as in `(+)`, `(<)`, `(and)` or `(or)`, gets the
empty list and returns failure after the message `not enough arguments`. -/
theorem eval_primitive_without_arguments (fuel : Nat) (st : State) (c : Nat) (p : String)
    (kind : Kind) (env : Option Nat) (hp : getValue st c p = some (.builtin kind env))
    (hk : kind.isSyntaxLambda = false) :
    eval (fuel + 1) st (some c) (.list [.symbol p])
      = .ok none (st.loge (.notEnoughArguments 0)) := by
  simp only [eval, Sexp_eval, List_eval, List_eval_head, hp, hk, List_eval_args,
    Lambda_eval_call]
  cases kind with
  | DefineFunction => simp [Kind.isSyntaxLambda] at hk
  | CreateLambda => simp [Kind.isSyntaxLambda] at hk
  | IfLambda => simp [Kind.isSyntaxLambda] at hk
  | AndBooleanAggregateFunction => rfl
  | OrBooleanAggregateFunction => rfl
  | BasicCompareFunction op => rfl
  | BasicArithmeticFunction op => rfl

/-- The calls `(+)`, `(+ 1)`, `(< 1)`, `(and)` and `(or)` in the interpreter. -/
theorem eval_short_calls :
    SchemeInterpreter_eval 2 SchemeInterpreter_new (.list [.symbol "+"])
      = .ok none (SchemeInterpreter_new.loge (.notEnoughArguments 0)) ∧
    SchemeInterpreter_eval 2 SchemeInterpreter_new (.list [.symbol "+", .number 1])
      = .ok none (SchemeInterpreter_new.loge (.notEnoughArguments 1)) ∧
    SchemeInterpreter_eval 2 SchemeInterpreter_new (.list [.symbol "<", .number 1])
      = .ok none (SchemeInterpreter_new.loge (.notEnoughArguments 1)) ∧
    SchemeInterpreter_eval 2 SchemeInterpreter_new (.list [.symbol "and"])
      = .ok none (SchemeInterpreter_new.loge (.notEnoughArguments 0)) ∧
    SchemeInterpreter_eval 2 SchemeInterpreter_new (.list [.symbol "or"])
      = .ok none (SchemeInterpreter_new.loge (.notEnoughArguments 0)) :=
  ⟨rfl, rfl, rfl, rfl, rfl⟩

/-! ## Lookup and binding -/

/-- C18 as stated fails: in `nullBindingState` the frame at address `1` has the global frame as
its parent, the global frame binds `x` to `5`, and the lookup of `x` from frame `1` finds the
entry of frame `1`, the null pointer, so `Symbol::eval` reports `x` as unbound. -/
theorem lookup_unbound_although_bound :
    (nullBindingState.heap.map fun e => (e.parent, mapFind e.vars "x"))
      = [(none, some (some (.number 5))), (some global, some none)] ∧
    getValue nullBindingState 1 "x" = none ∧
    Symbol_eval nullBindingState (some 1) "x"
      = .ok none (nullBindingState.loge (.variableUnbound "x")) :=
  ⟨rfl, rfl, rfl⟩

/-- C18, as the code has it: the lookup returns the entry of the innermost frame of the chain
that has the name, a value or the null pointer, and the null pointer when no frame has the
name; `Symbol::eval` reports the name as unbound exactly when no frame has it or that
innermost entry is the null pointer. -/
theorem lookup_returns_innermost_entry (st : State) (env : Nat) (name : String) :
    (∀ pre f post v, chain st env = pre ++ f :: post →
      (∀ g ∈ pre, mapFind g.vars name = none) → mapFind f.vars name = some v →
      getValue st env name = v) ∧
    ((∀ g ∈ chain st env, mapFind g.vars name = none) → getValue st env name = none) ∧
    (Symbol_eval st (some env) name = .ok none (st.loge (.variableUnbound name)) ↔
      ((∀ g ∈ chain st env, mapFind g.vars name = none) ∨
        ∃ pre f post, chain st env = pre ++ f :: post ∧
          (∀ g ∈ pre, mapFind g.vars name = none) ∧ mapFind f.vars name = some none)) := by
  have h1 : ∀ pre f post v, chain st env = pre ++ f :: post →
      (∀ g ∈ pre, mapFind g.vars name = none) → mapFind f.vars name = some v →
      getValue st env name = v :=
    fun pre f post v hc hpre hf =>
      getValueLoop_of_prefix st.heap name (env + 1) (some env) pre f post v hc hpre hf
  have h2 : (∀ g ∈ chain st env, mapFind g.vars name = none) → getValue st env name = none :=
    getValueLoop_of_unbound st.heap name (env + 1) (some env)
  refine ⟨h1, h2, ?_⟩
  have hs : Symbol_eval st (some env) name = .ok none (st.loge (.variableUnbound name)) ↔
      getValue st env name = none := by
    simp only [Symbol_eval]
    cases getValue st env name <;> simp
  rw [hs]
  constructor
  · intro hnone
    rcases chain_cases (chain st env) name with h | ⟨pre, f, post, v, hc, hpre, hf⟩
    · exact Or.inl h
    · right
      have := h1 pre f post v hc hpre hf
      rw [hnone] at this
      subst this
      exact ⟨pre, f, post, hc, hpre, hf⟩
  · rintro (h | ⟨pre, f, post, hc, hpre, hf⟩)
    · exact h2 h
    · exact h1 pre f post none hc hpre hf

theorem lookup_returns_innermost_entry_witness :
    getValue nullBindingState global "x" = some (.number 5) ∧
    Symbol_eval nullBindingState (some 1) "x"
      = .ok none (nullBindingState.loge (.variableUnbound "x")) :=
  ⟨(lookup_returns_innermost_entry nullBindingState global "x").1 [] _ [] (some (.number 5))
      rfl (fun _ h => absurd h (List.not_mem_nil _)) rfl,
    (lookup_returns_innermost_entry nullBindingState 1 "x").2.2.2
      (Or.inr ⟨[], _, _, rfl, fun _ h => absurd h (List.not_mem_nil _), rfl⟩)⟩

theorem getValueLoop_bound (heap : List Environment) (hwf : parentsBelow heap) (name : String) :
    ∀ (env n : Nat), env + 1 ≤ n →
      getValueLoop heap n (some env) name = getValueLoop heap (env + 1) (some env) name := by
  intro env
  induction env using Nat.strong_induction_on with
  | _ env ih =>
    intro n hn
    obtain ⟨m, rfl⟩ : ∃ m, n = m + 1 := ⟨n - 1, by omega⟩
    simp only [getValueLoop]
    cases hget : heap.get? env with
    | none => rfl
    | some e =>
      simp only
      cases mapFind e.vars name with
      | some v => rfl
      | none =>
        simp only
        cases hp : e.parent with
        | none => cases m <;> cases env <;> rfl
        | some p =>
          have hlt : p < env := hwf env e p hget hp
          rw [ih p hlt m (by omega), ih p hlt env (by omega)]

/-- C19: `bindArg(name, val)` on an existing frame changes the entry of that frame for `name`
and nothing else.  Afterwards the lookup of `name` from that frame yields `val`, whatever the
frame or its ancestors held for `name` before; the lookup of every other name, from every
frame, is as before; the frame keeps its parent and its entries for other names; every other
frame and the log are as before. -/
theorem bindArg_changes_one_entry (st : State) (env : Nat) (name : String) (val : Option Sexp)
    (h : env < st.heap.length) :
    getValue (bindArg st env name val) env name = val ∧
    (∀ other env2, other ≠ name →
      getValue (bindArg st env name val) env2 other = getValue st env2 other) ∧
    (bindArg st env name val).heap.get? env
      = (st.heap.get? env).map (fun e => { parent := e.parent, vars := mapSet e.vars name val }) ∧
    (∀ (vars : List (String × Option Sexp)) (other : String), other ≠ name →
      mapFind (mapSet vars name val) other = mapFind vars other) ∧
    (∀ i, i ≠ env → (bindArg st env name val).heap.get? i = st.heap.get? i) ∧
    (bindArg st env name val).log = st.log :=
  ⟨getValue_bindArg_same st env name val h,
    fun other env2 hne => getValue_bindArg_other st env env2 name other val hne,
    bindArg_get?_eq st env name val,
    fun vars other hne => mapFind_mapSet_other vars name other val hne,
    fun i hi => bindArg_get?_ne st env i name val hi,
    rfl⟩

theorem bindArg_changes_one_entry_witness :
    global < SchemeInterpreter_new.heap.length ∧
    getValue SchemeInterpreter_new global "#t" = some (.symbol "#t") ∧
    getValue (bindArg SchemeInterpreter_new global "#t" (some (.number 1))) global "#t"
      = some (.number 1) :=
  ⟨by decide, rfl,
    (bindArg_changes_one_entry SchemeInterpreter_new global "#t" (some (.number 1))
      (by decide)).1⟩

/-- A binding in the frame of a call hides the binding of the same name in the global frame
and leaves it in place: in `makeAdderStateWith 7` after `((make-adder 3) 4)`, the frame at
address `1` binds `n` to `3` and the global frame still binds `n` to `7`. -/
theorem call_frame_shadows_global :
    getValue (stateAfter 4 (makeAdderStateWith 7)
        (.list [.list [.symbol "make-adder", .number 3], .number 4])) 1 "n"
      = some (.number 3) ∧
    getValue (stateAfter 4 (makeAdderStateWith 7)
        (.list [.list [.symbol "make-adder", .number 3], .number 4])) global "n"
      = some (.number 7) :=
  ⟨rfl, rfl⟩

/-! ## Calls with too few arguments -/

/-- C20, on the code: `((lambda (x y) 1) 5)` does not return failure.  The `Environment`
constructor writes `more names than values` and returns early, leaving the frame empty;
`Lambda::eval` evaluates the body in that frame all the same and returns its value. -/
theorem call_with_missing_argument_returns_value (fuel : Nat) :
    ∃ st1, SchemeInterpreter_eval (fuel + 3) SchemeInterpreter_new
        (.list [.list [.symbol "lambda", .list [.symbol "x", .symbol "y"], .number 1],
          .number 5])
      = .ok (some (.number 1)) st1 ∧ st1.log = [.moreNamesThanValues] ∧
      (st1.heap.get? 1).map Environment.vars = some [] :=
  ⟨_, rfl, rfl, rfl⟩

/-- The frame of a call with too few arguments is empty, whatever the body is: the constructor
writes the message and binds nothing. -/
theorem Environment_new_too_few (ev : Evaluator) (st : State) (parent : Option Nat)
    (names : List String) (values : List Sexp) (h : values.length < names.length) :
    Environment_new ev st parent names (some values)
      = .ok st.heap.length
          { heap := st.heap ++ [{ parent := parent, vars := [] }],
            log := st.log ++ [.moreNamesThanValues] } := by
  simp only [Environment_new, gt_iff_lt, if_pos h, allocEnvironment, State.loge]

/-- A call with too few arguments is the evaluation of the body in the empty frame. -/
theorem Lambda_call_too_few (ev : Evaluator) (st : State) (env : Option Nat) (body : Sexp)
    (names : List String) (values : List Sexp) (h : values.length < names.length) :
    Lambda_call ev st env (some body) names (some values)
      = ev { heap := st.heap ++ [{ parent := env, vars := [] }],
             log := st.log ++ [.moreNamesThanValues] } (some st.heap.length) body := by
  simp only [Lambda_call, Environment_new_too_few ev st env names values h]

/-! ## Non-Number arguments of the primitives -/

theorem ConvertAndCheck_spec (st : State) (s : Sexp) :
    (∀ value, s = .number value → ConvertAndCheck st s = .ok (some value) st) ∧
    (∀ Name, s = .symbol Name → ConvertAndCheck st s = .ok none (st.loge (.isUnbound s))) ∧
    (s.isNumber = false → (∀ Name, s ≠ .symbol Name) → (Sexp_print s).isSome = true →
      ConvertAndCheck st s = .ok none (st.loge (.isNotANumber s))) ∧
    (s.isNumber = false → (∀ Name, s ≠ .symbol Name) → Sexp_print s = none →
      ConvertAndCheck st s = .crash) := by
  refine ⟨?_, ?_, ?_, ?_⟩
  · rintro value rfl; rfl
  · rintro Name rfl; rfl
  · intro hn hs hp
    cases s with
    | number _ => simp [Sexp.isNumber] at hn
    | symbol Name => exact absurd rfl (hs Name)
    | list l =>
      cases hq : Sexp_print (.list l) with
      | none => rw [hq] at hp; exact Bool.noConfusion hp
      | some t => simp only [ConvertAndCheck, hq]
    | lambda a b c d =>
      cases hq : Sexp_print (.lambda a b c d) with
      | none => rw [hq] at hp; exact Bool.noConfusion hp
      | some t => simp only [ConvertAndCheck, hq]
    | builtin a b =>
      cases hq : Sexp_print (.builtin a b) with
      | none => rw [hq] at hp; exact Bool.noConfusion hp
      | some t => simp only [ConvertAndCheck, hq]
  · intro hn hs hp
    cases s with
    | number _ => simp [Sexp.isNumber] at hn
    | symbol Name => exact absurd rfl (hs Name)
    | list l => simp only [ConvertAndCheck, hp]
    | lambda a b c d => simp only [ConvertAndCheck, hp]
    | builtin a b => simp only [ConvertAndCheck, hp]

theorem ConvertAndCheck_not_number (st : State) (s : Sexp) (h : s.isNumber = false)
    (hp : (Sexp_print s).isSome = true) : ∃ st1, ConvertAndCheck st s = .ok none st1 := by
  cases s with
  | number _ => simp [Sexp.isNumber] at h
  | symbol _ => exact ⟨_, rfl⟩
  | list l => exact ⟨_, (ConvertAndCheck_spec st (.list l)).2.2.1 rfl (by simp) hp⟩
  | lambda a b c d =>
    exact ⟨_, (ConvertAndCheck_spec st (.lambda a b c d)).2.2.1 rfl (by simp) hp⟩
  | builtin a b => exact ⟨_, (ConvertAndCheck_spec st (.builtin a b)).2.2.1 rfl (by simp) hp⟩

theorem BasicArithmeticFunction_loop_not_number (op : ArithmeticOp) :
    ∀ (l : List Sexp) (st : State) (res : Int), (∃ s ∈ l, s.isNumber = false) →
      (∀ s ∈ l, (Sexp_print s).isSome = true) →
      (op = .DivisionFunction → ∀ s ∈ l, s ≠ .number (-1)) →
      ∃ st1, BasicArithmeticFunction_loop op st res l = .ok none st1 := by
  intro l
  induction l with
  | nil => intro st res h; simp at h
  | cons s rest ih =>
    intro st res h hp hdiv
    simp only [BasicArithmeticFunction_loop]
    by_cases hs : s.isNumber = true
    · cases s with
      | number value =>
        have hrest : ∃ s ∈ rest, s.isNumber = false := by
          obtain ⟨x, hx, hxn⟩ := h
          rcases List.mem_cons.1 hx with rfl | hx
          · simp [Sexp.isNumber] at hxn
          · exact ⟨x, hx, hxn⟩
        simp only [ConvertAndCheck]
        rcases hv : op.checkParamsValid st res value with ⟨_ | _, st2⟩
        · exact ⟨_, rfl⟩
        · simp only
          cases hd : op.do_operator res value with
          | some r =>
            exact ih st2 r hrest (fun x hx => hp x (List.mem_cons_of_mem _ hx))
              (fun ho x hx => hdiv ho x (List.mem_cons_of_mem _ hx))
          | none =>
            exfalso
            cases op with
            | AddFunction => simp [ArithmeticOp.do_operator] at hd
            | MultiplyFunction => simp [ArithmeticOp.do_operator] at hd
            | MinusFunction => simp [ArithmeticOp.do_operator] at hd
            | DivisionFunction =>
              simp only [ArithmeticOp.do_operator] at hd
              simp only [ArithmeticOp.checkParamsValid] at hv
              by_cases hz : value = 0
              · rw [if_pos hz] at hv
                simp at hv
              · have hm : value ≠ -1 := by
                  intro hm
                  exact hdiv rfl (.number value) (List.mem_cons_self _ _) (by rw [hm])
                have hno : ¬ (value = 0 ∨ (res = -2147483648 ∧ value = -1)) := by
                  rintro (h1 | ⟨_, h2⟩)
                  · exact hz h1
                  · exact hm h2
                rw [if_neg hno] at hd
                simp at hd
      | symbol _ => simp [Sexp.isNumber] at hs
      | list _ => simp [Sexp.isNumber] at hs
      | lambda _ _ _ _ => simp [Sexp.isNumber] at hs
      | builtin _ _ => simp [Sexp.isNumber] at hs
    · obtain ⟨st1, h1⟩ := ConvertAndCheck_not_number st s (by simpa using hs)
        (hp s (List.mem_cons_self _ _))
      exact ⟨st1, by rw [h1]⟩

theorem BasicCompareFunction_loop_not_number (op : CompareOp) (env : Option Nat) :
    ∀ (l : List Sexp) (st : State) (val : Int) (res : Bool), (∃ s ∈ l, s.isNumber = false) →
      (∀ s ∈ l, (Sexp_print s).isSome = true) →
      ∃ st1, BasicCompareFunction_loop op env st val res l = .ok none st1 := by
  intro l
  induction l with
  | nil => intro st val res h; simp at h
  | cons s rest ih =>
    intro st val res h hp
    simp only [BasicCompareFunction_loop]
    by_cases hs : s.isNumber = true
    · cases s with
      | number value =>
        have hrest : ∃ s ∈ rest, s.isNumber = false := by
          obtain ⟨x, hx, hxn⟩ := h
          rcases List.mem_cons.1 hx with rfl | hx
          · simp [Sexp.isNumber] at hxn
          · exact ⟨x, hx, hxn⟩
        simp only [ConvertAndCheck]
        exact ih st value _ hrest (fun x hx => hp x (List.mem_cons_of_mem _ hx))
      | symbol _ => simp [Sexp.isNumber] at hs
      | list _ => simp [Sexp.isNumber] at hs
      | lambda _ _ _ _ => simp [Sexp.isNumber] at hs
      | builtin _ _ => simp [Sexp.isNumber] at hs
    · obtain ⟨st1, h1⟩ := ConvertAndCheck_not_number st s (by simpa using hs)
        (hp s (List.mem_cons_self _ _))
      exact ⟨st1, by rw [h1]⟩

/-- A call of an arithmetic or comparison primitive with at least two argument values, one of
which is not a Number, returns failure, wherever that argument stands and whatever the
arguments before it are, provided that the text of every argument can be written (no `Lambda`
with a null `body` among them) and, for `/`, that no argument is `-1`. -/
theorem primitive_fails_on_non_number (st : State) (env : Option Nat) (ps : List Sexp)
    (hlen : 2 ≤ ps.length) (h : ∃ s ∈ ps, s.isNumber = false)
    (hp : ∀ s ∈ ps, (Sexp_print s).isSome = true) :
    (∀ op, (op = .DivisionFunction → ∀ s ∈ ps, s ≠ .number (-1)) →
      ∃ st1, BasicArithmeticFunction_eval op st (some ps) = .ok none st1) ∧
    (∀ op, ∃ st1, BasicCompareFunction_eval op env st (some ps) = .ok none st1) := by
  cases ps with
  | nil => simp at hlen
  | cons car cdr =>
    have hnot : ¬ (car :: cdr).length < 2 := by omega
    have hcdr : ∀ s ∈ cdr, (Sexp_print s).isSome = true :=
      fun x hx => hp x (List.mem_cons_of_mem _ hx)
    by_cases hs : car.isNumber = true
    · cases car with
      | number value =>
        have hrest : ∃ s ∈ cdr, s.isNumber = false := by
          obtain ⟨x, hx, hxn⟩ := h
          rcases List.mem_cons.1 hx with rfl | hx
          · simp [Sexp.isNumber] at hxn
          · exact ⟨x, hx, hxn⟩
        constructor
        · intro op hdiv
          simp only [BasicArithmeticFunction_eval, if_neg hnot, ConvertAndCheck]
          exact BasicArithmeticFunction_loop_not_number op cdr st value hrest hcdr
            (fun ho x hx => hdiv ho x (List.mem_cons_of_mem _ hx))
        · intro op
          simp only [BasicCompareFunction_eval, if_neg hnot, ConvertAndCheck]
          exact BasicCompareFunction_loop_not_number op env cdr st value true hrest hcdr
      | symbol _ => simp [Sexp.isNumber] at hs
      | list _ => simp [Sexp.isNumber] at hs
      | lambda _ _ _ _ => simp [Sexp.isNumber] at hs
      | builtin _ _ => simp [Sexp.isNumber] at hs
    · obtain ⟨st1, h1⟩ := ConvertAndCheck_not_number st car (by simpa using hs)
        (hp car (List.mem_cons_self _ _))
      constructor
      · intro op _
        exact ⟨st1, by simp only [BasicArithmeticFunction_eval, if_neg hnot, h1]⟩
      · intro op
        exact ⟨st1, by simp only [BasicCompareFunction_eval, if_neg hnot, h1]⟩

/-- C26, on the code: an arithmetic or comparison call with a non-Number argument does not
always fail.  In a fresh interpreter the value of `((lambda (x) x) +)` is a `Lambda` with null
`arglist` and `body` (the `Environment` constructor evaluates the primitive and `Lambda::eval`
builds it).  For that value `ConvertAndCheck` starts its message with `*s`, `Lambda::print`
writes `*body` through the null pointer, and `(+ 1 ((lambda (x) x) +))` and
`(< 1 ((lambda (x) x) +))` stop there instead of returning failure.  `(/ -2147483648 -1 #t)`
stops in the division of `INT_MIN` by `-1` before the loop comes to the symbol. -/
theorem primitive_on_non_number_crashes :
    (∃ env st1, SchemeInterpreter_eval 4 SchemeInterpreter_new (identityCall (.symbol "+"))
      = .ok (some (.lambda env none none [])) st1) ∧
    (∀ st env, ConvertAndCheck st (.lambda env none none []) = .crash) ∧
    SchemeInterpreter_eval 5 SchemeInterpreter_new
        (.list [.symbol "+", .number 1, identityCall (.symbol "+")]) = .crash ∧
    SchemeInterpreter_eval 5 SchemeInterpreter_new
        (.list [.symbol "<", .number 1, identityCall (.symbol "+")]) = .crash ∧
    SchemeInterpreter_eval 2 SchemeInterpreter_new
        (.list [.symbol "/", .number (-2147483648), .number (-1), .symbol "#t"]) = .crash :=
  ⟨⟨_, _, rfl⟩, fun _ _ => rfl, rfl, rfl, rfl⟩

/-- The expressions `(< 3 1 zz)` and `(+ 1 (lambda (x) x))` fail in the interpreter: the first
although its first pair is already false, with `zz` reported by `Symbol::eval`; the second with
the closure reported as not a number. -/
theorem eval_primitive_on_non_number :
    (∃ st1, SchemeInterpreter_eval 3 SchemeInterpreter_new
        (.list [.symbol "<", .number 3, .number 1, .symbol "zz"]) = .ok none st1) ∧
    (∃ st1, SchemeInterpreter_eval 3 SchemeInterpreter_new
        (.list [.symbol "+", .number 1, .list [.symbol "lambda", .list [.symbol "x"],
          .symbol "x"]]) = .ok none st1) ∧
    BasicCompareFunction_eval .LessFunction (some global) SchemeInterpreter_new
        (some [.number 3, .number 1, .list []])
      = .ok none (SchemeInterpreter_new.loge (.isNotANumber (.list []))) :=
  ⟨⟨_, rfl⟩, ⟨_, rfl⟩, rfl⟩

/-! ## A failed `define` -/

theorem Symbol_eval_of_getValue_none (st : State) (c : Nat) (name : String)
    (h : getValue st c name = none) :
    Symbol_eval st (some c) name = .ok none (st.loge (.variableUnbound name)) := by
  simp only [Symbol_eval, h]

/-- C27: where `define` is the special form and the value expression of `(define name expr)`
evaluates to failure, the form returns failure and binds `name` to the null pointer in the
global frame; afterwards the lookup of `name` in the global environment finds nothing and
`Symbol::eval` reports `name` as unbound, whatever `name` was bound to before. -/
theorem failed_define_unbinds_name (fuel fuel2 : Nat) (st st1 : State) (c : Nat)
    (name : String) (expr : Sexp)
    (hdef : getValue st c "define" = some (.builtin .DefineFunction (some global)))
    (hfail : eval fuel st (some c) expr = .ok none st1)
    (hfuel : fuel ≤ fuel2) :
    eval (fuel2 + 1) st (some c) (.list [.symbol "define", .symbol name, expr])
      = .ok none (bindArg st1 global name none) ∧
    (bindArg st1 global name none).heap.get? global
      = (st1.heap.get? global).map
          (fun e => { parent := e.parent, vars := mapSet e.vars name none }) ∧
    getValue (bindArg st1 global name none) global name = none ∧
    (∀ n, eval (n + 1) (bindArg st1 global name none) (some global) (.symbol name)
      = .ok none ((bindArg st1 global name none).loge (.variableUnbound name))) := by
  have hc : c < st.heap.length := lt_heap_of_getValue st c "define" _ hdef
  have hg : global < st1.heap.length :=
    Nat.lt_of_lt_of_le (Nat.lt_of_le_of_lt (Nat.zero_le c) hc) (eval_heap_length_le hfail)
  have hget := getValue_bindArg_same st1 global name none hg
  refine ⟨?_, bindArg_get?_eq _ _ _ _, hget, fun n => ?_⟩
  · exact define_symbol_form fuel2 st st1 c global name expr none hdef
      (eval_mono hfuel hfail (by simp))
  · exact Symbol_eval_of_getValue_none _ global name hget

theorem failed_define_unbinds_name_witness :
    getValue SchemeInterpreter_new global "define"
      = some (.builtin .DefineFunction (some global)) ∧
    getValue SchemeInterpreter_new global "#t" = some (.symbol "#t") ∧
    eval 1 SchemeInterpreter_new (some global) (.symbol "zz")
      = .ok none (SchemeInterpreter_new.loge (.variableUnbound "zz")) ∧
    eval 2 SchemeInterpreter_new (some global)
        (.list [.symbol "define", .symbol "#t", .symbol "zz"])
      = .ok none
          (bindArg (SchemeInterpreter_new.loge (.variableUnbound "zz")) global "#t" none) :=
  ⟨rfl, rfl, rfl,
    (failed_define_unbinds_name 1 1 SchemeInterpreter_new
      (SchemeInterpreter_new.loge (.variableUnbound "zz")) global "#t" (.symbol "zz")
      rfl rfl (Nat.le_refl 1)).1⟩

/-- After `(define a 5)` and then `(define a zz)` with `zz` unbound, `a` is reported as
unbound. -/
theorem eval_after_failed_define :
    SchemeInterpreter_eval 2
        (stateAfter 2 SchemeInterpreter_new (.list [.symbol "define", .symbol "a", .number 5]))
        (.symbol "a")
      = .ok (some (.number 5))
          (stateAfter 2 SchemeInterpreter_new (.list [.symbol "define", .symbol "a", .number 5])) ∧
    ∃ st1, SchemeInterpreter_eval 2
        (stateAfter 2
          (stateAfter 2 SchemeInterpreter_new (.list [.symbol "define", .symbol "a", .number 5]))
          (.list [.symbol "define", .symbol "a", .symbol "zz"]))
        (.symbol "a") = .ok none st1 ∧
      st1.log = [.variableUnbound "zz", .variableUnbound "a"] :=
  ⟨rfl, _, rfl, rfl⟩

/-! ## Division -/

theorem tdiv_inIntRange (a b : Int) (ha : inIntRange a) (hb : b ≠ 0)
    (hov : ¬ (a = -2147483648 ∧ b = -1)) : inIntRange (Int.tdiv a b) := by
  unfold inIntRange at ha ⊢
  by_cases h1 : b = -1
  · subst h1
    have : Int.tdiv a (-1) = -a := by
      rw [Int.tdiv_neg, Int.tdiv_one]
    rw [this]
    have : a ≠ -2147483648 := fun h => hov ⟨h, rfl⟩
    omega
  · have hnat : (Int.tdiv a b).natAbs ≤ a.natAbs := by
      rw [Int.natAbs_tdiv]
      exact Nat.div_le_self _ _
    by_cases h2 : b = 1
    · subst h2
      rw [Int.tdiv_one]
      exact ha
    · have hb2 : 2 ≤ b.natAbs := by omega
      have hnat2 : (Int.tdiv a b).natAbs ≤ a.natAbs / 2 := by
        rw [Int.natAbs_tdiv]
        exact Nat.div_le_div_left hb2 (by decide)
      omega

theorem neg_tmod_eq (a b : Int) : Int.tmod (-a) b = -Int.tmod a b := by
  rw [Int.tmod_def, Int.tmod_def, Int.neg_tdiv]
  ring

theorem tmod_bounds_of_nonneg (a b : Int) (ha : 0 ≤ a) (hb : b ≠ 0) :
    0 ≤ Int.tmod a b ∧ (Int.tmod a b).natAbs < b.natAbs := by
  have h0 : 0 ≤ Int.tmod a b := Int.tmod_nonneg b ha
  refine ⟨h0, ?_⟩
  by_cases hpos : 0 < b
  · have := Int.tmod_lt_of_pos a hpos
    omega
  · have hneg : 0 < -b := by omega
    have := Int.tmod_lt_of_pos a hneg
    rw [Int.tmod_neg] at this
    omega

theorem tdiv_truncates (a b : Int) (hb : b ≠ 0) :
    a = b * Int.tdiv a b + Int.tmod a b ∧ (Int.tmod a b).natAbs < b.natAbs ∧
    (0 ≤ a → 0 ≤ Int.tmod a b) ∧ (a ≤ 0 → Int.tmod a b ≤ 0) := by
  refine ⟨(Int.tdiv_add_tmod a b).symm, ?_, fun h => Int.tmod_nonneg b h, ?_⟩
  · by_cases ha : 0 ≤ a
    · exact (tmod_bounds_of_nonneg a b ha hb).2
    · have h1 := (tmod_bounds_of_nonneg (-a) b (by omega) hb).2
      rw [neg_tmod_eq] at h1
      omega
  · intro h
    have h1 := (tmod_bounds_of_nonneg (-a) b (by omega) hb).1
    rw [neg_tmod_eq] at h1
    omega

theorem DivisionFunction_eval_pair (st : State) (a b : Int) (ha : inIntRange a) (hb : b ≠ 0)
    (hov : ¬ (a = -2147483648 ∧ b = -1)) :
    BasicArithmeticFunction_eval .DivisionFunction st (some [.number a, .number b])
      = .ok (some (.number (Int.tdiv a b))) st := by
  have h := wrapInt_of_inIntRange (tdiv_inIntRange a b ha hb hov)
  have hno : ¬ (b = 0 ∨ (a = -2147483648 ∧ b = -1)) := by
    rintro (h1 | h1)
    · exact hb h1
    · exact hov h1
  simp only [BasicArithmeticFunction_eval, BasicArithmeticFunction_loop, ConvertAndCheck,
    ArithmeticOp.checkParamsValid, ArithmeticOp.do_operator, if_neg hb, if_neg hno, h]
  simp

/-- C28: for a Number `a` and an integer `b` other than zero, the case `a = INT_MIN`, `b = -1`
apart, `/` applied to `a` and `b` returns the Number `q` that is the quotient truncated toward
zero: `a = b * q + r` for the remainder `r`, which is smaller than `b` in absolute value and is
zero or has the sign of `a`. -/
theorem division_truncates_toward_zero (st : State) (a b : Int) (ha : inIntRange a)
    (hb : b ≠ 0) (hov : ¬ (a = -2147483648 ∧ b = -1)) :
    ∃ q r : Int,
      BasicArithmeticFunction_eval .DivisionFunction st (some [.number a, .number b])
        = .ok (some (.number q)) st ∧
      q = Int.tdiv a b ∧ a = b * q + r ∧ r.natAbs < b.natAbs ∧
      (0 ≤ a → 0 ≤ r) ∧ (a ≤ 0 → r ≤ 0) :=
  ⟨Int.tdiv a b, Int.tmod a b, DivisionFunction_eval_pair st a b ha hb hov, rfl,
    tdiv_truncates a b hb⟩

theorem division_truncates_toward_zero_witness :
    inIntRange (-7) ∧ (2 : Int) ≠ 0 ∧
    ∃ q r : Int,
      BasicArithmeticFunction_eval .DivisionFunction SchemeInterpreter_new
        (some [.number (-7), .number 2]) = .ok (some (.number q)) SchemeInterpreter_new ∧
      q = Int.tdiv (-7) 2 ∧ (-7 : Int) = 2 * q + r ∧ r.natAbs < (2 : Int).natAbs ∧
      ((0 : Int) ≤ -7 → 0 ≤ r) ∧ ((-7 : Int) ≤ 0 → r ≤ 0) :=
  ⟨by decide, by decide,
    division_truncates_toward_zero SchemeInterpreter_new (-7) 2 (by decide) (by decide)
      (by decide)⟩

/-- The expressions `(/ -7 2)` and `(/ 7 -2)` both evaluate to `-3` in the interpreter, and
`(/ 7 2)` to `3`. -/
theorem eval_division_examples :
    SchemeInterpreter_eval 2 SchemeInterpreter_new
        (.list [.symbol "/", .number (-7), .number 2])
      = .ok (some (.number (-3))) SchemeInterpreter_new ∧
    SchemeInterpreter_eval 2 SchemeInterpreter_new
        (.list [.symbol "/", .number 7, .number (-2)])
      = .ok (some (.number (-3))) SchemeInterpreter_new ∧
    SchemeInterpreter_eval 2 SchemeInterpreter_new (.list [.symbol "/", .number 7, .number 2])
      = .ok (some (.number 3)) SchemeInterpreter_new :=
  ⟨rfl, rfl, rfl⟩

/-! ## Excess arguments -/

theorem Environment_bind_take (ev : Evaluator) (parent : Option Nat) :
    ∀ (names : List String) (values : List Sexp) (st : State)
      (vars : List (String × Option Sexp)),
      Environment_bind ev parent st names (values.take names.length) vars
        = Environment_bind ev parent st names values vars := by
  intro names
  induction names with
  | nil =>
    intro values st vars
    cases values <;> rfl
  | cons name names ih =>
    intro values st vars
    cases values with
    | nil => rfl
    | cons s rest =>
      simp only [List.length_cons, List.take_succ_cons, Environment_bind]
      cases ev st parent s with
      | ok v st1 => exact ih rest st1 _
      | crash => rfl
      | outOfFuel => rfl

/-- The arguments after the first `k` play no part in the call of a closure with `k` parameter
names: the call with `n ≥ k` argument values is the call with the first `k` of them. -/
theorem Lambda_call_take (ev : Evaluator) (st : State) (env : Option Nat) (body : Option Sexp)
    (names : List String) (values : List Sexp) (h : names.length ≤ values.length) :
    Lambda_call ev st env body names (some values)
      = Lambda_call ev st env body names (some (values.take names.length)) := by
  have h1 : ¬ names.length > values.length := by omega
  have h2 : ¬ names.length > (values.take names.length).length := by
    rw [List.length_take]
    omega
  simp only [Lambda_call, Environment_new, if_neg h1, if_neg h2, Environment_bind_take]

/-- With Numbers as argument values the frame of the call binds each parameter name to the
argument at the same position, in order. -/
theorem Environment_bind_numbers (fuel : Nat) (parent : Option Nat) (st : State) :
    ∀ (names : List String) (values : List Int) (vars : List (String × Option Sexp)),
      Environment_bind (eval (fuel + 1)) parent st names (values.map .number) vars
        = .ok ((names.zip values).foldl (fun m p => mapSet m p.1 (some (.number p.2))) vars)
            st := by
  intro names
  induction names with
  | nil => intro values vars; cases values <;> rfl
  | cons name names ih =>
    intro values vars
    cases values with
    | nil => rfl
    | cons v rest =>
      simp only [List.map, Environment_bind, eval, Sexp_eval, List.zip_cons_cons, List.foldl]
      exact ih rest _

/-- C21, on the code: the parameter is not bound to the argument.  After `(define y #t)` and
`(define #t 5)` the call `((lambda (x) x) y 7)` has the argument values `#t` (a symbol) and
`7`; the second is ignored, and the `Environment` constructor evaluates the first once more
before it binds `x`, so the call yields `5`. -/
theorem call_with_excess_argument_rebinds :
    SchemeInterpreter_eval 10 reboundTrueState (.symbol "y")
      = .ok (some (.symbol "#t")) reboundTrueState ∧
    (∃ st1, SchemeInterpreter_eval 10 reboundTrueState
        (.list [.list [.symbol "lambda", .list [.symbol "x"], .symbol "x"], .symbol "y",
          .number 7])
      = .ok (some (.number 5)) st1 ∧
      (st1.heap.get? 1).map Environment.vars = some [("x", some (.number 5))]) :=
  ⟨rfl, _, rfl, rfl⟩

/-! ## Atom tokens -/

/-- C22, on the code: the token `12abc` becomes `Number(12)` and the token `00` becomes a
symbol.  `createAtom` takes what `strtol` converts from the front of the token and does not
look at the rest; a token is a number when that value is not zero or the token is `0`. -/
theorem createAtom_misclassifies :
    createAtom "12abc".data = .number 12 ∧
    read 10 "(12abc)".data = .ok (.list [.number 12]) [] ∧
    createAtom "00".data = .symbol "00" ∧
    createAtom "-0".data = .symbol "-0" ∧
    createAtom "4294967296".data = .symbol "4294967296" :=
  ⟨rfl, rfl, rfl, rfl, rfl⟩

/-- The tokens `12`, `-5` and `0` become numbers and `abc`, `+` and `#t` become symbols. -/
theorem createAtom_examples :
    createAtom "12".data = .number 12 ∧ createAtom "-5".data = .number (-5) ∧
    createAtom "0".data = .number 0 ∧ createAtom "abc".data = .symbol "abc" ∧
    createAtom "+".data = .symbol "+" ∧ createAtom "#t".data = .symbol "#t" :=
  ⟨rfl, rfl, rfl, rfl, rfl, rfl⟩

/-! ## Unbalanced input -/

theorem read_switch_next_parentheses (s s1 : ReadState) (wasDelimiter : Bool)
    (hpos : 0 < s.parentheses) (h : read_switch s wasDelimiter = .next s1) :
    0 < s1.parentheses := by
  unfold read_switch at h
  simp only at h
  split at h
  · exact ReadStep.noConfusion h
  · rename_i s2 hfl
    have hs2 : s2.parentheses = s.parentheses ∧ s2.c = s.c := by
      split at hfl
      · split at hfl
        · exact Option.noConfusion hfl
        · split at hfl
          · simp only [Option.some.injEq] at hfl
            subst hfl
            exact ⟨rfl, rfl⟩
          · exact Option.noConfusion hfl
      · simp only [Option.some.injEq] at hfl
        subst hfl
        exact ⟨rfl, rfl⟩
    split at h
    · split at h
      · exact ReadStep.noConfusion h
      · split at h
        · exact ReadStep.noConfusion h
        · split at h
          · exact ReadStep.noConfusion h
          · split at h
            · simp only [ReadStep.next.injEq] at h
              subst h
              exact Nat.succ_pos _
            · exact ReadStep.noConfusion h
    · split at h
      · simp only [ReadStep.next.injEq] at h
        subst h
        exact Nat.succ_pos _
      · split at h
        · simp only [ReadStep.next.injEq] at h
          subst h
          rw [hs2.1]
          exact hpos
        · simp only [ReadStep.next.injEq] at h
          subst h
          rw [hs2.1]
          exact hpos

theorem read_switch_done_ne_parsingError (s : ReadState) (wasDelimiter : Bool) :
    read_switch s wasDelimiter ≠ .done .parsingError := by
  unfold read_switch
  simp only
  split
  · simp
  · split
    · split
      · simp
      · split
        · simp
        · split
          · simp
          · split <;> simp
    · split
      · simp
      · split <;> simp

theorem read_loop_step (fuel : Nat) (s : ReadState) (c1 c2 : Char) (is1 is2 : List Char)
    (wasDelimiter : Bool)
    (hcm : (if s.comment then read_comment fuel s.c s.is else some (s.c, s.is)) = some (c1, is1))
    (hsk : read_skip c1 false is1 = (c2, wasDelimiter, is2)) :
    read_loop (fuel + 1) s
      = match read_switch { s with c := c2, comment := false, is := is2 } wasDelimiter with
        | .done r => r
        | .next s1 => if s1.parentheses > 0 then read_loop fuel s1 else .parsingError := by
  simp only [read_loop, hcm, hsk]

theorem read_loop_ne_parsingError :
    ∀ (fuel : Nat) (s : ReadState), 0 < s.parentheses → read_loop fuel s ≠ .parsingError := by
  intro fuel
  induction fuel with
  | zero => intro s _; simp [read_loop]
  | succ fuel ih =>
    intro s hpos
    cases hcm : (if s.comment then read_comment fuel s.c s.is else some (s.c, s.is)) with
    | none => simp [read_loop, hcm]
    | some p =>
      obtain ⟨c1, is1⟩ := p
      rcases hsk : read_skip c1 false is1 with ⟨c2, wasDelimiter, is2⟩
      rw [read_loop_step fuel s c1 c2 is1 is2 wasDelimiter hcm hsk]
      cases hsw : read_switch { s with c := c2, comment := false, is := is2 } wasDelimiter with
      | done r =>
        simp only
        intro hr
        subst hr
        exact read_switch_done_ne_parsingError _ _ hsw
      | next s1 =>
        have h1 : 0 < s1.parentheses :=
          read_switch_next_parentheses { s with c := c2, comment := false, is := is2 } s1 _
            hpos hsw
        simp only [gt_iff_lt, if_pos h1]
        exact ih s1 h1

theorem read_ne_parsingError (fuel : Nat) (is : List Char) : read fuel is ≠ .parsingError := by
  unfold read
  split
  · exact read_loop_ne_parsingError fuel _ (Nat.succ_pos 0)
  · simp

theorem read_loop_stuck_at_end :
    ∀ (fuel : Nat) (temp : List Char),
      read_loop fuel
        { c := 'a', comment := false, parentheses := 1, listElements := [[]],
          temp := temp, is := [] } = .outOfFuel := by
  intro fuel
  induction fuel with
  | zero => intro temp; rfl
  | succ fuel ih =>
    intro temp
    rw [read_loop_step fuel ⟨'a', false, 1, [[]], temp, []⟩ 'a' 'a' [] [] false rfl rfl]
    have hsw : read_switch ⟨'a', false, 1, [[]], temp, []⟩ false
        = .next ⟨'a', false, 1, [[]], temp ++ ['a'], []⟩ := by
      simp [read_switch]
    simp only [hsw]
    exact ih (temp ++ ['a'])

/-- C25, on the code: the unbalanced input `((a)` is not rejected.  At the end of the stream
`is.get(c)` fails and leaves the last character in `c`, and the loop body handles that
character again: the stale `)` closes the open list and `read` returns `((a))`; after `(a` the
stale `a` is appended to `temp` for ever and `read` does not return.  The `throw` after the loop
is reached for no input. -/
theorem read_unbalanced_is_not_rejected :
    (∀ fuel, read (fuel + 4) "((a)".data = .ok (.list [.list [.symbol "a"]]) []) ∧
    (∀ fuel, read fuel "(a".data = .outOfFuel) ∧
    (∀ fuel is, read fuel is ≠ .parsingError) := by
  refine ⟨fun fuel => rfl, ?_, read_ne_parsingError⟩
  intro fuel
  cases fuel with
  | zero => rfl
  | succ fuel =>
    exact read_loop_stuck_at_end fuel ['a']

/-! ## Decimal tokens -/

theorem digitChar_isDigit (k : Nat) (h : k < 10) :
    (Nat.digitChar k).isDigit = true ∧ (Nat.digitChar k).toNat - 48 = k := by
  interval_cases k <;> exact ⟨rfl, rfl⟩

theorem isDelimiter_cases (c : Char) (h : isDelimiter c = true) :
    c = ' ' ∨ c = '\t' ∨ c = '\n' ∨ c = '\x0b' ∨ c = '\x0c' ∨ c = '\r' ∨ c = '(' ∨ c = ')' ∨
      c = ';' := by
  simpa only [isDelimiter, isspace, Bool.or_eq_true, decide_eq_true_eq, or_assoc] using h

theorem isDelimiter_of_isDigit (c : Char) (h : c.isDigit = true) : isDelimiter c = false := by
  cases hd : isDelimiter c with
  | false => rfl
  | true =>
    exfalso
    rcases isDelimiter_cases c hd with rfl | rfl | rfl | rfl | rfl | rfl | rfl | rfl | rfl <;>
      exact absurd h (by decide)

theorem isspace_of_not_isDelimiter (c : Char) (h : isDelimiter c = false) :
    isspace c = false ∧ c ≠ '(' ∧ c ≠ ')' ∧ c ≠ ';' := by
  simp only [isDelimiter, Bool.or_eq_false_iff, decide_eq_false_iff_not] at h
  exact ⟨h.1.1.1, h.1.1.2, h.1.2, h.2⟩

theorem toDigitsCore_spec :
    ∀ (fuel n : Nat) (ds : List Char), n < fuel →
      ∃ D, Nat.toDigitsCore 10 fuel n ds = D ++ ds ∧ D ≠ [] ∧ (∀ c ∈ D, c.isDigit = true) ∧
        (∀ acc tail, strtol_digits (D ++ tail) acc
          = strtol_digits tail (acc * 10 ^ D.length + n)) ∧
        (n = 0 → D = ['0']) := by
  intro fuel
  induction fuel with
  | zero => intro n ds h; omega
  | succ fuel ih =>
    intro n ds h
    have hd := digitChar_isDigit (n % 10) (Nat.mod_lt n (by decide))
    simp only [Nat.toDigitsCore]
    by_cases h0 : n / 10 = 0
    · rw [if_pos h0]
      refine ⟨[Nat.digitChar (n % 10)], rfl, by simp, ?_, ?_, ?_⟩
      · intro c hc
        rw [List.mem_singleton.1 hc]
        exact hd.1
      · intro acc tail
        have hn : n % 10 = n := by omega
        rw [hn] at hd
        simp [strtol_digits, hd.1, hd.2, hn]
      · intro hn
        subst hn
        rfl
    · rw [if_neg h0]
      obtain ⟨D, hD, hne, hdig, hval, -⟩ := ih (n / 10) (Nat.digitChar (n % 10) :: ds)
        (by omega)
      refine ⟨D ++ [Nat.digitChar (n % 10)], by rw [hD]; simp, by simp, ?_, ?_, ?_⟩
      · intro c hc
        rcases List.mem_append.1 hc with hc | hc
        · exact hdig c hc
        · rw [List.mem_singleton.1 hc]
          exact hd.1
      · intro acc tail
        rw [List.append_assoc, hval]
        simp only [List.singleton_append, strtol_digits, hd.1, if_true, hd.2, List.length_append,
          List.length_singleton, pow_succ]
        congr 1
        have := Nat.div_add_mod n 10
        have e : (acc * 10 ^ D.length + n / 10) * 10 + n % 10
            = acc * (10 ^ D.length * 10) + (10 * (n / 10) + n % 10) := by ring
        rw [e, this]
      · intro hn
        subst hn
        simp at h0

theorem toDigits_spec (n : Nat) :
    Nat.toDigits 10 n ≠ [] ∧ (∀ c ∈ Nat.toDigits 10 n, c.isDigit = true) ∧
    strtol_digits (Nat.toDigits 10 n) 0 = n ∧ (n = 0 → Nat.toDigits 10 n = ['0']) := by
  obtain ⟨D, hD, hne, hdig, hval, h0⟩ := toDigitsCore_spec (n + 1) n [] (Nat.lt_succ_self n)
  have hE : Nat.toDigits 10 n = D := by
    simp only [Nat.toDigits, hD, List.append_nil]
  rw [hE]
  refine ⟨hne, hdig, ?_, h0⟩
  have := hval 0 []
  simpa [strtol_digits] using this

theorem strtol_of_digits (D : List Char) (hne : D ≠ []) (hdig : ∀ c ∈ D, c.isDigit = true) :
    strtol D = min 9223372036854775807 (strtol_digits D 0 : Int) ∧
    strtol ('-' :: D) = max (-9223372036854775808) (-(strtol_digits D 0 : Int)) := by
  cases D with
  | nil => exact absurd rfl hne
  | cons d D' =>
    have hd : d.isDigit = true := hdig d (List.mem_cons_self _ _)
    have hsp : isspace d = false := (isspace_of_not_isDelimiter d (isDelimiter_of_isDigit d hd)).1
    constructor
    · unfold strtol
      rw [List.dropWhile_cons_of_neg (by simp [hsp])]
      split
      · rename_i rest heq
        simp only [List.cons.injEq] at heq
        rw [heq.1] at hd
        exact absurd hd (by decide)
      · rename_i rest heq
        simp only [List.cons.injEq] at heq
        rw [heq.1] at hd
        exact absurd hd (by decide)
      · rfl
    · unfold strtol
      rw [List.dropWhile_cons_of_neg (by decide)]
      rfl

theorem createAtom_printInt (v : Int) (h : inIntRange v) : createAtom (printInt v) = .number v := by
  unfold inIntRange at h
  cases v with
  | ofNat n =>
    obtain ⟨hne, hdig, hval, h0⟩ := toDigits_spec n
    have hs := (strtol_of_digits _ hne hdig).1
    rw [hval] at hs
    have hn : (n : Int) ≤ 2147483647 := h.2
    have hs2 : strtol (printInt (Int.ofNat n)) = (n : Int) := by
      simp only [printInt, hs]
      omega
    have hw : wrapInt (n : Int) = (n : Int) := wrapInt_of_inIntRange ⟨by omega, hn⟩
    unfold createAtom
    rw [hs2, hw]
    by_cases hz : n = 0
    · subst hz
      simp [printInt, h0 rfl]
    · have : (n : Int) ≠ 0 := by omega
      rw [if_pos (Or.inl this)]
      rfl
  | negSucc n =>
    obtain ⟨hne, hdig, hval, -⟩ := toDigits_spec (n + 1)
    have hs := (strtol_of_digits _ hne hdig).2
    rw [hval] at hs
    have hv : Int.negSucc n = -((n + 1 : Nat) : Int) := rfl
    have hn : -2147483648 ≤ -((n + 1 : Nat) : Int) := by rw [← hv]; exact h.1
    have hs2 : strtol (printInt (Int.negSucc n)) = -((n + 1 : Nat) : Int) := by
      simp only [printInt, hs]
      omega
    have hw : wrapInt (-((n + 1 : Nat) : Int)) = -((n + 1 : Nat) : Int) :=
      wrapInt_of_inIntRange ⟨hn, by omega⟩
    unfold createAtom
    rw [hs2, hw]
    have : -((n + 1 : Nat) : Int) ≠ 0 := by omega
    rw [if_pos (Or.inl this), hv]

theorem printInt_token (v : Int) :
    printInt v ≠ [] ∧ ∀ c ∈ printInt v, isDelimiter c = false := by
  cases v with
  | ofNat n =>
    obtain ⟨hne, hdig, -, -⟩ := toDigits_spec n
    exact ⟨hne, fun c hc => isDelimiter_of_isDigit c (hdig c hc)⟩
  | negSucc n =>
    obtain ⟨-, hdig, -, -⟩ := toDigits_spec (n + 1)
    refine ⟨by simp [printInt], ?_⟩
    intro c hc
    simp only [printInt, List.mem_cons] at hc
    rcases hc with rfl | hc
    · rfl
    · exact isDelimiter_of_isDigit c (hdig c hc)

/-! ## Reading what `print` writes -/

theorem read_skip_spaces :
    ∀ (ws : List Char), (∀ c ∈ ws, isspace c = true) →
      ∀ (c0 : Char) (wasDelimiter : Bool) (ch : Char) (rest : List Char), isspace ch = false →
        read_skip c0 wasDelimiter (ws ++ ch :: rest)
          = (ch, wasDelimiter || !ws.isEmpty, rest) := by
  intro ws
  induction ws with
  | nil =>
    intro _ c0 wd ch rest hch
    simp [read_skip, hch]
  | cons w ws ih =>
    intro hws c0 wd ch rest hch
    have hw : isspace w = true := hws w (List.mem_cons_self _ _)
    have h := ih (fun c hc => hws c (List.mem_cons_of_mem _ hc)) w true ch rest hch
    simp only [List.cons_append, read_skip, hw, if_true]
    simpa using h

/-- One pass of the loop outside a comment, over white space `ws` and the character `ch`. -/
theorem read_loop_pass (fuel : Nat) (c0 : Char) (p : Nat) (S : List (List Sexp))
    (temp ws : List Char) (ch : Char) (rest : List Char)
    (hws : ∀ c ∈ ws, isspace c = true) (hch : isspace ch = false) :
    read_loop (fuel + 1) ⟨c0, false, p, S, temp, ws ++ ch :: rest⟩
      = match read_switch ⟨ch, false, p, S, temp, rest⟩ (!ws.isEmpty) with
        | .done r => r
        | .next s1 => if s1.parentheses > 0 then read_loop fuel s1 else .parsingError := by
  have hsk := read_skip_spaces ws hws c0 false ch rest hch
  simp only [Bool.false_or] at hsk
  exact read_loop_step fuel ⟨c0, false, p, S, temp, ws ++ ch :: rest⟩ c0 ch _ rest _ rfl hsk

theorem pushAt_last (below : List (List Sexp)) (acc : List Sexp) (x : Sexp) :
    pushAt (below ++ [acc]) below.length x = some (below ++ [acc ++ [x]]) := by
  have hlt : below.length < (below ++ [acc]).length := by simp
  simp only [pushAt, if_pos hlt]
  congr 1
  induction below with
  | nil => rfl
  | cons b below ih =>
    simp only [List.cons_append, List.length_cons, List.modify_succ_cons]
    rw [ih (by simp)]


theorem read_switch_char (ch : Char) (below : List (List Sexp)) (acc : List Sexp)
    (temp rest : List Char) (wd : Bool) (hch : isDelimiter ch = false) :
    read_switch ⟨ch, false, below.length + 1, below ++ [acc], temp, rest⟩ wd
      = .next ⟨ch, false, below.length + 1, below ++ [flushed acc temp wd],
          (if wd && !temp.isEmpty then [] else temp) ++ [ch], rest⟩ := by
  obtain ⟨-, h1, h2, h3⟩ := isspace_of_not_isDelimiter ch hch
  by_cases hf : (wd && !temp.isEmpty) = true
  · simp [read_switch, h1, h2, h3, hf, pushAt_last, flushed]
  · simp [read_switch, h1, h2, h3, hf, flushed]

theorem read_switch_open (below : List (List Sexp)) (acc : List Sexp)
    (temp rest : List Char) (wd : Bool) :
    read_switch ⟨'(', false, below.length + 1, below ++ [acc], temp, rest⟩ wd
      = .next ⟨'(', false, below.length + 2, below ++ [flushed acc temp true] ++ [[]], [],
          rest⟩ := by
  by_cases hf : temp.isEmpty = true
  · have : temp = [] := List.isEmpty_iff.1 hf
    subst this
    simp [read_switch, flushed]
  · simp [read_switch, hf, pushAt_last, flushed]

theorem read_switch_close (B below : List (List Sexp)) (acc0 acc : List Sexp)
    (temp rest : List Char) (wd : Bool) (hB : B = below ++ [acc0]) :
    read_switch ⟨')', false, B.length + 1, B ++ [acc], temp, rest⟩ wd
      = .next ⟨')', false, below.length + 1,
          below ++ [acc0 ++ [.list (flushed acc temp true)]], [], rest⟩ := by
  have hlen : B.length = below.length + 1 := by rw [hB]; simp
  have hget : ∀ x : List Sexp, (B ++ [x]).get? B.length = some x := by
    intro x
    simp
  have hdrop : ∀ x : List Sexp, (B ++ [x]).dropLast = B := by
    intro x
    simp
  have hpush : ∀ x : Sexp, pushAt B below.length x = some (below ++ [acc0 ++ [x]]) := by
    intro x
    rw [hB]
    exact pushAt_last below acc0 x
  by_cases hf : temp.isEmpty = true
  · have : temp = [] := List.isEmpty_iff.1 hf
    subst this
    simp only [read_switch, flushed, List.isEmpty_nil, Bool.not_true, Bool.and_false,
      Bool.false_eq_true, if_false, if_true, hget]
    rw [hlen]
    simp only [hdrop, hpush]
  · simp only [Bool.not_eq_true] at hf
    simp only [read_switch, flushed, hf, Bool.not_false, Bool.and_true, Bool.or_true,
      decide_True, if_true, pushAt_last, hget]
    rw [hlen]
    simp only [hdrop, hpush]

theorem read_switch_close_last (acc : List Sexp) (temp rest : List Char) (wd : Bool) :
    read_switch ⟨')', false, 1, [acc], temp, rest⟩ wd
      = .done (.ok (.list (flushed acc temp true)) (dropLine rest)) := by
  have hp := pushAt_last [] acc (createAtom temp)
  simp only [List.length_nil, List.nil_append] at hp
  by_cases hf : temp.isEmpty = true
  · have : temp = [] := List.isEmpty_iff.1 hf
    subst this
    simp [read_switch, flushed]
  · simp [read_switch, hf, hp, flushed]


theorem read_loop_char (fuel : Nat) (c0 ch : Char) (below : List (List Sexp))
    (acc : List Sexp) (temp ws rest : List Char) (hws : ∀ c ∈ ws, isspace c = true)
    (hch : isDelimiter ch = false) :
    read_loop (fuel + 1) ⟨c0, false, below.length + 1, below ++ [acc], temp, ws ++ ch :: rest⟩
      = read_loop fuel ⟨ch, false, below.length + 1, below ++ [flushed acc temp (!ws.isEmpty)],
          (if (!ws.isEmpty) && !temp.isEmpty then [] else temp) ++ [ch], rest⟩ := by
  rw [read_loop_pass fuel c0 _ _ temp ws ch rest hws (isspace_of_not_isDelimiter ch hch).1,
    read_switch_char ch below acc temp rest _ hch]
  simp

theorem read_loop_token_tail :
    ∀ (chars : List Char), (∀ c ∈ chars, isDelimiter c = false) →
      ∀ (c0 : Char) (below : List (List Sexp)) (acc : List Sexp) (temp rest : List Char),
        ∃ c1, ∀ fuel,
          read_loop (fuel + chars.length)
              ⟨c0, false, below.length + 1, below ++ [acc], temp, chars ++ rest⟩
            = read_loop fuel
                ⟨c1, false, below.length + 1, below ++ [acc], temp ++ chars, rest⟩ := by
  intro chars
  induction chars with
  | nil =>
    intro _ c0 below acc temp rest
    exact ⟨c0, fun fuel => by simp⟩
  | cons ch chars ih =>
    intro hch c0 below acc temp rest
    obtain ⟨c1, h1⟩ := ih (fun c hc => hch c (List.mem_cons_of_mem _ hc)) ch below acc
      (temp ++ [ch]) rest
    refine ⟨c1, fun fuel => ?_⟩
    have hstep := read_loop_char (fuel + chars.length) c0 ch below acc temp [] (chars ++ rest)
      (by simp) (hch ch (List.mem_cons_self _ _))
    simp only [List.nil_append, List.isEmpty_nil, Bool.not_true, Bool.false_and,
      Bool.false_eq_true, if_false, flushed] at hstep
    have h2 := h1 fuel
    simp only [List.append_assoc, List.singleton_append] at h2
    rw [List.length_cons, ← Nat.add_assoc, List.cons_append, hstep, h2]

theorem flushed_true_of (acc : List Sexp) (temp ws : List Char) (h : temp = [] ∨ ws ≠ []) :
    flushed acc temp (!ws.isEmpty) = flushed acc temp true ∧
    (if (!ws.isEmpty) && !temp.isEmpty then [] else temp) = [] := by
  rcases h with h | h
  · subst h
    simp [flushed]
  · have : ws.isEmpty = false := by
      cases ws with
      | nil => exact absurd rfl h
      | cons _ _ => rfl
    simp only [this, Bool.not_false, Bool.true_and, flushed]
    cases temp <;> simp

/-- A token `t` that `createAtom` turns into `e` is read as `e`. -/
theorem Processes_token (t : List Char) (e : Sexp) (hne : t ≠ [])
    (hch : ∀ c ∈ t, isDelimiter c = false) (he : createAtom t = e) : Processes t e := by
  intro c0 below acc temp ws rest hws hpre
  cases t with
  | nil => exact absurd rfl hne
  | cons ch chars =>
    obtain ⟨hfl, htemp⟩ := flushed_true_of acc temp ws hpre
    obtain ⟨c1, h1⟩ := read_loop_token_tail chars
      (fun c hc => hch c (List.mem_cons_of_mem _ hc)) ch below (flushed acc temp true) [ch] rest
    refine ⟨chars.length + 1, c1, flushed acc temp true, ch :: chars, ?_, fun fuel => ?_⟩
    · simp [flushed, he]
    · have hstep := read_loop_char (fuel + chars.length) c0 ch below acc temp ws
        (chars ++ rest) hws (hch ch (List.mem_cons_self _ _))
      rw [hfl, htemp] at hstep
      have h2 := h1 fuel
      simp only [List.nil_append, List.singleton_append] at hstep h2
      rw [← Nat.add_assoc, List.append_assoc, List.cons_append, hstep, h2]


/-- The loop of `read` over the text of the elements of a list, as `List::print` writes it. -/
theorem read_loop_elements :
    ∀ (es : List Sexp), (∀ e ∈ es, ∃ t, Sexp_print e = some t ∧ Processes t e) →
      ∀ (pfx : List Char), (∀ c ∈ pfx, isspace c = true) →
        ∃ T, List_print_elements es pfx = some T ∧
          ∀ (c0 : Char) (below : List (List Sexp)) (acc : List Sexp) (temp rest : List Char),
            (temp = [] ∨ pfx ≠ []) →
            ∃ (k : Nat) (c1 : Char) (acc1 : List Sexp) (temp1 : List Char),
              flushed acc1 temp1 true = flushed acc temp true ++ es ∧
              ∀ fuel,
                read_loop (fuel + k)
                    ⟨c0, false, below.length + 1, below ++ [acc], temp, T ++ rest⟩
                  = read_loop fuel
                      ⟨c1, false, below.length + 1, below ++ [acc1], temp1, rest⟩ := by
  intro es
  induction es with
  | nil =>
    intro _ pfx _
    refine ⟨[], by simp only [List_print_elements], ?_⟩
    intro c0 below acc temp rest _
    exact ⟨0, c0, acc, temp, by simp, fun fuel => rfl⟩
  | cons e es ih =>
    intro hes pfx hpfx
    obtain ⟨t, ht, hP⟩ := hes e (List.mem_cons_self _ _)
    obtain ⟨T, hT, hrest⟩ := ih (fun x hx => hes x (List.mem_cons_of_mem _ hx)) [' ']
      (by simp [isspace])
    refine ⟨pfx ++ t ++ T, by simp only [List_print_elements, ht, hT], ?_⟩
    intro c0 below acc temp rest hpre
    obtain ⟨k1, c1, acc1, temp1, e1, run1⟩ := hP c0 below acc temp pfx (T ++ rest) hpfx hpre
    obtain ⟨k2, c2, acc2, temp2, e2, run2⟩ := hrest c1 below acc1 temp1 rest
      (Or.inr (by simp))
    refine ⟨k2 + k1, c2, acc2, temp2, ?_, fun fuel => ?_⟩
    · rw [e2, e1]
      simp
    · rw [← Nat.add_assoc, List.append_assoc (pfx ++ t) T rest, run1, run2]

/-- The text of a list is read as the list when the texts of its elements are read as the
elements. -/
theorem Processes_list (es : List Sexp)
    (hes : ∀ e ∈ es, ∃ t, Sexp_print e = some t ∧ Processes t e) :
    ∃ t, Sexp_print (.list es) = some t ∧ Processes t (.list es) := by
  obtain ⟨T, hT, hrun⟩ := read_loop_elements es hes [] (by simp)
  refine ⟨'(' :: T ++ [')'], by simp only [Sexp_print, hT], ?_⟩
  intro c0 below acc temp ws rest hws _
  obtain ⟨k, c1, acc1, temp1, e1, run1⟩ := hrun '(' (below ++ [flushed acc temp true]) [] []
    (')' :: rest) (Or.inl rfl)
  have hlen : (below ++ [flushed acc temp true]).length = below.length + 1 := by simp
  refine ⟨1 + k + 1, ')', flushed acc temp true ++ [.list es], [], by simp [flushed],
    fun fuel => ?_⟩
  have hopen := read_loop_pass (fuel + 1 + k) c0 (below.length + 1) (below ++ [acc]) temp ws
    '(' (T ++ ')' :: rest) hws rfl
  rw [read_switch_open] at hopen
  simp only [gt_iff_lt, Nat.zero_lt_succ, if_true] at hopen
  have hclose := read_loop_pass fuel c1 ((below ++ [flushed acc temp true]).length + 1)
    ((below ++ [flushed acc temp true]) ++ [acc1]) temp1 [] ')' rest (by simp) rfl
  rw [read_switch_close _ below (flushed acc temp true) acc1 temp1 rest _ rfl] at hclose
  simp only [gt_iff_lt, Nat.zero_lt_succ, if_true, List.nil_append] at hclose
  have hmid := run1 (fuel + 1)
  rw [hlen] at hmid
  have e1x : flushed acc1 temp1 true = es := by
    rw [e1]
    simp [flushed]
  rw [e1x] at hclose
  have hfuel : fuel + (1 + k + 1) = fuel + 1 + k + 1 := by omega
  have htext : ws ++ ('(' :: T ++ [')']) ++ rest = ws ++ '(' :: (T ++ ')' :: rest) := by simp
  rw [hfuel, htext, hopen, hmid]
  rw [hlen] at hclose
  exact hclose

theorem Processes_of_Readable (e : Sexp) (h : Readable e) :
    ∃ t, Sexp_print e = some t ∧ Processes t e := by
  induction h with
  | number value hv =>
    exact ⟨printInt value, rfl,
      Processes_token _ _ (printInt_token value).1 (printInt_token value).2
        (createAtom_printInt value hv)⟩
  | symbol Name hn =>
    simp only [isSymbolName, Bool.and_eq_true, Bool.not_eq_true', List.all_eq_true,
      List.isEmpty_eq_false] at hn
    obtain ⟨⟨h1, h2⟩, h3⟩ := hn
    refine ⟨Name.data, rfl, Processes_token _ _ ?_ h2 ?_⟩
    · intro h
      rw [h] at h1
      simp at h1
    · unfold createAtom at h3 ⊢
      split
      · rename_i hc
        rw [if_pos hc] at h3
        simp [Sexp.isNumber] at h3
      · rfl
  | list elements _ ih => exact Processes_list elements ih

/-- The text of a list of Numbers, Symbols whose names `read` can make, and such lists is read
back as the list. -/
theorem read_print_list (elements : List Sexp) (h : ∀ e ∈ elements, Readable e) :
    ∃ text, Sexp_print (.list elements) = some text ∧
      ∃ fuel0, ∀ fuel, fuel0 ≤ fuel → read fuel text = .ok (.list elements) [] := by
  obtain ⟨T, hT, hrun⟩ := read_loop_elements elements
    (fun e he => Processes_of_Readable e (h e he)) [] (by simp)
  refine ⟨'(' :: T ++ [')'], by simp only [Sexp_print, hT], ?_⟩
  obtain ⟨k, c1, acc1, temp1, e1, run1⟩ := hrun '(' [] [] [] [')'] (Or.inl rfl)
  refine ⟨k + 1, fun fuel hfuel => ?_⟩
  obtain ⟨n, rfl⟩ : ∃ n, fuel = n + 1 + k := ⟨fuel - (k + 1), by omega⟩
  have hfirst : read_first none ('(' :: T ++ [')']) = (some '(', T ++ [')']) := by
    simp [read_first, isspace]
  have hclose := read_loop_pass n c1 1 [acc1] temp1 [] ')' [] (by simp) rfl
  rw [read_switch_close_last] at hclose
  have e1x : flushed acc1 temp1 true = elements := by
    rw [e1]
    simp [flushed]
  rw [e1x] at hclose
  have hmid := run1 (n + 1)
  simp only [List.length_nil, List.nil_append, Nat.zero_add] at hmid
  simp only [read, hfirst]
  rw [hmid]
  exact hclose

/-! ## Comments -/

theorem read_loop_stuck (c : Char) (h1 : c ≠ '(') (h2 : c ≠ ')') (h3 : c ≠ ';') :
    ∀ (fuel p : Nat) (S : List (List Sexp)) (temp : List Char),
      read_loop fuel ⟨c, false, p + 1, S, temp, []⟩ = .outOfFuel := by
  intro fuel
  induction fuel with
  | zero => intro p S temp; rfl
  | succ fuel ih =>
    intro p S temp
    rw [read_loop_step fuel ⟨c, false, p + 1, S, temp, []⟩ c c [] [] false rfl rfl]
    have hsw : read_switch ⟨c, false, p + 1, S, temp, []⟩ false
        = .next ⟨c, false, p + 1, S, temp ++ [c], []⟩ := by
      simp [read_switch, h1, h2, h3]
    simp only [hsw, gt_iff_lt, Nat.zero_lt_succ, if_true]
    exact ih p S (temp ++ [c])

/-- C24, on the code: with `p` the text `((a)`, the comment text `x` and the empty suffix, `read`
returns `((a))` on `p ++ s` and does not return on `p ++ ";x\n" ++ s`.  At the end of the stream
`is.get(c)` fails and leaves the last character in `c`; after `((a)` that is the `)`, which
closes the list, and after the comment it is the newline, which is appended to `temp` for ever.
Inside a list that is closed in the text the comment is dropped without ending the token:
`(ab;x\ncd)` is read as `(abcd)`. -/
theorem comment_before_end_of_stream :
    read 4 "((a)".data = .ok (.list [.list [.symbol "a"]]) [] ∧
    (∀ fuel, read fuel "((a);x\n".data = .outOfFuel) ∧
    read 6 "(ab;x\ncd)".data = .ok (.list [.symbol "abcd"]) [] ∧
    read 6 "(abcd)".data = .ok (.list [.symbol "abcd"]) [] := by
  refine ⟨rfl, ?_, rfl, rfl⟩
  intro fuel
  rcases fuel with _ | _ | _ | _ | _ | _ | _ | n
  · rfl
  · rfl
  · rfl
  · rfl
  · rfl
  · rfl
  · rfl
  · exact read_loop_stuck '\n' (by decide) (by decide) (by decide) (n + 2) 0
      [[.list [.symbol "a"]]] ['\n']

/-! ## What `read` returns -/

theorem wrapInt_inIntRange (x : Int) : inIntRange (wrapInt x) := by
  unfold inIntRange wrapInt
  omega

theorem Readable_createAtom (temp : List Char) (hne : temp ≠ [])
    (h : ∀ ch ∈ temp, isDelimiter ch = false) : Readable (createAtom temp) := by
  unfold createAtom
  split
  · exact .number _ (wrapInt_inIntRange _)
  · rename_i hc
    refine .symbol _ ?_
    have h1 : temp.isEmpty = false := by
      cases temp with
      | nil => exact absurd rfl hne
      | cons _ _ => rfl
    have h2 : temp.all (fun c => !isDelimiter c) = true := by
      rw [List.all_eq_true]
      intro c hc
      simp [h c hc]
    have h3 : (createAtom temp).isNumber = false := by
      unfold createAtom
      rw [if_neg hc]
      rfl
    simp only [isSymbolName, h1, h2, h3]
    rfl


theorem mem_modify_append {x : Sexp} :
    ∀ (L : List (List Sexp)) (i : Nat) (l : List Sexp),
      l ∈ L.modify (fun v => v ++ [x]) i → l ∈ L ∨ ∃ l0 ∈ L, l = l0 ++ [x] := by
  intro L
  induction L with
  | nil => intro i l h; cases i <;> simp [List.modify] at h
  | cons a L ih =>
    intro i l h
    cases i with
    | zero =>
      simp only [List.modify_zero_cons, List.mem_cons] at h
      rcases h with rfl | h
      · exact Or.inr ⟨a, List.mem_cons_self _ _, rfl⟩
      · exact Or.inl (List.mem_cons_of_mem _ h)
    | succ i =>
      simp only [List.modify_succ_cons, List.mem_cons] at h
      rcases h with rfl | h
      · exact Or.inl (List.mem_cons_self _ _)
      · rcases ih i l h with h1 | ⟨l0, h0, rfl⟩
        · exact Or.inl (List.mem_cons_of_mem _ h1)
        · exact Or.inr ⟨l0, List.mem_cons_of_mem _ h0, rfl⟩

theorem pushAt_Readable (L v : List (List Sexp)) (i : Nat) (x : Sexp)
    (hL : ∀ l ∈ L, ∀ e ∈ l, Readable e) (hx : Readable x) (h : pushAt L i x = some v) :
    ∀ l ∈ v, ∀ e ∈ l, Readable e := by
  unfold pushAt at h
  split at h
  · simp only [Option.some.injEq] at h
    subst h
    intro l hl e he
    rcases mem_modify_append L i l hl with h1 | ⟨l0, h0, rfl⟩
    · exact hL l h1 e he
    · rcases List.mem_append.1 he with h2 | h2
      · exact hL l0 h0 e h2
      · rw [List.mem_singleton.1 h2]
        exact hx
  · exact Option.noConfusion h

theorem read_skip_end :
    ∀ (is : List Char) (c : Char) (b : Bool) (c2 : Char) (wd : Bool) (is2 : List Char),
      read_skip c b is = (c2, wd, is2) →
        isspace c2 = false ∨ (is2 = [] ∧ (isspace c2 = true → (c2 = c ∧ wd = b) ∨ wd = true)) := by
  intro is
  induction is with
  | nil =>
    intro c b c2 wd is2 h
    simp only [read_skip, Prod.mk.injEq] at h
    obtain ⟨rfl, rfl, rfl⟩ := h
    exact Or.inr ⟨rfl, fun _ => Or.inl ⟨rfl, rfl⟩⟩
  | cons ch rest ih =>
    intro c b c2 wd is2 h
    simp only [read_skip] at h
    split at h
    · rcases ih ch true c2 wd is2 h with h1 | ⟨h1, h2⟩
      · exact Or.inl h1
      · refine Or.inr ⟨h1, fun hs => ?_⟩
        rcases h2 hs with ⟨_, h3⟩ | h3
        · exact Or.inr h3
        · exact Or.inr h3
    · rename_i hsp
      simp only [Prod.mk.injEq] at h
      obtain ⟨rfl, rfl, rfl⟩ := h
      exact Or.inl (by simpa using hsp)


theorem isspace_not_paren (c : Char) (h : isspace c = true) : c ≠ '(' ∧ c ≠ ')' ∧ c ≠ ';' := by
  refine ⟨?_, ?_, ?_⟩ <;> (intro hc; subst hc; exact absurd h (by decide))

theorem isDelimiter_eq_false (c : Char) (h0 : isspace c = false) (h1 : c ≠ '(') (h2 : c ≠ ')')
    (h3 : c ≠ ';') : isDelimiter c = false := by
  simp [isDelimiter, h0, h1, h2, h3]

theorem read_switch_wf (c2 : Char) (p : Nat) (S : List (List Sexp)) (temp is2 : List Char)
    (wd : Bool) (hS : ∀ l ∈ S, ∀ e ∈ l, Readable e)
    (htemp : (∀ ch ∈ temp, isDelimiter ch = false) ∨
      (is2 = [] ∧ isspace c2 = true ∧ wd = false))
    (hc : isspace c2 = false ∨ is2 = []) :
    (∀ s1, read_switch ⟨c2, false, p, S, temp, is2⟩ wd = .next s1 → s1.wf) ∧
    (∀ e rest, read_switch ⟨c2, false, p, S, temp, is2⟩ wd = .done (.ok e rest) →
      ∃ elements, e = .list elements ∧ ∀ x ∈ elements, Readable x) := by
  have key : ∀ r, read_switch ⟨c2, false, p, S, temp, is2⟩ wd = r →
      (∀ s1, r = .next s1 → s1.wf) ∧
      (∀ e rest, r = .done (.ok e rest) →
        ∃ elements, e = .list elements ∧ ∀ x ∈ elements, Readable x) := by
    intro r h
    unfold read_switch at h
    simp only at h
    split at h
    · subst h
      exact ⟨fun s1 h1 => ReadStep.noConfusion h1, fun e rest h1 => by simp at h1⟩
    · rename_i s2 hfl
      have hs2 : s2.c = c2 ∧ s2.comment = false ∧ s2.is = is2 ∧
          (∀ l ∈ s2.listElements, ∀ e ∈ l, Readable e) ∧
          ((∀ ch ∈ s2.temp, isDelimiter ch = false) ∨ (is2 = [] ∧ isspace c2 = true)) := by
        split at hfl
        · rename_i hw
          have hclean : ∀ ch ∈ temp, isDelimiter ch = false := by
            rcases htemp with h1 | ⟨_, h2, h3⟩
            · exact h1
            · exfalso
              obtain ⟨p1, p2, _⟩ := isspace_not_paren c2 h2
              simp [h3, p1, p2] at hw
          have hne : temp ≠ [] := by
            intro h0
            subst h0
            simp at hw
          split at hfl
          · exact Option.noConfusion hfl
          · split at hfl
            · rename_i v hv
              simp only [Option.some.injEq] at hfl
              subst hfl
              exact ⟨rfl, rfl, rfl,
                pushAt_Readable _ _ _ _ hS (Readable_createAtom temp hne hclean) hv,
                Or.inl (fun ch hch => absurd hch (List.not_mem_nil ch))⟩
            · exact Option.noConfusion hfl
        · simp only [Option.some.injEq] at hfl
          subst hfl
          refine ⟨rfl, rfl, rfl, hS, ?_⟩
          rcases htemp with h1 | ⟨h1, h2, _⟩
          · exact Or.inl h1
          · exact Or.inr ⟨h1, h2⟩
      obtain ⟨e1, e2, e3, e4, e5⟩ := hs2
      split at h
      · rename_i hcl
        have hclose : c2 = ')' := by rw [← e1]; exact hcl
        have hclean : ∀ ch ∈ s2.temp, isDelimiter ch = false := by
          rcases e5 with h1 | ⟨_, h2⟩
          · exact h1
          · exact absurd hclose (isspace_not_paren c2 h2).2.1
        split at h
        · subst h
          exact ⟨fun s1 h1 => ReadStep.noConfusion h1, fun e rest h1 => by simp at h1⟩
        · split at h
          · subst h
            exact ⟨fun s1 h1 => ReadStep.noConfusion h1, fun e rest h1 => by simp at h1⟩
          · rename_i elements hel
            have hels : ∀ e ∈ elements, Readable e := e4 elements (List.get?_mem hel)
            split at h
            · subst h
              refine ⟨fun s1 h1 => ReadStep.noConfusion h1, fun e rest h1 => ?_⟩
              simp only [ReadStep.done.injEq, ReadResult.ok.injEq] at h1
              exact ⟨elements, h1.1.symm, hels⟩
            · split at h
              · rename_i v hv
                subst h
                refine ⟨fun s1 h1 => ?_, fun e rest h1 => by simp at h1⟩
                simp only [ReadStep.next.injEq] at h1
                subst h1
                exact ⟨pushAt_Readable _ _ _ _
                  (fun l hl => e4 l (List.mem_of_mem_dropLast hl)) (.list _ hels) hv,
                  Or.inl hclean⟩
              · subst h
                exact ⟨fun s1 h1 => ReadStep.noConfusion h1, fun e rest h1 => by simp at h1⟩
      · rename_i hncl
        have hnclose : c2 ≠ ')' := by rw [← e1]; exact hncl
        split at h
        · rename_i hop
          have hopen : c2 = '(' := by rw [← e1]; exact hop
          have hclean : ∀ ch ∈ s2.temp, isDelimiter ch = false := by
            rcases e5 with h1 | ⟨_, h2⟩
            · exact h1
            · exact absurd hopen (isspace_not_paren c2 h2).1
          subst h
          refine ⟨fun s1 h1 => ?_, fun e rest h1 => by simp at h1⟩
          simp only [ReadStep.next.injEq] at h1
          subst h1
          refine ⟨?_, Or.inl hclean⟩
          intro l hl e he
          rcases List.mem_append.1 hl with h2 | h2
          · exact e4 l h2 e he
          · rw [List.mem_singleton.1 h2] at he
            exact absurd he (List.not_mem_nil e)
        · rename_i hnop
          have hnopen : c2 ≠ '(' := by rw [← e1]; exact hnop
          split at h
          · rename_i hsc
            have hsemi : c2 = ';' := by rw [← e1]; exact hsc
            have hclean : ∀ ch ∈ s2.temp, isDelimiter ch = false := by
              rcases e5 with h1 | ⟨_, h2⟩
              · exact h1
              · exact absurd hsemi (isspace_not_paren c2 h2).2.2
            subst h
            refine ⟨fun s1 h1 => ?_, fun e rest h1 => by simp at h1⟩
            simp only [ReadStep.next.injEq] at h1
            subst h1
            exact ⟨e4, Or.inl hclean⟩
          · rename_i hnsc
            have hnsemi : c2 ≠ ';' := by rw [← e1]; exact hnsc
            subst h
            refine ⟨fun s1 h1 => ?_, fun e rest h1 => by simp at h1⟩
            simp only [ReadStep.next.injEq] at h1
            subst h1
            refine ⟨e4, ?_⟩
            cases hsp : isspace c2 with
            | true =>
              have his : is2 = [] := by
                rcases hc with h1 | h1
                · rw [hsp] at h1
                  exact Bool.noConfusion h1
                · exact h1
              exact Or.inr ⟨by rw [e3]; exact his, e2, by rw [e1]; exact hsp⟩
            | false =>
              rcases e5 with h1 | ⟨_, h2⟩
              · left
                intro ch hch
                rcases List.mem_append.1 hch with h3 | h3
                · exact h1 ch h3
                · rw [List.mem_singleton.1 h3, e1]
                  exact isDelimiter_eq_false c2 hsp hnopen hnclose hnsemi
              · rw [hsp] at h2
                exact Bool.noConfusion h2
  exact ⟨fun s1 h => (key _ h).1 s1 rfl, fun e rest h => (key _ h).2 e rest rfl⟩


theorem read_loop_Readable :
    ∀ (fuel : Nat) (s : ReadState), s.wf →
      ∀ e rest, read_loop fuel s = .ok e rest →
        ∃ elements, e = .list elements ∧ ∀ x ∈ elements, Readable x := by
  intro fuel
  induction fuel with
  | zero =>
    intro s _ e rest h
    simp [read_loop] at h
  | succ fuel ih =>
    intro s hwf e rest h
    cases hcm : (if s.comment then read_comment fuel s.c s.is else some (s.c, s.is)) with
    | none => simp [read_loop, hcm] at h
    | some q =>
      obtain ⟨c1, is1⟩ := q
      rcases hsk : read_skip c1 false is1 with ⟨c2, wd, is2⟩
      rw [read_loop_step fuel s c1 c2 is1 is2 wd hcm hsk] at h
      have hc : isspace c2 = false ∨ is2 = [] := by
        rcases read_skip_end is1 c1 false c2 wd is2 hsk with h1 | ⟨h1, _⟩
        · exact Or.inl h1
        · exact Or.inr h1
      have htemp : (∀ ch ∈ s.temp, isDelimiter ch = false) ∨
          (is2 = [] ∧ isspace c2 = true ∧ wd = false) := by
        rcases hwf.2 with h1 | ⟨h1, h2, h3⟩
        · exact Or.inl h1
        · right
          rw [h2, h1] at hcm
          simp only [Bool.false_eq_true, if_false, Option.some.injEq, Prod.mk.injEq] at hcm
          obtain ⟨rfl, rfl⟩ := hcm
          simp only [read_skip, Prod.mk.injEq] at hsk
          obtain ⟨rfl, rfl, rfl⟩ := hsk
          exact ⟨rfl, h3, rfl⟩
      obtain ⟨hnext, hdone⟩ := read_switch_wf c2 s.parentheses s.listElements s.temp is2 wd
        hwf.1 htemp hc
      cases hsw : read_switch ⟨c2, false, s.parentheses, s.listElements, s.temp, is2⟩ wd with
      | done r =>
        have h2 : r = .ok e rest := by
          have h3 := h
          simp only [hsw] at h3
          exact h3
        subst h2
        exact hdone e rest hsw
      | next s1 =>
        have h3 := h
        simp only [hsw] at h3
        split at h3
        · exact ih s1 (hnext s1 hsw) e rest h3
        · exact ReadResult.noConfusion h3

/-- Whatever `read` returns is a list built from Numbers, Symbols whose names are tokens that
`createAtom` does not take for numbers, and lists of these. -/
theorem read_Readable (fuel : Nat) (is : List Char) (e : Sexp) (rest : List Char)
    (h : read fuel is = .ok e rest) :
    ∃ elements, e = .list elements ∧ ∀ x ∈ elements, Readable x := by
  unfold read at h
  split at h
  · refine read_loop_Readable fuel _ ⟨?_, Or.inl ?_⟩ e rest h
    · intro l hl x hx
      rw [List.mem_singleton.1 hl] at hx
      exact absurd hx (List.not_mem_nil x)
    · intro ch hch
      exact absurd hch (List.not_mem_nil ch)
  · exact ReadResult.noConfusion h

/-- What `read` returns is written by `print` as a text that `read` reads as the same
expression: the lists of the round trip are all the lists that `read` makes. -/
theorem read_print_read (fuel : Nat) (is : List Char) (e : Sexp) (rest : List Char)
    (h : read fuel is = .ok e rest) :
    ∃ text, Sexp_print e = some text ∧
      ∃ fuel0, ∀ fuel1, fuel0 ≤ fuel1 → read fuel1 text = .ok e [] := by
  obtain ⟨elements, rfl, hel⟩ := read_Readable fuel is e rest h
  exact read_print_list elements hel

/-! ## A comment before more text -/

theorem read_comment_mono :
    ∀ (f : Nat) (c : Char) (is : List Char) (x : Char × List Char),
      read_comment f c is = some x → ∀ f1, f ≤ f1 → read_comment f1 c is = some x := by
  intro f
  induction f with
  | zero => intro c is x h; simp [read_comment] at h
  | succ f ih =>
    intro c is x h f1 hf
    obtain ⟨g, rfl⟩ : ∃ g, f1 = g + 1 := ⟨f1 - 1, by omega⟩
    cases is with
    | nil =>
      simp only [read_comment] at h ⊢
      split
      · rename_i hc
        rw [if_pos hc] at h
        exact h
      · rename_i hc
        rw [if_neg hc] at h
        exact ih c [] x h g (by omega)
    | cons ch rest =>
      simp only [read_comment] at h ⊢
      split
      · rename_i hc
        rw [if_pos hc] at h
        exact h
      · rename_i hc
        rw [if_neg hc] at h
        exact ih ch rest x h g (by omega)

theorem read_comment_scan :
    ∀ (text : List Char), (∀ x ∈ text, x ≠ '\n') →
      ∀ (f : Nat) (c : Char) (rest : List Char), text.length < f →
        read_comment f c (text ++ '\n' :: rest) = some ('\n', rest) := by
  intro text
  induction text with
  | nil =>
    intro _ f c rest hf
    obtain ⟨g, rfl⟩ : ∃ g, f = g + 1 := ⟨f - 1, by simp at hf; omega⟩
    simp [read_comment]
  | cons ch text ih =>
    intro hn f c rest hf
    obtain ⟨g, rfl⟩ : ∃ g, f = g + 1 := ⟨f - 1, by simp at hf; omega⟩
    have hch : ch ≠ '\n' := hn ch (List.mem_cons_self _ _)
    simp only [List.cons_append, read_comment, if_neg hch]
    exact ih (fun x hx => hn x (List.mem_cons_of_mem _ hx)) g ch rest
      (by simp at hf; omega)

theorem read_loop_mono :
    ∀ (f : Nat) (s : ReadState) (r : ReadResult), read_loop f s = r → r ≠ .outOfFuel →
      ∀ f1, f ≤ f1 → read_loop f1 s = r := by
  intro f
  induction f with
  | zero =>
    intro s r h hr
    simp only [read_loop] at h
    exact absurd h.symm hr
  | succ f ih =>
    intro s r h hr f1 hf
    obtain ⟨g, rfl⟩ : ∃ g, f1 = g + 1 := ⟨f1 - 1, by omega⟩
    have hg : f ≤ g := by omega
    cases hcm : (if s.comment then read_comment f s.c s.is else some (s.c, s.is)) with
    | none =>
      simp only [read_loop, hcm] at h
      exact absurd h.symm hr
    | some x =>
      obtain ⟨c1, is1⟩ := x
      have hcm1 : (if s.comment then read_comment g s.c s.is else some (s.c, s.is))
          = some (c1, is1) := by
        split
        · rename_i hc
          rw [if_pos hc] at hcm
          exact read_comment_mono f _ _ _ hcm g hg
        · rename_i hc
          rw [if_neg hc] at hcm
          exact hcm
      rcases hsk : read_skip c1 false is1 with ⟨c2, wd, is2⟩
      rw [read_loop_step f s c1 c2 is1 is2 wd hcm hsk] at h
      rw [read_loop_step g s c1 c2 is1 is2 wd hcm1 hsk]
      cases hsw : read_switch { s with c := c2, comment := false, is := is2 } wd with
      | done r1 =>
        simp only [hsw] at h
        exact h
      | next s1 =>
        simp only [hsw] at h ⊢
        split
        · rename_i hp
          rw [if_pos hp] at h
          exact ih s1 r h hr g hg
        · rename_i hp
          rw [if_neg hp] at h
          exact h

theorem StepReads_next (s1 : ReadState) (e : Sexp) :
    StepReads (.next s1) e ↔ 0 < s1.parentheses ∧ LoopReads s1 e := Iff.rfl

theorem StepReads_ok (e0 e : Sexp) (rest : List Char) :
    StepReads (.done (.ok e0 rest)) e ↔ e = e0 := Iff.rfl

/-- One pass of the loop: the loop returns `e` exactly when it does so after the pass. -/
theorem LoopReads_pass (s : ReadState) (e : Sexp) (c1 c2 : Char) (is1 is2 : List Char)
    (wd : Bool)
    (hcm : ∃ f0, (if s.comment then read_comment f0 s.c s.is else some (s.c, s.is))
      = some (c1, is1))
    (hsk : read_skip c1 false is1 = (c2, wd, is2)) :
    LoopReads s e
      ↔ StepReads (read_switch { s with c := c2, comment := false, is := is2 } wd) e := by
  obtain ⟨f0, hf0⟩ := hcm
  have hmono : ∀ f, f0 ≤ f →
      (if s.comment then read_comment f s.c s.is else some (s.c, s.is)) = some (c1, is1) := by
    intro f hf
    split
    · rename_i hc
      rw [if_pos hc] at hf0
      exact read_comment_mono f0 _ _ _ hf0 f hf
    · rename_i hc
      rw [if_neg hc] at hf0
      exact hf0
  constructor
  · rintro ⟨fuel, rest, h⟩
    have h2 := read_loop_mono fuel s _ h (by simp) (fuel + f0 + 1) (by omega)
    rw [read_loop_step (fuel + f0) s c1 c2 is1 is2 wd (hmono _ (by omega)) hsk] at h2
    cases hsw : read_switch { s with c := c2, comment := false, is := is2 } wd with
    | done r =>
      simp only [hsw] at h2
      subst h2
      rfl
    | next s1 =>
      simp only [hsw] at h2
      split at h2
      · rename_i hp
        exact ⟨hp, _, _, h2⟩
      · exact ReadResult.noConfusion h2
  · intro h
    cases hsw : read_switch { s with c := c2, comment := false, is := is2 } wd with
    | done r =>
      rw [hsw] at h
      cases r with
      | ok e0 rest0 =>
        simp only [StepReads] at h
        subst h
        refine ⟨f0 + 1, rest0, ?_⟩
        rw [read_loop_step f0 s c1 c2 is1 is2 wd hf0 hsk]
        simp only [hsw]
      | readAtom _ _ => exact absurd h (by simp [StepReads])
      | parsingError => exact absurd h (by simp [StepReads])
      | crash => exact absurd h (by simp [StepReads])
      | outOfFuel => exact absurd h (by simp [StepReads])
    | next s1 =>
      rw [hsw] at h
      obtain ⟨hp, f1, rest, h1⟩ := h
      refine ⟨f1 + f0 + 1, rest, ?_⟩
      rw [read_loop_step (f1 + f0) s c1 c2 is1 is2 wd (hmono _ (by omega)) hsk]
      simp only [hsw, gt_iff_lt, if_pos hp]
      exact read_loop_mono f1 s1 _ h1 (by simp) _ (by omega)

/-- A pass outside a comment, over white space `ws` and then the character `ch`. -/
theorem LoopReads_text (e : Sexp) (c0 : Char) (p : Nat) (S : List (List Sexp))
    (temp ws : List Char) (ch : Char) (rest : List Char)
    (hws : ∀ c ∈ ws, isspace c = true) (hch : isspace ch = false) :
    LoopReads ⟨c0, false, p, S, temp, ws ++ ch :: rest⟩ e
      ↔ StepReads (read_switch ⟨ch, false, p, S, temp, rest⟩ (!ws.isEmpty)) e := by
  have hsk := read_skip_spaces ws hws c0 false ch rest hch
  simp only [Bool.false_or] at hsk
  exact LoopReads_pass ⟨c0, false, p, S, temp, ws ++ ch :: rest⟩ e c0 ch _ rest _ ⟨0, rfl⟩ hsk

/-- A pass that starts inside a comment with the text `text`, a newline, white space `ws` and
then the character `ch` in the stream. -/
theorem LoopReads_comment (e : Sexp) (c0 : Char) (p : Nat) (S : List (List Sexp))
    (temp text ws : List Char) (ch : Char) (rest : List Char)
    (htext : ∀ x ∈ text, x ≠ '\n')
    (hws : ∀ c ∈ ws, isspace c = true) (hch : isspace ch = false) :
    LoopReads ⟨c0, true, p, S, temp, text ++ '\n' :: (ws ++ ch :: rest)⟩ e
      ↔ StepReads (read_switch ⟨ch, false, p, S, temp, rest⟩ (!ws.isEmpty)) e := by
  have hsk := read_skip_spaces ws hws '\n' false ch rest hch
  simp only [Bool.false_or] at hsk
  exact LoopReads_pass ⟨c0, true, p, S, temp, text ++ '\n' :: (ws ++ ch :: rest)⟩ e '\n' ch _
    rest _ ⟨text.length + 1, read_comment_scan text htext _ c0 _ (Nat.lt_succ_self _)⟩ hsk


theorem read_switch_semi (below : List (List Sexp)) (acc : List Sexp)
    (temp rest : List Char) (wd : Bool) :
    read_switch ⟨';', false, below.length + 1, below ++ [acc], temp, rest⟩ wd
      = .next ⟨';', true, below.length + 1, below ++ [flushed acc temp wd],
          (if wd && !temp.isEmpty then [] else temp), rest⟩ := by
  by_cases hf : (wd && !temp.isEmpty) = true
  · simp [read_switch, hf, pushAt_last, flushed]
  · simp [read_switch, hf, flushed]

/-- Storing the token before the pass changes nothing when the pass stores it too. -/
theorem read_switch_flushed (ch : Char) (below : List (List Sexp)) (acc : List Sexp)
    (temp rest : List Char) (wd1 wd2 : Bool) :
    read_switch ⟨ch, false, below.length + 1, below ++ [flushed acc temp wd1],
        (if wd1 && !temp.isEmpty then [] else temp), rest⟩ wd2
      = read_switch ⟨ch, false, below.length + 1, below ++ [acc], temp, rest⟩
          (wd1 || wd2) := by
  cases wd1 with
  | false => simp [flushed]
  | true =>
    cases temp with
    | nil => simp [flushed, read_switch]
    | cons t ts => simp [flushed, read_switch, pushAt_last]

theorem inComment_newline :
    ∀ (text : List Char) (b : Bool) (rest : List Char),
      inComment b (text ++ '\n' :: rest) = inComment false rest := by
  intro text
  induction text with
  | nil => intro b rest; simp [inComment]
  | cons ch text ih =>
    intro b rest
    simp only [List.cons_append, inComment]
    exact ih _ rest

theorem inComment_spaces :
    ∀ (ws : List Char), (∀ c ∈ ws, isspace c = true) →
      ∀ rest, inComment false (ws ++ rest) = inComment false rest := by
  intro ws
  induction ws with
  | nil => intro _ rest; rfl
  | cons w ws ih =>
    intro hws rest
    have hw := isspace_not_paren w (hws w (List.mem_cons_self _ _))
    simp only [List.cons_append, inComment, if_neg hw.2.2, ite_self]
    exact ih (fun c hc => hws c (List.mem_cons_of_mem _ hc)) rest

theorem inComment_true_split :
    ∀ (q : List Char), inComment true q = false →
      ∃ text q1, q = text ++ '\n' :: q1 ∧ (∀ x ∈ text, x ≠ '\n') := by
  intro q
  induction q with
  | nil => intro h; simp [inComment] at h
  | cons ch q ih =>
    intro h
    by_cases hch : ch = '\n'
    · subst hch
      exact ⟨[], q, rfl, fun x hx => absurd hx (List.not_mem_nil x)⟩
    · simp only [inComment, if_neg hch, ite_self] at h
      obtain ⟨text, q1, rfl, htext⟩ := ih h
      refine ⟨ch :: text, q1, rfl, ?_⟩
      intro x hx
      rcases List.mem_cons.1 hx with rfl | hx
      · exact hch
      · exact htext x hx

theorem split_spaces :
    ∀ (q : List Char), ∃ ws q1, q = ws ++ q1 ∧ (∀ c ∈ ws, isspace c = true) ∧
      (q1 = [] ∨ ∃ ch q2, q1 = ch :: q2 ∧ isspace ch = false) := by
  intro q
  induction q with
  | nil => exact ⟨[], [], rfl, fun c hc => absurd hc (List.not_mem_nil c), Or.inl rfl⟩
  | cons ch q ih =>
    cases hch : isspace ch with
    | false =>
      exact ⟨[], ch :: q, rfl, fun c hc => absurd hc (List.not_mem_nil c),
        Or.inr ⟨ch, q, rfl, hch⟩⟩
    | true =>
      obtain ⟨ws, q1, rfl, hws, hq1⟩ := ih
      refine ⟨ch :: ws, q1, rfl, ?_, hq1⟩
      intro c hc
      rcases List.mem_cons.1 hc with rfl | hc
      · exact hch
      · exact hws c hc

theorem inComment_split (cm : Bool) (q : List Char) (h : inComment cm q = false) :
    ∃ pre q1, q = pre ++ q1 ∧ CommentRest cm pre ∧ inComment false q1 = false := by
  cases cm with
  | false => exact ⟨[], q, rfl, Or.inl ⟨rfl, rfl⟩, h⟩
  | true =>
    obtain ⟨text, q1, rfl, htext⟩ := inComment_true_split q h
    refine ⟨text ++ ['\n'], q1, by simp, Or.inr ⟨rfl, text, rfl, htext⟩, ?_⟩
    rw [inComment_newline] at h
    exact h

/-- A pass over what is left of a comment, white space `ws` and then the character `ch`. -/
theorem LoopReads_prefix (e : Sexp) (c0 : Char) (cm : Bool) (p : Nat) (S : List (List Sexp))
    (temp pre ws : List Char) (ch : Char) (rest : List Char) (hpre : CommentRest cm pre)
    (hws : ∀ c ∈ ws, isspace c = true) (hch : isspace ch = false) :
    LoopReads ⟨c0, cm, p, S, temp, pre ++ (ws ++ ch :: rest)⟩ e
      ↔ StepReads (read_switch ⟨ch, false, p, S, temp, rest⟩ (!ws.isEmpty)) e := by
  rcases hpre with ⟨rfl, rfl⟩ | ⟨rfl, text, rfl, htext⟩
  · exact LoopReads_text e c0 p S temp ws ch rest hws hch
  · have h := LoopReads_comment e c0 p S temp text ws ch rest htext hws hch
    simpa using h


theorem comment_step (c ws1 : List Char) (ch1 : Char) (rest1 : List Char)
    (hc : ∀ x ∈ c, x ≠ '\n') (hws1 : ∀ x ∈ ws1, isspace x = true)
    (hch1 : isspace ch1 = false) (q : List Char)
    (ih : ∀ (q2 : List Char), q2.length < q.length → ∀ (cm : Bool), inComment cm q2 = false →
      ∀ (c0 : Char) (below : List (List Sexp)) (acc : List Sexp) (temp : List Char) (e : Sexp),
        LoopReads ⟨c0, cm, below.length + 1, below ++ [acc], temp,
            q2 ++ (';' :: c ++ '\n' :: (ws1 ++ ch1 :: rest1))⟩ e
          ↔ LoopReads ⟨c0, cm, below.length + 1, below ++ [acc], temp,
              q2 ++ (ws1 ++ ch1 :: rest1)⟩ e)
    (cm : Bool) (hq : inComment cm q = false) (c0 : Char) (below : List (List Sexp))
    (acc : List Sexp) (temp : List Char) (e : Sexp) :
    LoopReads ⟨c0, cm, below.length + 1, below ++ [acc], temp,
        q ++ (';' :: c ++ '\n' :: (ws1 ++ ch1 :: rest1))⟩ e
      ↔ LoopReads ⟨c0, cm, below.length + 1, below ++ [acc], temp,
          q ++ (ws1 ++ ch1 :: rest1)⟩ e := by
  obtain ⟨pre, q1, rfl, hpre, hq1⟩ := inComment_split cm q hq
  obtain ⟨ws, q3, rfl, hws, hq3⟩ := split_spaces q1
  rcases hq3 with rfl | ⟨ch, q2, rfl, hch⟩
  · have hL : (pre ++ (ws ++ [])) ++ (';' :: c ++ '\n' :: (ws1 ++ ch1 :: rest1))
        = pre ++ (ws ++ ';' :: (c ++ '\n' :: (ws1 ++ ch1 :: rest1))) := by simp
    have hR : (pre ++ (ws ++ [])) ++ (ws1 ++ ch1 :: rest1)
        = pre ++ ((ws ++ ws1) ++ ch1 :: rest1) := by simp
    have hws2 : ∀ x ∈ ws ++ ws1, isspace x = true := by
      intro x hx
      rcases List.mem_append.1 hx with h | h
      · exact hws x h
      · exact hws1 x h
    have hwd : (!(ws ++ ws1).isEmpty) = (!ws.isEmpty || !ws1.isEmpty) := by
      cases ws <;> cases ws1 <;> rfl
    rw [hL, hR, LoopReads_prefix e c0 cm _ _ temp pre ws ';' _ hpre hws rfl,
      LoopReads_prefix e c0 cm _ _ temp pre (ws ++ ws1) ch1 rest1 hpre hws2 hch1,
      read_switch_semi, hwd, StepReads_next]
    simp only [Nat.zero_lt_succ, true_and]
    rw [LoopReads_comment e ';' _ _ _ c ws1 ch1 rest1 hc hws1 hch1, read_switch_flushed]
  · have hX : ∀ X : List Char, (pre ++ (ws ++ ch :: q2)) ++ X
        = pre ++ (ws ++ ch :: (q2 ++ X)) := by
      intro X
      simp
    have hlt : q2.length < (pre ++ (ws ++ ch :: q2)).length := by
      simp only [List.length_append, List.length_cons]
      omega
    have hq2 : inComment false (ch :: q2) = false := by
      rw [inComment_spaces ws hws] at hq1
      exact hq1
    have hnl : ch ≠ '\n' := by
      intro h
      subst h
      exact absurd hch (by decide)
    rw [hX, hX, LoopReads_prefix e c0 cm _ _ temp pre ws ch _ hpre hws hch,
      LoopReads_prefix e c0 cm _ _ temp pre ws ch _ hpre hws hch]
    by_cases hopen : ch = '('
    · subst hopen
      have hlen : below.length + 2 = (below ++ [flushed acc temp true]).length + 1 := by simp
      rw [read_switch_open, read_switch_open, StepReads_next, StepReads_next]
      simp only [Nat.zero_lt_succ, true_and]
      rw [hlen]
      exact ih q2 hlt false (by simpa [inComment] using hq2) '(' _ [] [] e
    · by_cases hclose : ch = ')'
      · subst hclose
        rcases List.eq_nil_or_concat below with rfl | ⟨below1, acc0, rfl⟩
        · have h1 := read_switch_close_last acc temp
          simp only [List.length_nil, List.nil_append, Nat.zero_add] at h1 ⊢
          rw [h1, h1, StepReads_ok, StepReads_ok]
        · rw [read_switch_close _ below1 acc0 acc temp _ _ (List.concat_eq_append _ _),
            read_switch_close _ below1 acc0 acc temp _ _ (List.concat_eq_append _ _),
            StepReads_next, StepReads_next]
          simp only [Nat.zero_lt_succ, true_and]
          exact ih q2 hlt false (by simpa [inComment] using hq2) ')' _ _ [] e
      · by_cases hsemi : ch = ';'
        · subst hsemi
          rw [read_switch_semi, read_switch_semi, StepReads_next, StepReads_next]
          simp only [Nat.zero_lt_succ, true_and]
          exact ih q2 hlt true (by simpa [inComment] using hq2) ';' _ _ _ e
        · have hd : isDelimiter ch = false := isDelimiter_eq_false ch hch hopen hclose hsemi
          rw [read_switch_char ch below acc temp _ _ hd,
            read_switch_char ch below acc temp _ _ hd, StepReads_next, StepReads_next]
          simp only [Nat.zero_lt_succ, true_and]
          refine ih q2 hlt false ?_ ch _ _ _ e
          simpa [inComment, hnl, hsemi] using hq2

theorem comment_sim (c ws1 : List Char) (ch1 : Char) (rest1 : List Char)
    (hc : ∀ x ∈ c, x ≠ '\n') (hws1 : ∀ x ∈ ws1, isspace x = true)
    (hch1 : isspace ch1 = false) :
    ∀ (n : Nat) (q : List Char), q.length ≤ n → ∀ (cm : Bool), inComment cm q = false →
      ∀ (c0 : Char) (below : List (List Sexp)) (acc : List Sexp) (temp : List Char) (e : Sexp),
        LoopReads ⟨c0, cm, below.length + 1, below ++ [acc], temp,
            q ++ (';' :: c ++ '\n' :: (ws1 ++ ch1 :: rest1))⟩ e
          ↔ LoopReads ⟨c0, cm, below.length + 1, below ++ [acc], temp,
              q ++ (ws1 ++ ch1 :: rest1)⟩ e := by
  intro n
  induction n with
  | zero =>
    intro q hq
    exact comment_step c ws1 ch1 rest1 hc hws1 hch1 q (fun q2 h2 => by omega)
  | succ n ih =>
    intro q hq
    exact comment_step c ws1 ch1 rest1 hc hws1 hch1 q (fun q2 h2 => ih q2 (by omega))


theorem read_first_append :
    ∀ (p : List Char) (c0 : Option Char) (X : List Char), c0 ≠ some '(' →
      (read_first c0 p).1 = some '(' →
        read_first c0 (p ++ X) = (some '(', (read_first c0 p).2 ++ X) ∧
        inComment false p = inComment false (read_first c0 p).2 := by
  intro p
  induction p with
  | nil =>
    intro c0 X h0 h
    simp only [read_first] at h
    exact absurd h h0
  | cons ch p ih =>
    intro c0 X h0 h
    cases hch : isspace ch with
    | true =>
      have hne : some ch ≠ some '(' := by
        intro h1
        simp only [Option.some.injEq] at h1
        exact (isspace_not_paren ch hch).1 h1
      simp only [read_first, hch, if_true] at h
      obtain ⟨h1, h2⟩ := ih (some ch) X hne h
      simp only [List.cons_append, read_first, hch, if_true]
      refine ⟨h1, ?_⟩
      rw [← h2]
      exact inComment_spaces [ch] (by simpa using hch) p
    | false =>
      simp only [read_first, hch, Bool.false_eq_true, if_false, Option.some.injEq] at h
      subst h
      simp only [List.cons_append, read_first, hch, Bool.false_eq_true, if_false]
      exact ⟨rfl, by simp [inComment]⟩

theorem Reads_of_open (p X : List Char) (e : Sexp) (hopen : (read_first none p).1 = some '(') :
    Reads (p ++ X) e
      ↔ LoopReads ⟨'(', false, 1, [[]], [], (read_first none p).2 ++ X⟩ e := by
  have h := (read_first_append p none X (by simp) hopen).1
  simp only [Reads, LoopReads, read, h]

/-- Inside a list a line comment is dropped and does not end a token, when the text goes on
after it: for a text `p` that opens a list and does not end inside a comment, a comment text
`c` without a newline and a text `s` that is not all white space, `read` returns an expression
on `p ++ ";" ++ c ++ "\n" ++ s` exactly when it returns that expression on `p ++ s`. -/
theorem comment_is_dropped (p c s : List Char) (e : Sexp)
    (hopen : (read_first none p).1 = some '(') (hp : inComment false p = false)
    (hc : ∀ x ∈ c, x ≠ '\n') (hs : ∃ x ∈ s, isspace x = false) :
    Reads (p ++ (';' :: c ++ '\n' :: s)) e ↔ Reads (p ++ s) e := by
  obtain ⟨ws1, s1, rfl, hws1, hs1⟩ := split_spaces s
  rcases hs1 with rfl | ⟨ch1, rest1, rfl, hch1⟩
  · exfalso
    obtain ⟨x, hx, hx2⟩ := hs
    rw [List.append_nil] at hx
    rw [hws1 x hx] at hx2
    exact Bool.noConfusion hx2
  · rw [Reads_of_open p _ e hopen, Reads_of_open p _ e hopen]
    have hq : inComment false (read_first none p).2 = false := by
      rw [← (read_first_append p none [] (by simp) hopen).2]
      exact hp
    exact comment_sim c ws1 ch1 rest1 hc hws1 hch1 _ _ (Nat.le_refl _) false hq '(' [] [] [] e

theorem comment_is_dropped_example :
    (Reads "(ab;x\ncd)".data (.list [.symbol "abcd"]) ↔
      Reads "(abcd)".data (.list [.symbol "abcd"])) ∧
    Reads "(abcd)".data (.list [.symbol "abcd"]) :=
  ⟨comment_is_dropped "(ab".data "x".data "cd)".data _ rfl rfl (by decide)
      ⟨'c', by decide, rfl⟩,
    ⟨6, [], rfl⟩⟩

/-! ## The round trip -/

theorem strtol_digits_of_not_startsDigit (rest : List Char) (h : startsDigit rest = false) :
    strtol_digits rest 0 = 0 := by
  cases rest with
  | nil => rfl
  | cons d r =>
    simp only [startsDigit] at h
    simp [strtol_digits, h]

theorem strtol_of_not_startsNumber (c : Char) (cs : List Char) (hc : isspace c = false)
    (h : startsNumber (c :: cs) = false) : strtol (c :: cs) = 0 := by
  simp only [startsNumber, Bool.or_eq_false_iff, Bool.and_eq_false_iff] at h
  obtain ⟨h1, h2⟩ := h
  have hdw : (c :: cs).dropWhile isspace = c :: cs := by
    simp [List.dropWhile, hc]
  have hcs : strtol_digits (c :: cs) 0 = 0 := by simp [strtol_digits, h1]
  unfold strtol
  rw [hdw]
  by_cases hm : c = '-'
  · subst hm
    have h3 : startsDigit cs = false := by
      rcases h2 with h2 | h2
      · simp at h2
      · exact h2
    simp [strtol_digits_of_not_startsDigit cs h3]
  · by_cases hp : c = '+'
    · subst hp
      have h3 : startsDigit cs = false := by
        rcases h2 with h2 | h2
        · simp at h2
        · exact h2
      simp [strtol_digits_of_not_startsDigit cs h3]
    · split
      · rename_i heq
        simp only [List.cons.injEq] at heq
        exact absurd heq.1 hm
      · rename_i heq
        simp only [List.cons.injEq] at heq
        exact absurd heq.1 hp
      · rw [hcs]
        rfl

theorem isSymbolName_of_isPlainName (Name : String) (h : isPlainName Name = true) :
    isSymbolName Name = true := by
  simp only [isPlainName, Bool.and_eq_true, Bool.not_eq_true'] at h
  obtain ⟨⟨h1, h2⟩, h3⟩ := h
  cases hd : Name.data with
  | nil => rw [hd] at h1; simp at h1
  | cons c cs =>
    rw [hd] at h2 h3
    have hc : isDelimiter c = false := by
      have := List.all_eq_true.1 h2 c (List.mem_cons_self _ _)
      simpa using this
    have hs : strtol (c :: cs) = 0 :=
      strtol_of_not_startsNumber c cs (isspace_of_not_isDelimiter c hc).1 h3
    have hz : c :: cs ≠ ['0'] := by
      intro hz
      simp only [List.cons.injEq] at hz
      obtain ⟨rfl, rfl⟩ := hz
      simp [startsNumber] at h3
    have hsym : createAtom (c :: cs) = .symbol (String.mk (c :: cs)) := by
      unfold createAtom
      rw [if_neg]
      rw [hs]
      rintro (h4 | h4)
      · exact h4 rfl
      · exact hz h4
    simp only [isSymbolName, hd, hsym, Sexp.isNumber, h2]
    rfl

theorem Readable_of_PlainData (e : Sexp) (h : PlainData e) : Readable e := by
  induction h with
  | number value hv => exact .number value hv
  | symbol Name hn => exact .symbol Name (isSymbolName_of_isPlainName Name hn)
  | list elements _ ih => exact .list elements ih

theorem read_mono (f : Nat) (is : List Char) (r : ReadResult) (h : read f is = r)
    (hr : r ≠ .outOfFuel) (f1 : Nat) (hf : f ≤ f1) : read f1 is = r := by
  rcases hrf : read_first none is with ⟨c, is1⟩
  by_cases hc : c = some '('
  · subst hc
    simp only [read, hrf] at h ⊢
    exact read_loop_mono f _ r h hr f1 hf
  · have hread : ∀ g, read g is = .readAtom c is1 := by
      intro g
      unfold read
      split
      · rename_i is2 heq
        rw [hrf] at heq
        simp only [Prod.mk.injEq] at heq
        exact absurd heq.1 hc
      · rename_i c2 is2 _ heq
        rw [hrf] at heq
        simp only [Prod.mk.injEq] at heq
        rw [heq.1, heq.2]
    rw [hread] at h ⊢
    exact h

/-- The result of `read` does not depend on the fuel. -/
theorem read_ok_unique (f1 f2 : Nat) (is : List Char) (e1 e2 : Sexp) (r1 r2 : List Char)
    (h1 : read f1 is = .ok e1 r1) (h2 : read f2 is = .ok e2 r2) : e1 = e2 ∧ r1 = r2 := by
  have h3 := read_mono f1 is _ h1 (by simp) (max f1 f2) (Nat.le_max_left _ _)
  have h4 := read_mono f2 is _ h2 (by simp) (max f1 f2) (Nat.le_max_right _ _)
  rw [h3] at h4
  simpa using h4


theorem PlainData_sample :
    ∀ e ∈ [Sexp.symbol "define", .list [.symbol "f", .symbol "x"],
        .list [.symbol "+", .symbol "x", .number (-12)], .list []], PlainData e := by
  intro e he
  simp only [List.mem_cons, List.mem_singleton, List.not_mem_nil, or_false] at he
  rcases he with rfl | rfl | rfl | rfl
  · exact .symbol _ rfl
  · refine .list _ ?_
    intro x hx
    simp only [List.mem_cons, List.mem_singleton, List.not_mem_nil, or_false] at hx
    rcases hx with rfl | rfl
    · exact .symbol _ rfl
    · exact .symbol _ rfl
  · refine .list _ ?_
    intro x hx
    simp only [List.mem_cons, List.mem_singleton, List.not_mem_nil, or_false] at hx
    rcases hx with rfl | rfl | rfl
    · exact .symbol _ rfl
    · exact .symbol _ rfl
    · exact .number _ (by decide)
  · exact .list _ (fun x hx => absurd hx (List.not_mem_nil x))

/-- C23, as the code has it: for every list built from Numbers, Symbols with plain names (not empty,
without white space, parenthesis or semicolon, and not beginning with a digit or with a sign
and a digit) and lists of these, nested and empty ones too, `print` writes a text and `read`
on that text returns, given the fuel for its passes, a list equal to the original and leaves
nothing of the stream. -/
theorem print_then_read_is_identity (elements : List Sexp)
    (h : ∀ e ∈ elements, PlainData e) :
    ∃ text, Sexp_print (.list elements) = some text ∧
      ∃ fuel0, ∀ fuel, fuel0 ≤ fuel → read fuel text = .ok (.list elements) [] :=
  read_print_list elements (fun e he => Readable_of_PlainData e (h e he))

theorem print_then_read_is_identity_witness :
    (∀ e ∈ [Sexp.symbol "define", .list [.symbol "f", .symbol "x"],
        .list [.symbol "+", .symbol "x", .number (-12)], .list []], PlainData e) ∧
    ∃ text, Sexp_print (.list [.symbol "define", .list [.symbol "f", .symbol "x"],
        .list [.symbol "+", .symbol "x", .number (-12)], .list []]) = some text ∧
      ∃ fuel0, ∀ fuel, fuel0 ≤ fuel → read fuel text
        = .ok (.list [.symbol "define", .list [.symbol "f", .symbol "x"],
            .list [.symbol "+", .symbol "x", .number (-12)], .list []]) [] :=
  ⟨PlainData_sample, print_then_read_is_identity _ PlainData_sample⟩

/-- The list `(define (f x) (+ x -12) ())` is written as that text and the text is read as
the list. -/
theorem print_then_read_example :
    Sexp_print (.list [.symbol "define", .list [.symbol "f", .symbol "x"],
        .list [.symbol "+", .symbol "x", .number (-12)], .list []])
      = some "(define (f x) (+ x -12) ())".data ∧
    read 30 "(define (f x) (+ x -12) ())".data
      = .ok (.list [.symbol "define", .list [.symbol "f", .symbol "x"],
          .list [.symbol "+", .symbol "x", .number (-12)], .list []]) [] :=
  ⟨by simp only [Sexp_print, List_print_elements]; rfl, rfl⟩

theorem read_12_ne (fuel : Nat) (rest : List Char) :
    read fuel "(12)".data ≠ .ok (.list [.symbol "12"]) rest := by
  intro h
  have h1 : read 3 "(12)".data = .ok (.list [.number 12]) [] := rfl
  have h2 := (read_ok_unique _ _ _ _ _ _ _ h h1).1
  simp at h2

theorem read_a_b_ne (fuel : Nat) (rest : List Char) :
    read fuel "(a b)".data ≠ .ok (.list [.symbol "a b"]) rest := by
  intro h
  have h1 : read 3 "(a b)".data = .ok (.list [.symbol "a", .symbol "b"]) [] := rfl
  have h2 := (read_ok_unique _ _ _ _ _ _ _ h h1).1
  simp at h2

/-- C23 as stated fails: the list whose one element is the Symbol named `12` is written
as the text `(12)`, and what `read` returns on that text is the list of the Number `12`, for
no fuel the original list; the list of the Symbol named `a b` is written as `(a b)`, which is
read as a list of two Symbols.  `print` writes a name as it is and `read` tells Numbers from
Symbols, and one Symbol from the next, by the text alone. -/
theorem print_then_read_changes_symbol :
    Sexp_print (.list [.symbol "12"]) = some "(12)".data ∧
    read 3 "(12)".data = .ok (.list [.number 12]) [] ∧
    (∀ fuel rest, read fuel "(12)".data ≠ .ok (.list [.symbol "12"]) rest) ∧
    Sexp_print (.list [.symbol "a b"]) = some "(a b)".data ∧
    read 3 "(a b)".data = .ok (.list [.symbol "a", .symbol "b"]) [] ∧
    (∀ fuel rest, read fuel "(a b)".data ≠ .ok (.list [.symbol "a b"]) rest) :=
  ⟨by simp only [Sexp_print, List_print_elements]; rfl, rfl, read_12_ne,
    by simp only [Sexp_print, List_print_elements]; rfl, rfl, read_a_b_ne⟩

/-- The names `abc`, `-` and `#t` are plain; `00` is not plain, though `read` makes a Symbol of
that name; `12` and `a b` are neither plain nor names of Symbols that `read` makes. -/
theorem isPlainName_examples :
    isPlainName "abc" = true ∧ isPlainName "-" = true ∧ isPlainName "#t" = true ∧
    isPlainName "00" = false ∧ isSymbolName "00" = true ∧
    isPlainName "12" = false ∧ isSymbolName "12" = false ∧
    isPlainName "a b" = false ∧ isSymbolName "a b" = false :=
  ⟨rfl, rfl, rfl, rfl, rfl, rfl, rfl, rfl, rfl⟩

end Scheme
